import Mathlib

/-!
# Breaking-check configuration: codec, adapters and canonical bytes

A shallow embedding of `private/bufpkg/bufcheck/bufbreaking/bufbreakingconfig/bufbreakingconfig.go`.

Conventions of the embedding

* A Go `string` is a Lean `String` (a valid UTF-8 text); strings are compared by
  their UTF-8 bytes, as Go does. A Go slice is a `List` (a nil slice and an empty
  slice are both `[]`; they behave alike under `len`, `range`, `append`, `sort`
  and `omitempty`). A `Config` of lists is a Config whose slices occupy separate
  storage.
* `sort.Strings` works on the storage of a slice, and two slices of a Config may
  be windows onto one array. The section `Mem` gives `configToJSON` and
  `BytesForConfig` on slices that are an address and a length in a memory; on
  slices that share no storage they agree with the functions on lists.
* A Go `map[string][]string` is a `PathsMap`: its entries in the order in which
  one `range` loop enumerates them, with pairwise distinct keys. A nil map is
  `none`.
* Functions that sort a slice in place return the new contents of what they
  touched next to their result.
* The standard library (`sort`, `encoding/json`) and `gopkg.in/yaml.v3` are
  modelled as far as the functions of this file use them.
* A pointer that may be nil is an `Option`; a call that dereferences a nil
  pointer ends in `panic`.
* The transport message `breakingv1.Config` is generated code outside the
  sources at hand; its fields and getters are modelled from the spec.
-/

namespace Buf

/-! ## Strings and sorting -/

/-- The UTF-8 encoding of a code point, as a list of bytes. -/
def utf8EncodeNat (n : Nat) : List Nat :=
  if n < 128 then [n]
  else if n < 2048 then [192 + n / 64, 128 + n % 64]
  else if n < 65536 then [224 + n / 4096, 128 + n / 64 % 64, 128 + n % 64]
  else [240 + n / 262144, 128 + n / 4096 % 64, 128 + n / 64 % 64, 128 + n % 64]

/-- The bytes of a Go string: the UTF-8 encoding of its text. -/
def utf8Bytes (s : String) : List Nat := s.data.flatMap (fun c => utf8EncodeNat c.toNat)

/-- Go's `a <= b` on strings: the lexicographic comparison of their bytes. -/
def strLE (a b : String) : Prop := utf8Bytes a ≤ utf8Bytes b

instance strLE.decidable (a b : String) : Decidable (strLE a b) := by
  unfold strLE; infer_instance

/-- `sort.Strings`: the slice rearranged into ascending order. -/
def sortStrings (l : List String) : List String := l.insertionSort strLE

/-! ## The Config model -/

/-- A `map[string][]string` that is not nil: the entries as one `range` loop
yields them; keys are pairwise distinct. -/
structure PathsMap where
  entries : List (String × List String)
  nodup : (entries.map Prod.fst).Nodup

instance PathsMap.decEq : DecidableEq PathsMap := fun a b =>
  decidable_of_iff (a.entries = b.entries) (by cases a; cases b; simp)

/-- `Config`, the breaking check config. -/
structure Config where
  Use : List String
  Except : List String
  IgnoreRootPaths : List String
  IgnoreIDOrCategoryToRootPaths : Option PathsMap
  IgnoreUnstablePackages : Bool
  Version : String
deriving DecidableEq

/-- `idPathsJSON`. -/
structure idPathsJSON where
  ID : String
  Paths : List String
deriving DecidableEq

/-- `configJSON`, the intermediary form that is marshalled. -/
structure configJSON where
  Use : List String
  Except : List String
  IgnoreRootPaths : List String
  IgnoreIDOrCategoryToRootPaths : List idPathsJSON
  IgnoreUnstablePackages : Bool
  Version : String
deriving DecidableEq

/-- The entries of a possibly nil map, as `range` enumerates them (none for nil). -/
def mapEntries : Option PathsMap → List (String × List String)
  | none => []
  | some m => m.entries

/-- What the `range` loop of `configToJSON` leaves in the map: `sort.Strings(rootPaths)`
sorts the array that the map's value points to, for every key. -/
def PathsMap.sortPaths (m : PathsMap) : PathsMap :=
  ⟨m.entries.map (fun e => (e.1, sortStrings e.2)), by
    have h : (m.entries.map (fun e => (e.1, sortStrings e.2))).map Prod.fst
        = m.entries.map Prod.fst := by
      rw [List.map_map]; rfl
    rw [h]; exact m.nodup⟩

/-- `sort.Slice(ignoreIDPathsJSON, func(i, j) bool { return s[i].ID < s[j].ID })`.
The ids come from the keys of one map, so no two are equal and the order of
equal elements (which `sort.Slice` leaves open) never matters. -/
def sortByID (l : List idPathsJSON) : List idPathsJSON :=
  l.insertionSort (fun a b => strLE a.ID b.ID)

/-- `configToJSON(config)` for a non-nil `config` whose slices occupy separate
storage (each is a list of its own): the `configJSON` it returns, and the
`Config` behind the pointer after the call. The function sorts `config.Use`,
`config.Except`, `config.IgnoreRootPaths` and every path list of the map where
they are (no copy is taken), and the returned struct shares them. For slices
that may overlap see `Mem.configToJSON`. -/
def configToJSON (config : Config) : configJSON × Config :=
  -- for ignoreID, rootPaths := range ...: sort.Strings(rootPaths); append
  let sortedMap := config.IgnoreIDOrCategoryToRootPaths.map PathsMap.sortPaths
  let ignoreIDPathsJSON : List idPathsJSON :=
    (mapEntries config.IgnoreIDOrCategoryToRootPaths).map
      (fun e => { ID := e.1, Paths := sortStrings e.2 })
  let ignoreIDPathsJSON := sortByID ignoreIDPathsJSON
  let use := sortStrings config.Use
  let except := sortStrings config.Except
  let ignoreRootPaths := sortStrings config.IgnoreRootPaths
  ({ Use := use
     Except := except
     IgnoreRootPaths := ignoreRootPaths
     IgnoreIDOrCategoryToRootPaths := ignoreIDPathsJSON
     IgnoreUnstablePackages := config.IgnoreUnstablePackages
     Version := config.Version },
   { Use := use
     Except := except
     IgnoreRootPaths := ignoreRootPaths
     IgnoreIDOrCategoryToRootPaths := sortedMap
     IgnoreUnstablePackages := config.IgnoreUnstablePackages
     Version := config.Version })

/-! ## `encoding/json` on `configJSON` -/

/-- Lower-case hexadecimal digit. -/
def hexDigit (n : Nat) : Char := "0123456789abcdef".data.getD n (Char.ofNat 48)

/-- How `json.Marshal` writes one character of a string (HTML escaping is on for
`json.Marshal`): quote and backslash get a backslash, newline, carriage return
and tab their short form, the other control characters and `<`, `>`, `&` the
form `\u00XX`, U+2028 and U+2029 the form `\u202X`; every other character is
written as it is. (Go releases from 1.22 on shorten backspace and form feed as
well; the releases this code was written for do not.) -/
def jsonEscapeChar (c : Char) : List Char :=
  let n := c.toNat
  if n = 34 then [Char.ofNat 92, Char.ofNat 34]
  else if n = 92 then [Char.ofNat 92, Char.ofNat 92]
  else if n = 10 then [Char.ofNat 92, Char.ofNat 110]
  else if n = 13 then [Char.ofNat 92, Char.ofNat 114]
  else if n = 9 then [Char.ofNat 92, Char.ofNat 116]
  else if n < 32 ∨ n = 60 ∨ n = 62 ∨ n = 38 then
    [Char.ofNat 92, Char.ofNat 117, Char.ofNat 48, Char.ofNat 48, hexDigit (n / 16), hexDigit (n % 16)]
  else if n = 8232 ∨ n = 8233 then
    [Char.ofNat 92, Char.ofNat 117, Char.ofNat 50, Char.ofNat 48, Char.ofNat 50, hexDigit (n % 16)]
  else [c]

/-- A JSON string literal as `json.Marshal` writes it. -/
def jsonString (s : String) : String :=
  "\"" ++ String.mk (s.data.flatMap jsonEscapeChar) ++ "\""

/-- A JSON array from the encodings of its elements. -/
def jsonArray (items : List String) : String :=
  "[" ++ ",".intercalate items ++ "]"

/-- A struct field tagged `json:"name,omitempty"`: left out when the value is
empty (false, a zero-length slice or string), else written as `"name":value`. -/
def jsonField (name : String) (isEmpty : Bool) (value : String) : Option String :=
  if isEmpty then none else some ("\"" ++ name ++ "\":" ++ value)

/-- A JSON object from its fields, in declaration order. -/
def jsonObject (fields : List (Option String)) : String :=
  "\x7b" ++ ",".intercalate (fields.filterMap id) ++ "\x7d"

/-- A `[]string` as JSON. -/
def jsonStrings (l : List String) : String := jsonArray (l.map jsonString)

/-- The encoding of an `idPathsJSON`: fields `id` and `paths`, both `omitempty`. -/
def jsonIDPaths (e : idPathsJSON) : String :=
  jsonObject
    [ jsonField "id" e.ID.data.isEmpty (jsonString e.ID),
      jsonField "paths" e.Paths.isEmpty (jsonStrings e.Paths) ]

/-- The result of `json.Marshal` on a `*configJSON`: the fields in declaration order under their
tag names, each `omitempty`. Marshalling this type cannot fail. -/
def jsonMarshal (c : configJSON) : String :=
  jsonObject
    [ jsonField "use" c.Use.isEmpty (jsonStrings c.Use),
      jsonField "except" c.Except.isEmpty (jsonStrings c.Except),
      jsonField "ignore_root_paths" c.IgnoreRootPaths.isEmpty (jsonStrings c.IgnoreRootPaths),
      jsonField "ignore_id_to_root_paths" c.IgnoreIDOrCategoryToRootPaths.isEmpty
        (jsonArray (c.IgnoreIDOrCategoryToRootPaths.map jsonIDPaths)),
      jsonField "ignore_unstable_packages" (!c.IgnoreUnstablePackages)
        (if c.IgnoreUnstablePackages then "true" else "false"),
      jsonField "version" c.Version.data.isEmpty (jsonString c.Version) ]

/-- What a call `BytesForConfig(config)` yields: the two results (`none` is nil)
and the `Config` behind the pointer afterwards. -/
structure BytesResult where
  bytes : Option String
  err : Option String
  config : Option Config
deriving DecidableEq

/-- `BytesForConfig`. -/
def BytesForConfig : Option Config → BytesResult
  | none => { bytes := none, err := none, config := none }
  | some config =>
    let r := configToJSON config
    { bytes := some (jsonMarshal r.1), err := none, config := some r.2 }

/-! ## Slices that share storage

The `Config` above holds each `[]string` as a list of its own, which is what a
Config is whose slices occupy separate storage. A Go slice is a window onto a
backing array, and two slices may overlap; `sort.Strings` rearranges the
elements where they are. What follows is `configToJSON` and `BytesForConfig`
on slices that are such windows: a slice is the address of its first element
and its length, and the elements stand in a memory. -/

namespace Mem

/-- The memory behind the `[]string` values: the string at each address. -/
abbrev Memory := Nat → String

/-- A `[]string`: the address of its first element and its length. A nil slice
has length 0. -/
structure Slice where
  addr : Nat
  len : Nat
deriving DecidableEq

/-- The elements of a slice, as they stand in the memory. -/
def Slice.read (s : Slice) (mem : Memory) : List String :=
  (List.range s.len).map (fun i => mem (s.addr + i))

/-- `sort.Strings(s)`: the elements of `s` are rearranged into ascending order
where they stand; no other address changes. -/
def sortStrings (mem : Memory) (s : Slice) : Memory :=
  fun a =>
    if s.addr ≤ a ∧ a < s.addr + s.len then
      (Buf.sortStrings (s.read mem)).getD (a - s.addr) ""
    else mem a

/-- A `map[string][]string` that is not nil: the entries as one `range` loop
yields them, each value a slice; keys are pairwise distinct. -/
structure PathsMap where
  entries : List (String × Slice)
  nodup : (entries.map Prod.fst).Nodup

/-- `Config`, with its slices as windows onto the memory. -/
structure Config where
  Use : Slice
  Except : Slice
  IgnoreRootPaths : Slice
  IgnoreIDOrCategoryToRootPaths : Option PathsMap
  IgnoreUnstablePackages : Bool
  Version : String

/-- `idPathsJSON`. -/
structure idPathsJSON where
  ID : String
  Paths : Slice
deriving DecidableEq

/-- `configJSON`: the struct that `configToJSON` returns holds the slices of the
Config, not copies of their elements. -/
structure configJSON where
  Use : Slice
  Except : Slice
  IgnoreRootPaths : Slice
  IgnoreIDOrCategoryToRootPaths : List idPathsJSON
  IgnoreUnstablePackages : Bool
  Version : String
deriving DecidableEq

/-- The entries of a possibly nil map, as `range` enumerates them. -/
def mapEntries : Option PathsMap → List (String × Slice)
  | none => []
  | some m => m.entries

/-- `sort.Slice(ignoreIDPathsJSON, ...)` by id; the ids are the keys of one map,
so no two are equal. -/
def sortByID (l : List idPathsJSON) : List idPathsJSON :=
  l.insertionSort (fun a b => strLE a.ID b.ID)

/-- `configToJSON(config)` for a non-nil `config`: the struct it returns and the
memory after the call. The `range` loop sorts the path list of each entry where
it stands, in the order of the enumeration; then `config.Use`, `config.Except`
and `config.IgnoreRootPaths` are sorted where they stand, in this order. -/
def configToJSON (mem : Memory) (config : Config) : configJSON × Memory :=
  let entries := mapEntries config.IgnoreIDOrCategoryToRootPaths
  -- for ignoreID, rootPaths := range ...: sort.Strings(rootPaths); append
  let mem := entries.foldl (fun m e => sortStrings m e.2) mem
  let ignoreIDPathsJSON : List idPathsJSON := entries.map (fun e => { ID := e.1, Paths := e.2 })
  let ignoreIDPathsJSON := sortByID ignoreIDPathsJSON
  let mem := sortStrings mem config.Use
  let mem := sortStrings mem config.Except
  let mem := sortStrings mem config.IgnoreRootPaths
  ({ Use := config.Use
     Except := config.Except
     IgnoreRootPaths := config.IgnoreRootPaths
     IgnoreIDOrCategoryToRootPaths := ignoreIDPathsJSON
     IgnoreUnstablePackages := config.IgnoreUnstablePackages
     Version := config.Version }, mem)

/-- What `json.Marshal` finds behind an entry: its id and the elements of its
paths. -/
def idPathsJSON.read (e : idPathsJSON) (mem : Memory) : Buf.idPathsJSON :=
  { ID := e.ID, Paths := e.Paths.read mem }

/-- What `json.Marshal` finds behind the struct: the elements of its slices as
they stand in the memory when it is marshalled. -/
def configJSON.read (c : configJSON) (mem : Memory) : Buf.configJSON :=
  { Use := c.Use.read mem
    Except := c.Except.read mem
    IgnoreRootPaths := c.IgnoreRootPaths.read mem
    IgnoreIDOrCategoryToRootPaths := c.IgnoreIDOrCategoryToRootPaths.map (fun e => e.read mem)
    IgnoreUnstablePackages := c.IgnoreUnstablePackages
    Version := c.Version }

/-- The Config with the elements of its slices as they stand in the memory. -/
def Config.read (c : Config) (mem : Memory) : Buf.Config :=
  { Use := c.Use.read mem
    Except := c.Except.read mem
    IgnoreRootPaths := c.IgnoreRootPaths.read mem
    IgnoreIDOrCategoryToRootPaths :=
      c.IgnoreIDOrCategoryToRootPaths.map (fun m =>
        ⟨m.entries.map (fun e => (e.1, e.2.read mem)), by
          have h : (m.entries.map (fun e => (e.1, e.2.read mem))).map Prod.fst
              = m.entries.map Prod.fst := by
            rw [List.map_map]; rfl
          rw [h]; exact m.nodup⟩)
    IgnoreUnstablePackages := c.IgnoreUnstablePackages
    Version := c.Version }

/-- What a call `BytesForConfig(config)` yields: the two results (`none` is nil)
and the memory afterwards. -/
structure BytesResult where
  bytes : Option String
  err : Option String
  memory : Memory

/-- `BytesForConfig`: `json.Marshal` reads the slices of the struct after
`configToJSON` has returned. -/
def BytesForConfig (mem : Memory) : Option Config → BytesResult
  | none => { bytes := none, err := none, memory := mem }
  | some config =>
    let r := configToJSON mem config
    { bytes := some (jsonMarshal (r.1.read r.2)), err := none, memory := r.2 }

end Mem

/-! ## `gopkg.in/yaml.v3` nodes (after v3.0.1)

A node carries its kind, style, tag, value and children. Anchors, alias targets,
comments and positions are left out: no function of this package reads or writes
them, and a node of alias kind therefore has no target. -/

/-- `yaml.DocumentNode`. -/
def DocumentNode : Nat := 1
/-- `yaml.SequenceNode`. -/
def SequenceNode : Nat := 2
/-- `yaml.MappingNode`. -/
def MappingNode : Nat := 4
/-- `yaml.ScalarNode`. -/
def ScalarNode : Nat := 8
/-- `yaml.AliasNode`. -/
def AliasNode : Nat := 16

/-- `yaml.DoubleQuotedStyle`. -/
def DoubleQuotedStyle : Nat := 2
/-- `yaml.SingleQuotedStyle`. -/
def SingleQuotedStyle : Nat := 4
/-- `yaml.LiteralStyle`. -/
def LiteralStyle : Nat := 8
/-- `yaml.FoldedStyle`. -/
def FoldedStyle : Nat := 16

/-- `yaml.Node`. -/
inductive Node where
  | mk (Kind : Nat) (Style : Nat) (Tag : String) (Value : String) (Content : List Node)

mutual
/-- Equality of nodes is decidable. -/
def Node.decEq : (a b : Node) → Decidable (a = b)
  | .mk k s t v c, .mk k' s' t' v' c' =>
    if hk : k = k' then
      if hs : s = s' then
        if ht : t = t' then
          if hv : v = v' then
            match Node.decEqList c c' with
            | isTrue hc => isTrue (by rw [hk, hs, ht, hv, hc])
            | isFalse hc => isFalse (fun h => hc (by injection h))
          else isFalse (fun h => hv (by injection h))
        else isFalse (fun h => ht (by injection h))
      else isFalse (fun h => hs (by injection h))
    else isFalse (fun h => hk (by injection h))
/-- Equality of lists of nodes is decidable. -/
def Node.decEqList : (a b : List Node) → Decidable (a = b)
  | [], [] => isTrue rfl
  | [], _ :: _ => isFalse (fun h => by cases h)
  | _ :: _, [] => isFalse (fun h => by cases h)
  | a :: l, b :: l' =>
    match Node.decEq a b, Node.decEqList l l' with
    | isTrue h, isTrue hl => isTrue (by rw [h, hl])
    | isFalse h, _ => isFalse (fun e => h (by injection e))
    | _, isFalse hl => isFalse (fun e => hl (by injection e))
end

instance Node.instDecidableEq : DecidableEq Node := Node.decEq

/-- Field `Kind`. -/
def Node.Kind : Node → Nat
  | .mk k _ _ _ _ => k
/-- Field `Style`. -/
def Node.Style : Node → Nat
  | .mk _ s _ _ _ => s
/-- Field `Tag`. -/
def Node.Tag : Node → String
  | .mk _ _ t _ _ => t
/-- Field `Value`. -/
def Node.Value : Node → String
  | .mk _ _ _ v _ => v
/-- Field `Content`. -/
def Node.Content : Node → List Node
  | .mk _ _ _ _ c => c

/-- The zero `yaml.Node` (`var name yaml.Node`). -/
def Node.zero : Node := .mk 0 0 "" "" []

/-- `(*Node).SetString`: the node becomes a scalar holding `s` under the tag
`!!str`, in literal style when `s` has a line break. (Its other branch, for a
string that is not valid UTF-8, does not arise for a text.) -/
def Node.SetString (n : Node) (s : String) : Node :=
  .mk ScalarNode (if Char.ofNat 10 ∈ s.data then LiteralStyle else n.Style) "!!str" s n.Content

/-! ## Decoding a node into a `string` and into a `[]string`

`(*Node).Decode` runs the decoder of the library on one node. What follows is
that decoder for the two target types this package decodes into. An error is
kept as the node whose decoding was reported, not as its text. -/

/-- The recognisers of the library that read the text of a scalar with an
explicit tag: whether a value conforms to `!!bool`, `!!int`, `!!float` or
`!!timestamp` (`conforms tag value`), and the text that a `!!binary` value
holds, if it is base64 (`binary value`). They are a parameter of the decoder. -/
structure Resolver where
  conforms : String → String → Bool
  binary : String → Option String

/-- The prefix of a long tag. -/
def longTagPrefix : String := "tag:yaml.org,2002:"

/-- `shortTag`: `tag:yaml.org,2002:x` is written `!!x`. -/
def shortTag (tag : String) : String :=
  if longTagPrefix.data.isPrefixOf tag.data then
    String.mk ("!!".data ++ tag.data.drop longTagPrefix.data.length)
  else tag

/-- `(*Node).indicatedString`: a scalar tagged `!!str`, or an untagged scalar
that is quoted or a block scalar. -/
def Node.indicatedString (n : Node) : Bool :=
  n.Kind == ScalarNode &&
    (shortTag n.Tag == "!!str" ||
      ((n.Tag == "" || n.Tag == "!") &&
        n.Style &&& (SingleQuotedStyle ||| DoubleQuotedStyle ||| LiteralStyle ||| FoldedStyle) != 0))

/-- `(*Node).IsZero`, on the fields of the model. -/
def Node.IsZero (n : Node) : Bool :=
  n.Kind == 0 && n.Style == 0 && n.Tag == "" && n.Value == "" && n.Content.isEmpty

/-- The plain scalars that resolve to null. -/
def nullValues : List String := ["", "~", "null", "Null", "NULL"]

/-- What the text of a scalar resolves to. -/
inductive Resolved where
  | null
  | text (s : String)
  | fail
deriving DecidableEq

/-- The first half of `(*decoder).scalar`, as far as it matters for a string:
a scalar indicated as a string holds its value; an untagged plain scalar is null
when its value is one of `nullValues`, and holds its value otherwise; a scalar
with an explicit tag must conform to it (`failf` if not); any other tag leaves
the value as it is. -/
def resolveScalar (r : Resolver) (n : Node) : Resolved :=
  if n.indicatedString then .text n.Value
  else
    let tag := shortTag n.Tag
    if tag = "" then
      if n.Value ∈ nullValues then .null else .text n.Value
    else if tag = "!!null" then
      if n.Value ∈ nullValues then .null else .fail
    else if tag = "!!str" then .text n.Value
    else if tag ∈ ["!!bool", "!!int", "!!float", "!!timestamp"] then
      if r.conforms tag n.Value then .text n.Value else .fail
    else if tag = "!!binary" then
      match r.binary n.Value with
      | some s => .text s
      | none => .fail
    else .text n.Value

/-- How one call `d.unmarshal(n, out)` ends, for an `out` that held its zero
value: it returns `good`, with `out` holding `value` and the nodes in `terrors`
reported as not fitting the target; or `failf` aborts the decoding at a node; or
the program panics. -/
inductive Unmarshal (α : Type) where
  | done (good : Bool) (value : α) (terrors : List Node)
  | failf (n : Node)
  | panic

mutual
/-- `(*decoder).unmarshal` into a `string`. -/
def unmarshalString (r : Resolver) : Node → Unmarshal String
  | .mk kind style tag value content =>
    if kind = DocumentNode then documentString r content
    else if kind = AliasNode then .panic -- d.unmarshal(n.Alias, out) on a nil target
    else if kind = ScalarNode then
      match resolveScalar r (.mk kind style tag value content) with
      | .null => .done false "" []
      | .text s => .done true s []
      | .fail => .failf (.mk kind style tag value content)
    else if kind = MappingNode then .done false "" [.mk kind style tag value content]
    else if kind = SequenceNode then .done false "" [.mk kind style tag value content]
    else if Node.IsZero (.mk kind style tag value content) then .done false "" []
    else .failf (.mk kind style tag value content)
/-- `(*decoder).document` into a `string`: a document with one child decodes that
child and reports success. -/
def documentString (r : Resolver) : List Node → Unmarshal String
  | [c] =>
    match unmarshalString r c with
    | .done _ v errs => .done true v errs
    | other => other
  | _ => .done false "" []
end

/-- The loop of `(*decoder).sequence` into a `[]string`: each child is decoded into
a fresh string, and kept when its decoding reports success. -/
def sequenceStrings (r : Resolver) : List Node → Unmarshal (List String)
  | [] => .done true [] []
  | c :: rest =>
    match unmarshalString r c with
    | .failf n => .failf n
    | .panic => .panic
    | .done good v errs =>
      match sequenceStrings r rest with
      | .done _ vs errs' => .done true (if good then v :: vs else vs) (errs ++ errs')
      | other => other

mutual
/-- `(*decoder).unmarshal` into a `[]string`. -/
def unmarshalStrings (r : Resolver) : Node → Unmarshal (List String)
  | .mk kind style tag value content =>
    if kind = DocumentNode then documentStrings r content
    else if kind = AliasNode then .panic
    else if kind = ScalarNode then
      match resolveScalar r (.mk kind style tag value content) with
      | .null => .done true [] []
      | .text _ => .done false [] [.mk kind style tag value content]
      | .fail => .failf (.mk kind style tag value content)
    else if kind = MappingNode then .done false [] [.mk kind style tag value content]
    else if kind = SequenceNode then sequenceStrings r content
    else if Node.IsZero (.mk kind style tag value content) then .done true [] []
    else .failf (.mk kind style tag value content)
/-- `(*decoder).document` into a `[]string`. -/
def documentStrings (r : Resolver) : List Node → Unmarshal (List String)
  | [c] =>
    match unmarshalStrings r c with
    | .done _ v errs => .done true v errs
    | other => other
  | _ => .done false [] []
end

/-- The errors of this package. -/
inductive Error where
  /-- An error made by `fmt.Errorf`, with its text. -/
  | errorf (text : String)
  /-- A `*yaml.TypeError`: the nodes that did not fit the target. -/
  | typeError (nodes : List Node)
  /-- The error of a `failf` of the decoder, raised at a node. -/
  | yamlError (n : Node)
deriving DecidableEq

/-- How a call that returns a value and an `error` ends. -/
inductive Decoded (α : Type) where
  | ok (value : α)
  | error (err : Error)
  | panic
deriving DecidableEq

/-- The end of `(*Node).Decode`: a `failf` becomes the returned error, reported
nodes become a `*yaml.TypeError`, a panic of the runtime is passed on. -/
def finishDecode {α : Type} : Unmarshal α → Decoded α
  | .done _ v [] => .ok v
  | .done _ _ (e :: errs) => .error (.typeError (e :: errs))
  | .failf n => .error (.yamlError n)
  | .panic => .panic

/-- `n.Decode(&s)` for a `string` variable `s` holding `""`. -/
def Node.DecodeString (r : Resolver) (n : Node) : Decoded String :=
  finishDecode (unmarshalString r n)

/-- `n.Decode(&l)` for a `[]string` variable `l` holding nil. -/
def Node.DecodeStrings (r : Resolver) (n : Node) : Decoded (List String) :=
  finishDecode (unmarshalStrings r n)

/-! ## The ordered codec of `ignore_only` -/

/-- `IDPaths`. -/
structure IDPaths where
  ID : String
  Paths : List String
deriving DecidableEq

/-- `ExternalIgnoreOnly`. -/
structure ExternalIgnoreOnly where
  IDToPaths : List IDPaths
deriving DecidableEq

/-- `newPathsNode`. -/
def newPathsNode (paths : List String) : Node :=
  .mk SequenceNode 0 "" "" (paths.map (fun path => Node.zero.SetString path))

/-- The loop of `MarshalYAML`: `content` after the pairs have been visited. -/
def marshalPairs : List IDPaths → List Node → List Node
  | [], content => content
  | idPaths :: rest, content =>
    if idPaths.Paths.length = 0 then marshalPairs rest content
    else
      marshalPairs rest
        (content ++ [Node.zero.SetString idPaths.ID] ++ [newPathsNode idPaths.Paths])

/-- `(*ExternalIgnoreOnly).MarshalYAML`, on a receiver that is not nil: the value
returned (`none` is nil) and the error. -/
def ExternalIgnoreOnly.MarshalYAML (e : ExternalIgnoreOnly) : Option Node × Option Error :=
  if e.IDToPaths.length = 0 then (none, none)
  else (some (.mk MappingNode LiteralStyle "" "" (marshalPairs e.IDToPaths [])), none)

/-- How a call that returns an `error` ends. -/
inductive Outcome where
  | returned (err : Option Error)
  | panic
deriving DecidableEq

/-- The loop of `UnmarshalYAML` over `value.Content[i:]`, with `e.IDToPaths` as
it stands: how the loop ends and what `e.IDToPaths` holds then. A last child
without a partner makes `value.Content[i+1]` an index out of range. -/
def unmarshalPairs (r : Resolver) : List Node → List IDPaths → Outcome × List IDPaths
  | [], idToPaths => (.returned none, idToPaths)
  | [key], idToPaths =>
    match key.DecodeString r with
    | .error err => (.returned (some err), idToPaths)
    | .panic => (.panic, idToPaths)
    | .ok _ => (.panic, idToPaths)
  | key :: paths :: rest, idToPaths =>
    match key.DecodeString r with
    | .error err => (.returned (some err), idToPaths)
    | .panic => (.panic, idToPaths)
    | .ok id =>
      match paths.DecodeStrings r with
      | .error err => (.returned (some err), idToPaths)
      | .panic => (.panic, idToPaths)
      | .ok ps => unmarshalPairs r rest (idToPaths ++ [{ ID := id, Paths := ps }])

/-- `(*ExternalIgnoreOnly).UnmarshalYAML(value)`, for a receiver and a `value`
that are not nil: how the call ends, and the receiver after it. -/
def ExternalIgnoreOnly.UnmarshalYAML (r : Resolver) (e : ExternalIgnoreOnly) (value : Node) :
    Outcome × ExternalIgnoreOnly :=
  if value.Content.length = 0 then (.returned none, e)
  else if value.Kind ≠ MappingNode then
    (.returned (some (.errorf
      ("ignore_only must be a YAML map, instead is " ++ toString value.Kind))), e)
  else
    let res := unmarshalPairs r value.Content []
    (res.1, { IDToPaths := res.2 })

/-! ## Maps: `make`, assignment and lookup -/

/-- `make(map[string][]string)`. -/
def PathsMap.empty : PathsMap := ⟨[], List.nodup_nil⟩

/-- `m[key] = value`: an entry that `key` has is replaced. Go leaves open where a
`range` meets the key afterwards; here it comes last. -/
def PathsMap.insert (m : PathsMap) (key : String) (value : List String) : PathsMap :=
  ⟨m.entries.filter (fun e => decide (e.1 ≠ key)) ++ [(key, value)], by
    rw [List.map_append, List.nodup_append]
    refine ⟨(List.filter_sublist m.entries).map Prod.fst |>.nodup m.nodup, by simp, ?_⟩
    intro k hk hk'
    simp only [List.map_cons, List.map_nil, List.mem_singleton] at hk'
    subst hk'
    obtain ⟨e, he, rfl⟩ := List.mem_map.1 hk
    simpa using (List.mem_filter.1 he).2⟩

/-- The value that a list of entries holds for `key`, if any. -/
def lookupEntry (key : String) : List (String × List String) → Option (List String)
  | [] => none
  | e :: rest => if e.1 = key then some e.2 else lookupEntry key rest

/-- `v, ok := m[key]` on a map that may be nil: the value under `key`, if any. -/
def mapGet (m : Option PathsMap) (key : String) : Option (List String) :=
  lookupEntry key (mapEntries m)

/-! ## The external configs and the wire message -/

/-- `v1Beta1Version`. -/
def v1Beta1Version : String := "v1beta1"
/-- `v1Version`. -/
def v1Version : String := "v1"

/-- `ExternalConfigV1Beta1`; `IgnoreOnly` is a pointer, nil is `none`. -/
structure ExternalConfigV1Beta1 where
  Use : List String
  Except : List String
  Ignore : List String
  IgnoreOnly : Option ExternalIgnoreOnly
  IgnoreUnstablePackages : Bool
deriving DecidableEq

/-- `ExternalConfigV1`; `IgnoreOnly` is a pointer, nil is `none`. -/
structure ExternalConfigV1 where
  Use : List String
  Except : List String
  Ignore : List String
  IgnoreOnly : Option ExternalIgnoreOnly
  IgnoreUnstablePackages : Bool
deriving DecidableEq

/-- Modelled from the spec: the entry `breakingv1.IDPaths` of the transport
message (its declaration is generated code outside the sources at hand), an
(id, paths) structure. -/
structure ProtoIDPaths where
  Id : String
  Paths : List String
deriving DecidableEq

/-- Modelled from the spec: the getter `GetId` of the generated entry; on a nil
entry it returns the empty string. -/
def ProtoIDPaths.GetId : Option ProtoIDPaths → String
  | none => ""
  | some x => x.Id

/-- Modelled from the spec: the getter `GetPaths` of the generated entry; on a
nil entry it returns nil. -/
def ProtoIDPaths.GetPaths : Option ProtoIDPaths → List String
  | none => []
  | some x => x.Paths

/-- Modelled from the spec: the transport message `breakingv1.Config` (generated
code outside the sources at hand), with the fields use-ids, except-ids,
ignore-paths, ignore-id-paths as repeated (id, paths) entries, the flag and the
version. `IgnoreIdPaths` is tested against nil by this package, so nil (`none`)
is kept apart from an empty slice; its elements are pointers. -/
structure ProtoConfig where
  UseIds : List String
  ExceptIds : List String
  IgnorePaths : List String
  IgnoreIdPaths : Option (List (Option ProtoIDPaths))
  IgnoreUnstablePackages : Bool
  Version : String
deriving DecidableEq

/-- Modelled from the spec: the generated getter; nil on a nil message. -/
def ProtoConfig.GetUseIds : Option ProtoConfig → List String
  | none => []
  | some x => x.UseIds

/-- Modelled from the spec: the generated getter; nil on a nil message. -/
def ProtoConfig.GetExceptIds : Option ProtoConfig → List String
  | none => []
  | some x => x.ExceptIds

/-- Modelled from the spec: the generated getter; nil on a nil message. -/
def ProtoConfig.GetIgnorePaths : Option ProtoConfig → List String
  | none => []
  | some x => x.IgnorePaths

/-- Modelled from the spec: the generated getter; nil on a nil message. -/
def ProtoConfig.GetIgnoreIdPaths : Option ProtoConfig → Option (List (Option ProtoIDPaths))
  | none => none
  | some x => x.IgnoreIdPaths

/-- Modelled from the spec: the generated getter; false on a nil message. -/
def ProtoConfig.GetIgnoreUnstablePackages : Option ProtoConfig → Bool
  | none => false
  | some x => x.IgnoreUnstablePackages

/-- Modelled from the spec: the generated getter; empty on a nil message. -/
def ProtoConfig.GetVersion : Option ProtoConfig → String
  | none => ""
  | some x => x.Version

/-- How a call that returns a value ends: with the value, or in a panic of the
runtime (a nil pointer is dereferenced). -/
inductive Call (α : Type) where
  | value (v : α)
  | panic
deriving DecidableEq

/-! ## The adapters -/

/-- `ignoreOnlyMapForExternalIgnoreOnly`. -/
def ignoreOnlyMapForExternalIgnoreOnly : Option ExternalIgnoreOnly → Option PathsMap
  | none => none
  | some externalIgnoreOnlyConfig =>
    some (externalIgnoreOnlyConfig.IDToPaths.foldl
      (fun ignoreOnlyMap idPaths => ignoreOnlyMap.insert idPaths.ID idPaths.Paths)
      PathsMap.empty)

/-- `externalIgnoreOnlyForMap`: one pair per entry that the `range` yields; the
pointer returned is never nil. -/
def externalIgnoreOnlyForMap (ignoreOnlyMap : Option PathsMap) : ExternalIgnoreOnly :=
  { IDToPaths := (mapEntries ignoreOnlyMap).map (fun e => { ID := e.1, Paths := e.2 }) }

/-- `ignoreIDOrCategoryToRootPathsForProto`. -/
def ignoreIDOrCategoryToRootPathsForProto :
    Option (List (Option ProtoIDPaths)) → Option PathsMap
  | none => none
  | some protoIgnoreIDPaths =>
    some (protoIgnoreIDPaths.foldl
      (fun m protoIgnoreIDPath =>
        m.insert (ProtoIDPaths.GetId protoIgnoreIDPath) (ProtoIDPaths.GetPaths protoIgnoreIDPath))
      PathsMap.empty)

/-- `protoForIgnoreIDOrCategoryToRootPaths`. -/
def protoForIgnoreIDOrCategoryToRootPaths :
    Option PathsMap → Option (List (Option ProtoIDPaths))
  | none => none
  | some m => some (m.entries.map (fun e => some { Id := e.1, Paths := e.2 }))

/-- `NewConfigV1Beta1`; the pointer returned is never nil. -/
def NewConfigV1Beta1 (externalConfig : ExternalConfigV1Beta1) : Config :=
  { Use := externalConfig.Use
    Except := externalConfig.Except
    IgnoreRootPaths := externalConfig.Ignore
    IgnoreIDOrCategoryToRootPaths := ignoreOnlyMapForExternalIgnoreOnly externalConfig.IgnoreOnly
    IgnoreUnstablePackages := externalConfig.IgnoreUnstablePackages
    Version := v1Beta1Version }

/-- `NewConfigV1`; the pointer returned is never nil. -/
def NewConfigV1 (externalConfig : ExternalConfigV1) : Config :=
  { Use := externalConfig.Use
    Except := externalConfig.Except
    IgnoreRootPaths := externalConfig.Ignore
    IgnoreIDOrCategoryToRootPaths := ignoreOnlyMapForExternalIgnoreOnly externalConfig.IgnoreOnly
    IgnoreUnstablePackages := externalConfig.IgnoreUnstablePackages
    Version := v1Version }

/-- `ConfigForProto`, on a message pointer that may be nil; the pointer returned
is never nil. -/
def ConfigForProto (protoConfig : Option ProtoConfig) : Config :=
  { Use := ProtoConfig.GetUseIds protoConfig
    Except := ProtoConfig.GetExceptIds protoConfig
    IgnoreRootPaths := ProtoConfig.GetIgnorePaths protoConfig
    IgnoreIDOrCategoryToRootPaths :=
      ignoreIDOrCategoryToRootPathsForProto (ProtoConfig.GetIgnoreIdPaths protoConfig)
    IgnoreUnstablePackages := ProtoConfig.GetIgnoreUnstablePackages protoConfig
    Version := ProtoConfig.GetVersion protoConfig }

/-- `ProtoForConfig`, on a pointer that may be nil: the fields of `config` are
read without a nil check. -/
def ProtoForConfig : Option Config → Call ProtoConfig
  | none => .panic
  | some config =>
    .value
      { UseIds := config.Use
        ExceptIds := config.Except
        IgnorePaths := config.IgnoreRootPaths
        IgnoreIdPaths :=
          protoForIgnoreIDOrCategoryToRootPaths config.IgnoreIDOrCategoryToRootPaths
        IgnoreUnstablePackages := config.IgnoreUnstablePackages
        Version := config.Version }

/-- `ExternalConfigV1Beta1ForConfig`, on a pointer that may be nil. -/
def ExternalConfigV1Beta1ForConfig : Option Config → Call ExternalConfigV1Beta1
  | none => .panic
  | some config =>
    .value
      { Use := config.Use
        Except := config.Except
        Ignore := config.IgnoreRootPaths
        IgnoreOnly := some (externalIgnoreOnlyForMap config.IgnoreIDOrCategoryToRootPaths)
        IgnoreUnstablePackages := config.IgnoreUnstablePackages }

/-- `ExternalConfigV1ForConfig`, on a pointer that may be nil. -/
def ExternalConfigV1ForConfig : Option Config → Call ExternalConfigV1
  | none => .panic
  | some config =>
    .value
      { Use := config.Use
        Except := config.Except
        Ignore := config.IgnoreRootPaths
        IgnoreOnly := some (externalIgnoreOnlyForMap config.IgnoreIDOrCategoryToRootPaths)
        IgnoreUnstablePackages := config.IgnoreUnstablePackages }

/-! ## `private/buf/bufencoding`: message encoding references

The functions of `bufencoding.go`, with `strings.TrimSpace`, `strings.Split` on
a one-character separator and `filepath.Ext` (with `/` as the separator of path
elements) as the standard library defines them on texts. An error made by
`fmt.Errorf` is kept as its kind and its argument. -/

/-- `unicode.IsSpace`. -/
def isSpace (c : Char) : Bool :=
  let n := c.toNat
  decide (n = 9 ∨ n = 10 ∨ n = 11 ∨ n = 12 ∨ n = 13 ∨ n = 32 ∨ n = 133 ∨ n = 160 ∨
    n = 5760 ∨ (8192 ≤ n ∧ n ≤ 8202) ∨ n = 8232 ∨ n = 8233 ∨ n = 8239 ∨ n = 8287 ∨
    n = 12288)

/-- `strings.TrimSpace` on the characters of a string: the white space at the
start and at the end is removed. -/
def trimSpace (l : List Char) : List Char :=
  ((l.dropWhile isSpace).reverse.dropWhile isSpace).reverse

/-- `strings.TrimSpace`. -/
def TrimSpace (s : String) : String := ⟨trimSpace s.data⟩

/-- `strings.Split(s, sep)` for a separator of one character, on the characters
of `s`: the pieces between the separators, one more than there are separators. -/
def splitOn (sep : Char) : List Char → List (List Char)
  | [] => [[]]
  | c :: cs =>
    if c = sep then [] :: splitOn sep cs
    else
      match splitOn sep cs with
      | [] => [[c]]
      | piece :: pieces => (c :: piece) :: pieces

/-- The character `#`. -/
def hashChar : Char := Char.ofNat 35
/-- The character `,`. -/
def commaChar : Char := Char.ofNat 44
/-- The character `=`. -/
def equalsChar : Char := Char.ofNat 61
/-- The character `.`. -/
def dotChar : Char := Char.ofNat 46
/-- The character `/`. -/
def slashChar : Char := Char.ofNat 47

/-- The errors of `bufencoding.go`, each with the argument of its text. -/
inductive EncodingError where
  /-- "value is required". -/
  | valueRequired
  /-- "%q starts with # which is invalid". -/
  | startsWithHash (value : String)
  /-- "%q ends with # which is invalid". -/
  | endsWithHash (value : String)
  /-- "invalid options: %q". -/
  | invalidOptions (optionsString : String)
  /-- "duplicate options key: %q". -/
  | duplicateKey (key : String)
  /-- "%q has multiple #s which is invalid". -/
  | multipleHashes (value : String)
  /-- "invalid format for message: %q". -/
  | invalidFormat (format : String)
deriving DecidableEq

instance Except.instDecidableEq {ε α : Type} [DecidableEq ε] [DecidableEq α] :
    DecidableEq (Except ε α)
  | .ok a, .ok b => if h : a = b then isTrue (by rw [h]) else isFalse (fun e => h (by injection e))
  | .error a, .error b =>
    if h : a = b then isTrue (by rw [h]) else isFalse (fun e => h (by injection e))
  | .ok _, .error _ => isFalse (fun e => by cases e)
  | .error _, .ok _ => isFalse (fun e => by cases e)

/-- A `map[string]string` that is not nil, as its entries; the functions here
only assign keys that the map does not hold yet. -/
abbrev Options := List (String × String)

/-- The value that the entries hold for `key`, if any. -/
def lookupEntries (key : String) : Options → Option String
  | [] => none
  | e :: rest => if e.1 = key then some e.2 else lookupEntries key rest

/-- `v, ok := options[key]` on a map that may be nil. -/
def lookupOption (key : String) : Option Options → Option String
  | none => none
  | some options => lookupEntries key options

/-- The loop of `getRawPathAndOptions` over the pairs of the options string,
with the map `options` as it stands. -/
def parseOptions (optionsString : String) : List (List Char) → Options →
    Except EncodingError Options
  | [], options => .ok options
  | pair :: rest, options =>
    match splitOn equalsChar pair with
    | [k, v] =>
      let key := TrimSpace ⟨k⟩
      let value := TrimSpace ⟨v⟩
      if key = "" ∨ value = "" then .error (.invalidOptions optionsString)
      else if (lookupOption key (some options)).isSome then .error (.duplicateKey key)
      else parseOptions optionsString rest (options ++ [(key, value)])
    | _ => .error (.invalidOptions optionsString)

/-- `getRawPathAndOptions`: the raw path and the options (`none` is the nil map),
or the error. -/
def getRawPathAndOptions (value : String) : Except EncodingError (String × Option Options) :=
  let value := TrimSpace value
  if value = "" then .error .valueRequired
  else
    match splitOn hashChar value.data with
    | [_] => .ok (value, none)
    | [p, o] =>
      let path := TrimSpace ⟨p⟩
      let optionsString := TrimSpace ⟨o⟩
      if path = "" then .error (.startsWithHash value)
      else if optionsString = "" then .error (.endsWithHash value)
      else
        match parseOptions optionsString (splitOn commaChar optionsString.data) [] with
        | .error err => .error err
        | .ok options => .ok (path, some options)
    | _ => .error (.multipleHashes value)

/-- `MessageEncodingBin`. -/
def MessageEncodingBin : Nat := 1
/-- `MessageEncodingJSON`. -/
def MessageEncodingJSON : Nat := 2

/-- The scan of `filepath.Ext` from the end of the path: `rev` is what is left
of the path, reversed, and `suffix` what has been passed. -/
def extScan : List Char → List Char → List Char
  | [], _ => []
  | c :: rev, suffix =>
    if c = slashChar then []
    else if c = dotChar then c :: suffix
    else extScan rev (c :: suffix)

/-- `filepath.Ext`: the suffix that starts at the last dot of the last element
of the path, empty if that element has no dot. -/
def Ext (path : String) : String := ⟨extScan path.data.reverse []⟩

/-- `parseMessageEncodingExt`. -/
def parseMessageEncodingExt (ext : String) : Nat :=
  if ext = ".bin" then MessageEncodingBin
  else if ext = ".json" then MessageEncodingJSON
  else 0

/-- `parseMessageEncodingFormat`. -/
def parseMessageEncodingFormat (format : String) : Except EncodingError Nat :=
  if format = "bin" then .ok MessageEncodingBin
  else if format = "json" then .ok MessageEncodingJSON
  else .error (.invalidFormat format)

/-- `getPathAndMessageEncoding` (the context is not used). -/
def getPathAndMessageEncoding (value : String) : Except EncodingError (String × Nat) :=
  match getRawPathAndOptions value with
  | .error err => .error err
  | .ok (path, options) =>
    let messageEncoding := parseMessageEncodingExt (Ext path)
    match lookupOption "format" options with
    | some format =>
      match parseMessageEncodingFormat format with
      | .error err => .error err
      | .ok messageEncoding => .ok (path, messageEncoding)
    | none => .ok (path, messageEncoding)

/-! ## `private/buf/bufformat`: `format` -/

/-- The newline character. -/
def newlineChar : Char := Char.ofNat 10

/-- `strings.TrimRight(s, "\n")` on the characters of `s`. -/
def trimRightNewlines (l : List Char) : List Char :=
  (l.reverse.dropWhile (fun c => decide (c = newlineChar))).reverse

/-- `format`. The formatter is declared outside the sources at hand; `run` is
what `newFormatter(buffer, fileNode).Run()` has written to `buffer` and the
error it returns (`none` is nil). The reader that `format` returns is given as
the text it yields. (`WriteString` on a `bytes.Buffer` returns no error.) -/
def format {ε : Type} (run : String × Option ε) : Except ε String :=
  match run.2 with
  | some err => .error err
  | none => .ok ⟨trimRightNewlines run.1.data⟩

/-! ## `private/buf/bufprint`: the text output of repository tracks -/

/-- `outputRepositoryTrack`; the time is an instant, given as an integer. -/
structure outputRepositoryTrack where
  ID : String
  Name : String
  CreateTime : Int
deriving DecidableEq

/-- The header that `printRepositoryTracksText` hands to `WithTabWriter`. -/
def repositoryTrackHeader : List String := ["Name", "Commit", "Created"]

/-- The values of the call `tabWriter.Write(ot.Name, ot.CreateTime.Format(time.RFC3339))`;
`formatRFC3339` is the formatting of the time. -/
def repositoryTrackRow (formatRFC3339 : Int → String) (ot : outputRepositoryTrack) :
    List String :=
  [ot.Name, formatRFC3339 ot.CreateTime]

/-- The function that `printRepositoryTracksText` hands to `WithTabWriter`: one
`Write` per track, the first error ends the loop. `write` is the method `Write`
of the tab writer. -/
def writeRepositoryTracks {ε : Type} (formatRFC3339 : Int → String)
    (write : List String → Option ε) : List outputRepositoryTrack → Option ε
  | [] => none
  | ot :: rest =>
    match write (repositoryTrackRow formatRFC3339 ot) with
    | some err => some err
    | none => writeRepositoryTracks formatRFC3339 write rest

/-- `(*repositoryTrackPrinter).printRepositoryTracksText`. `WithTabWriter` and
`TabWriter` are declared outside the sources at hand and are a parameter. -/
def printRepositoryTracksText {ε : Type}
    (WithTabWriter : List String → ((List String → Option ε) → Option ε) → Option ε)
    (formatRFC3339 : Int → String) (outputRepositoryTracks : List outputRepositoryTrack) :
    Option ε :=
  WithTabWriter repositoryTrackHeader
    (fun write => writeRepositoryTracks formatRFC3339 write outputRepositoryTracks)

/-! ## Notions used in the statements -/

/-- Go's `a < b` on strings: the strict lexicographic comparison of their bytes. -/
def strLT (a b : String) : Prop := utf8Bytes a < utf8Bytes b

instance strLT.decidable (a b : String) : Decidable (strLT a b) := by
  unfold strLT; infer_instance

/-- The entries `b` are the entries `a` enumerated in another order, each path
list rearranged. -/
def entriesRearranged (a b : List (String × List String)) : Prop :=
  ∃ l, l.Perm a ∧ List.Forall₂ (fun x y => x.1 = y.1 ∧ x.2.Perm y.2) l b

/-- The same for two maps: both nil, or both maps with rearranged entries. -/
def mapRearranged : Option PathsMap → Option PathsMap → Prop
  | none, none => True
  | some a, some b => entriesRearranged a.entries b.entries
  | _, _ => False

/-- Config `B` is Config `A` up to the order of `use`, `except`,
`ignoreRootPaths`, of the entries of the map and of each of its path lists. -/
def Config.Rearranged (A B : Config) : Prop :=
  B.Use.Perm A.Use ∧ B.Except.Perm A.Except ∧ B.IgnoreRootPaths.Perm A.IgnoreRootPaths ∧
    mapRearranged A.IgnoreIDOrCategoryToRootPaths B.IgnoreIDOrCategoryToRootPaths ∧
    B.IgnoreUnstablePackages = A.IgnoreUnstablePackages ∧ B.Version = A.Version

/-- A resolver that accepts no value under an explicit tag; for statements at
concrete nodes. -/
def Resolver.strict : Resolver := ⟨fun _ _ => false, fun _ => none⟩

/-- One entry of `ignore_id_to_root_paths` as the claim describes it: an object
with the field `id`, then the field `paths`, an empty one left out. -/
def canonicalEntry (e : idPathsJSON) : String :=
  "\x7b" ++ ",".intercalate
    ((if e.ID = "" then [] else ["\"id\":" ++ jsonString e.ID]) ++
     (if e.Paths = [] then [] else ["\"paths\":" ++ jsonStrings e.Paths])) ++ "\x7d"

/-- The fields of the canonical object as the claim describes them: in the fixed
order `use`, `except`, `ignore_root_paths`, `ignore_id_to_root_paths`,
`ignore_unstable_packages`, `version`, each left out when it is empty; the
sequences sorted, the entries of the map sorted by id with sorted paths. -/
def canonicalFields (c : Config) : List String :=
  (if c.Use = [] then [] else ["\"use\":" ++ jsonStrings (sortStrings c.Use)]) ++
  (if c.Except = [] then [] else ["\"except\":" ++ jsonStrings (sortStrings c.Except)]) ++
  (if c.IgnoreRootPaths = [] then []
    else ["\"ignore_root_paths\":" ++ jsonStrings (sortStrings c.IgnoreRootPaths)]) ++
  (if mapEntries c.IgnoreIDOrCategoryToRootPaths = [] then []
    else ["\"ignore_id_to_root_paths\":" ++ jsonArray
      ((sortByID ((mapEntries c.IgnoreIDOrCategoryToRootPaths).map
        (fun e => { ID := e.1, Paths := sortStrings e.2 }))).map canonicalEntry)]) ++
  (if c.IgnoreUnstablePackages then ["\"ignore_unstable_packages\":true"] else []) ++
  (if c.Version = "" then [] else ["\"version\":" ++ jsonString c.Version])

/-- Config with `use: ["B","A"]`, `ignoreRootPaths: ["z","a"]`, the flag set, version `v1`. -/
def sampleConfig : Config :=
  { Use := ["B", "A"], Except := [], IgnoreRootPaths := ["z", "a"],
    IgnoreIDOrCategoryToRootPaths := none, IgnoreUnstablePackages := true, Version := "v1" }

/-- A scalar text node holding `s`, as the library makes one. -/
def scalarText (s : String) : Node := Node.zero.SetString s

/-- The encoder as the encode contract words it: no node for the empty list;
otherwise a mapping node in literal style whose children are, for each pair
that has a path and in input order, the scalar text node of the id, then the
sequence node of the scalar text nodes of the paths. -/
def encodeReference (l : List IDPaths) : Option Node :=
  if l = [] then none
  else
    some (.mk MappingNode LiteralStyle "" ""
      ((l.filter (fun p => decide (p.Paths ≠ []))).flatMap
        (fun p => [scalarText p.ID, .mk SequenceNode 0 "" "" (p.Paths.map scalarText)])))

/-- The pairs `[("RULE1", ["a/b","a/c"]), ("RULE2", ["x"])]`. -/
def samplePairs : List IDPaths :=
  [{ ID := "RULE1", Paths := ["a/b", "a/c"] }, { ID := "RULE2", Paths := ["x"] }]

/-- A scalar that the decoder reads as a string holding its value: it is not a
null scalar, and its value conforms to its tag. -/
def Node.isTextScalar (r : Resolver) (n : Node) : Prop :=
  n.Kind = ScalarNode ∧ resolveScalar r n = .text n.Value

instance Node.isTextScalar.decidable (r : Resolver) (n : Node) :
    Decidable (n.isTextScalar r) := by
  unfold Node.isTextScalar; infer_instance

/-- A sequence node whose children are all such scalars. -/
def Node.isTextSequence (r : Resolver) (n : Node) : Prop :=
  n.Kind = SequenceNode ∧ ∀ c ∈ n.Content, c.isTextScalar r

instance Node.isTextSequence.decidable (r : Resolver) (n : Node) :
    Decidable (n.isTextSequence r) := by
  unfold Node.isTextSequence; infer_instance

/-- The children of a mapping node with the given keys and values: child `2k` is
the key and child `2k+1` the value of the pair `k`. -/
def pairContent (pairs : List (Node × Node)) : List Node :=
  pairs.flatMap (fun p => [p.1, p.2])

/-- The plain scalar `~`, which the parser tags `!!null`. -/
def nullScalar : Node := .mk ScalarNode 0 "!!null" "~" []

/-- The keys and values of the mapping for `samplePairs`. -/
def samplePairNodes : List (Node × Node) :=
  [(scalarText "RULE1", newPathsNode ["a/b", "a/c"]), (scalarText "RULE2", newPathsNode ["x"])]

/-- The mapping node for `samplePairs`. -/
def sampleNode : Node := .mk MappingNode LiteralStyle "" "" (pairContent samplePairNodes)

/-- A mapping node whose second value is itself a mapping, not a sequence. -/
def sampleBadNode : Node :=
  .mk MappingNode 0 "!!map" ""
    [scalarText "R1", newPathsNode ["a"], scalarText "R2", .mk MappingNode 0 "!!map" "" [],
      scalarText "R3", newPathsNode ["z"]]

/-- Two maps that may be nil hold the same entries, enumerated in some order
each. -/
def mapReordered : Option PathsMap → Option PathsMap → Prop
  | none, none => True
  | some a, some b => b.entries.Perm a.entries
  | _, _ => False

/-- Config `c'` is the Config `c` with its map enumerated in another order: a Go
map has no order of its own, so the two stand for the same value. -/
def Config.Reordered (c c' : Config) : Prop :=
  c'.Use = c.Use ∧ c'.Except = c.Except ∧ c'.IgnoreRootPaths = c.IgnoreRootPaths ∧
    mapReordered c.IgnoreIDOrCategoryToRootPaths c'.IgnoreIDOrCategoryToRootPaths ∧
    c'.IgnoreUnstablePackages = c.IgnoreUnstablePackages ∧ c'.Version = c.Version

/-- A v1beta1 external config with two `ignore_only` pairs. -/
def sampleExternal : ExternalConfigV1Beta1 :=
  { Use := ["FILE"], Except := ["RULE9"], Ignore := ["vendor"],
    IgnoreOnly := some ⟨samplePairs⟩, IgnoreUnstablePackages := true }

/-- The Config of `sampleExternal`, its map enumerated with `RULE2` first. -/
def sampleReordered : Config :=
  { Use := ["FILE"], Except := ["RULE9"], IgnoreRootPaths := ["vendor"],
    IgnoreIDOrCategoryToRootPaths :=
      some ⟨[("RULE2", ["x"]), ("RULE1", ["a/b", "a/c"])], by decide⟩,
    IgnoreUnstablePackages := true, Version := "v1beta1" }

/-- The map `{"RULE3": [], "RULE4": ["p"]}`. -/
def sampleMap : PathsMap := ⟨[("RULE3", []), ("RULE4", ["p"])], by decide⟩

/-- A mapping node with a single child, a key without a value. -/
def sampleOddNode : Node := .mk MappingNode 0 "!!map" "" [scalarText "R"]

/-- The part of a text before its first `sep`. -/
def beforeSep (sep : Char) (l : List Char) : List Char :=
  l.takeWhile (fun c => decide (c ≠ sep))

/-- The part of a text after its first `sep`. -/
def afterSep (sep : Char) (l : List Char) : List Char :=
  (l.dropWhile (fun c => decide (c ≠ sep))).tail

/-- The comma-separated items of the part after `#`, that part trimmed. -/
def optionItems (t : List Char) : List (List Char) :=
  splitOn commaChar (trimSpace (afterSep hashChar t))

/-- The trimmed key of an item, the part before `=`. -/
def itemKey (item : List Char) : String := ⟨trimSpace (beforeSep equalsChar item)⟩

/-- The trimmed value of an item, the part after `=`. -/
def itemValue (item : List Char) : String := ⟨trimSpace (afterSep equalsChar item)⟩

/-- An item with exactly one `=`, a non-blank key and a non-blank value. -/
def itemOK (item : List Char) : Prop :=
  item.count equalsChar = 1 ∧ trimSpace (beforeSep equalsChar item) ≠ [] ∧
    trimSpace (afterSep equalsChar item) ≠ []

/-- The inputs that `getRawPathAndOptions` is said to accept: the trimmed input
is not empty and has no `#`, or it has exactly one `#` with a non-blank part
before it and a non-blank part after it, in which every comma-separated item is
well formed and no trimmed key occurs twice. -/
def acceptsRaw (value : String) : Prop :=
  trimSpace value.data ≠ [] ∧
    ((trimSpace value.data).count hashChar = 0 ∨
      ((trimSpace value.data).count hashChar = 1 ∧
        trimSpace (beforeSep hashChar (trimSpace value.data)) ≠ [] ∧
        trimSpace (afterSep hashChar (trimSpace value.data)) ≠ [] ∧
        (∀ item ∈ optionItems (trimSpace value.data), itemOK item) ∧
        ((optionItems (trimSpace value.data)).map itemKey).Nodup))

/-- What `getRawPathAndOptions` is said to return on an accepted input: without
`#` the trimmed input and no options; with `#` the trimmed part before it and
the map from each trimmed key to its trimmed value. -/
def expectedRaw (value : String) : String × Option Options :=
  if (trimSpace value.data).count hashChar = 0 then (⟨trimSpace value.data⟩, none)
  else
    (⟨trimSpace (beforeSep hashChar (trimSpace value.data))⟩,
      some ((optionItems (trimSpace value.data)).map (fun item => (itemKey item, itemValue item))))

/-- A tab writer for the statements: `Write` returns, as an error, a row whose
number of values is not the number of columns of the header. -/
def columnCheckingTabWriter (header : List String)
    (f : (List String → Option (List String)) → Option (List String)) : Option (List String) :=
  f (fun row => if row.length = header.length then none else some row)

/-- Two slices that share no element: one of them is empty, or one ends before
the other starts. -/
def Mem.Slice.Disjoint (s t : Mem.Slice) : Prop :=
  s.len = 0 ∨ t.len = 0 ∨ s.addr + s.len ≤ t.addr ∨ t.addr + t.len ≤ s.addr

instance Mem.Slice.Disjoint.decidable (s t : Mem.Slice) : Decidable (s.Disjoint t) := by
  unfold Mem.Slice.Disjoint; infer_instance

/-- The slices of a Config, in the order in which `configToJSON` sorts them: the
path lists of the map as the `range` yields them, then `Use`, `Except`,
`IgnoreRootPaths`. -/
def Mem.Config.slices (c : Mem.Config) : List Mem.Slice :=
  (Mem.mapEntries c.IgnoreIDOrCategoryToRootPaths).map Prod.snd ++
    [c.Use, c.Except, c.IgnoreRootPaths]

/-- A Config whose slices share no storage: no two of them have an element in
common. -/
def Mem.Config.Separate (c : Mem.Config) : Prop :=
  c.slices.Pairwise Mem.Slice.Disjoint

instance Mem.Config.Separate.decidable (c : Mem.Config) : Decidable c.Separate := by
  unfold Mem.Config.Separate; infer_instance

/-- A memory that holds `c, a, b` at the addresses 0 to 2, `a, b` at 3 and 4,
`b, c` at 5 and 6. -/
def sampleMemory : Mem.Memory := fun a => ["c", "a", "b", "a", "b", "b", "c"].getD a ""

/-- A Config whose `Use` is the window `[0:2]` and whose `IgnoreRootPaths` is the
window `[1:3]` of one array: they share the element at address 1. -/
def sampleShared : Mem.Config :=
  { Use := ⟨0, 2⟩, Except := ⟨0, 0⟩, IgnoreRootPaths := ⟨1, 2⟩,
    IgnoreIDOrCategoryToRootPaths := none, IgnoreUnstablePackages := false, Version := "" }

/-- A Config whose `Use` and `IgnoreRootPaths` are arrays of their own. -/
def sampleUnshared : Mem.Config :=
  { Use := ⟨3, 2⟩, Except := ⟨0, 0⟩, IgnoreRootPaths := ⟨5, 2⟩,
    IgnoreIDOrCategoryToRootPaths := none, IgnoreUnstablePackages := false, Version := "" }

/-- A Config whose map holds under `X` the window `[0:2]` and under `Y` the
window `[1:3]` of one array, enumerated `X`, `Y`. -/
def sampleSharedMapXY : Mem.Config :=
  { Use := ⟨0, 0⟩, Except := ⟨0, 0⟩, IgnoreRootPaths := ⟨0, 0⟩,
    IgnoreIDOrCategoryToRootPaths := some ⟨[("X", ⟨0, 2⟩), ("Y", ⟨1, 2⟩)], by decide⟩,
    IgnoreUnstablePackages := false, Version := "" }

/-- The same Config with the same map, enumerated `Y`, `X`. -/
def sampleSharedMapYX : Mem.Config :=
  { Use := ⟨0, 0⟩, Except := ⟨0, 0⟩, IgnoreRootPaths := ⟨0, 0⟩,
    IgnoreIDOrCategoryToRootPaths := some ⟨[("Y", ⟨1, 2⟩), ("X", ⟨0, 2⟩)], by decide⟩,
    IgnoreUnstablePackages := false, Version := "" }

/-- A Config whose slices are arrays of their own: `Use` at `[0:3]`, under `X`
the array at `[3:5]`, under `Y` the array at `[5:7]`, enumerated `X`, `Y`. -/
def sampleSeparateXY : Mem.Config :=
  { Use := ⟨0, 3⟩, Except := ⟨0, 0⟩, IgnoreRootPaths := ⟨0, 0⟩,
    IgnoreIDOrCategoryToRootPaths := some ⟨[("X", ⟨3, 2⟩), ("Y", ⟨5, 2⟩)], by decide⟩,
    IgnoreUnstablePackages := true, Version := "v1" }

/-- The same Config with the same map, enumerated `Y`, `X`. -/
def sampleSeparateYX : Mem.Config :=
  { Use := ⟨0, 3⟩, Except := ⟨0, 0⟩, IgnoreRootPaths := ⟨0, 0⟩,
    IgnoreIDOrCategoryToRootPaths := some ⟨[("Y", ⟨5, 2⟩), ("X", ⟨3, 2⟩)], by decide⟩,
    IgnoreUnstablePackages := true, Version := "v1" }

/-! ## Notions used in the proofs about the canonical bytes -/

/-- The code of a lower-case hexadecimal digit. -/
def hexCode (k : Nat) : Nat := if k < 10 then 48 + k else 87 + k

/-- The digit that the code of a hexadecimal digit stands for. -/
def unhexCode (k : Nat) : Nat := if k < 58 then k - 48 else k - 87

/-- The character codes of `jsonEscapeChar`, from the code of the character. -/
def escapeCodes (n : Nat) : List Nat :=
  if n = 34 then [92, 34]
  else if n = 92 then [92, 92]
  else if n = 10 then [92, 110]
  else if n = 13 then [92, 114]
  else if n = 9 then [92, 116]
  else if n < 32 ∨ n = 60 ∨ n = 62 ∨ n = 38 then
    [92, 117, 48, 48, hexCode (n / 16), hexCode (n % 16)]
  else if n = 8232 ∨ n = 8233 then [92, 117, 50, 48, 50, hexCode (n % 16)]
  else [n]

/-- Reads the code of a character back from the start of its escaped form. -/
def unescapeCodes : List Nat → Nat
  | [] => 0
  | c :: rest =>
    if c ≠ 92 then c
    else
      match rest with
      | [] => 0
      | e :: rest' =>
        if e = 34 then 34
        else if e = 92 then 92
        else if e = 110 then 10
        else if e = 114 then 13
        else if e = 116 then 9
        else
          match rest' with
          | x :: _ :: y :: b :: _ =>
            if x = 48 then unhexCode y * 16 + unhexCode b else 8224 + unhexCode b
          | _ => 0

/-- The character `"`. -/
def quoteChar : Char := Char.ofNat 34

/-- Texts joined by commas. -/
def joinComma : List (List Char) → List Char
  | [] => []
  | [x] => x
  | x :: y :: l => x ++ commaChar :: joinComma (y :: l)

/-- A set of texts that is a prefix code: where one of them ends is decided by
the text itself. -/
def PrefixCode (V : List Char → Prop) : Prop :=
  ∀ v v' r s, V v → V v' → v ++ r = v' ++ s → v = v' ∧ r = s

/-- Two texts that differ at a position that both have. -/
def Incompatible (a b : List Char) : Prop := ∀ X Y, a ++ X ≠ b ++ Y

/-- Whether two texts differ at a position that both have. -/
def clash : List Char → List Char → Bool
  | x :: a, y :: b => x != y || clash a b
  | _, _ => false

/-- The texts of the fields that are present: the tag, then the value. -/
def presentTexts (fs : List (List Char × Option (List Char))) : List (List Char) :=
  fs.filterMap (fun f => f.2.map (fun v => f.1 ++ v))

/-- The character `[`. -/
def openBracket : Char := Char.ofNat 91

/-- The character `]`. -/
def closeBracket : Char := Char.ofNat 93

/-- The character `\x7b`. -/
def openBrace : Char := Char.ofNat 123

/-- The character `\x7d`. -/
def closeBrace : Char := Char.ofNat 125

/-- The text `"name":` that starts a field. -/
def fieldTag (name : String) : List Char := ("\"" ++ name ++ "\":").data

/-- A field of `jsonField` as its tag and, when it is present, the text of its value. -/
def fieldText (name : String) (isEmpty : Bool) (value : String) :
    List Char × Option (List Char) :=
  (fieldTag name, if isEmpty then none else some value.data)

/-- The texts that an encoder writes. -/
def codeOf {α : Type} (enc : α → String) : List Char → Prop :=
  fun v => ∃ a, v = (enc a).data

/-- How `json.Marshal` writes a bool. -/
def jsonBool (b : Bool) : String := if b then "true" else "false"

/-- The fields of an entry, in the order of `jsonIDPaths`. -/
def entryFields (e : idPathsJSON) : List (List Char × Option (List Char)) :=
  [ fieldText "id" e.ID.data.isEmpty (jsonString e.ID),
    fieldText "paths" e.Paths.isEmpty (jsonStrings e.Paths) ]

/-- The tags of the fields of an entry and the texts that their values have. -/
def entrySpecs : List (List Char × (List Char → Prop)) :=
  [ (fieldTag "id", codeOf jsonString), (fieldTag "paths", codeOf jsonStrings) ]

/-- The array of the entries. -/
def jsonEntries (l : List idPathsJSON) : String := jsonArray (l.map jsonIDPaths)

/-- The fields of the marshalled structure, in the order of `jsonMarshal`. -/
def configFields (c : configJSON) : List (List Char × Option (List Char)) :=
  [ fieldText "use" c.Use.isEmpty (jsonStrings c.Use),
    fieldText "except" c.Except.isEmpty (jsonStrings c.Except),
    fieldText "ignore_root_paths" c.IgnoreRootPaths.isEmpty (jsonStrings c.IgnoreRootPaths),
    fieldText "ignore_id_to_root_paths" c.IgnoreIDOrCategoryToRootPaths.isEmpty
      (jsonEntries c.IgnoreIDOrCategoryToRootPaths),
    fieldText "ignore_unstable_packages" (!c.IgnoreUnstablePackages)
      (jsonBool c.IgnoreUnstablePackages),
    fieldText "version" c.Version.data.isEmpty (jsonString c.Version) ]

/-- The tags of the fields of the marshalled structure and the texts that their
values have. -/
def configSpecs : List (List Char × (List Char → Prop)) :=
  [ (fieldTag "use", codeOf jsonStrings), (fieldTag "except", codeOf jsonStrings),
    (fieldTag "ignore_root_paths", codeOf jsonStrings),
    (fieldTag "ignore_id_to_root_paths", codeOf jsonEntries),
    (fieldTag "ignore_unstable_packages", codeOf jsonBool),
    (fieldTag "version", codeOf jsonString) ]

/-! ## Facts about the order of strings and about sorting -/

theorem lex_cons_of_le {a b : Nat} {l₁ l₂ : List Nat} (h : a ≤ b)
    (ht : a = b → List.Lex (· < ·) l₁ l₂) : List.Lex (· < ·) (a :: l₁) (b :: l₂) := by
  rcases Nat.lt_or_ge a b with hlt | hge
  · exact List.Lex.rel hlt
  · have e : a = b := Nat.le_antisymm h hge
    subst e
    exact List.Lex.cons (ht rfl)

/-- The encoding of the smaller code point comes first, whatever follows. -/
theorem utf8EncodeNat_lt {m n : Nat} (h : m < n) (r₁ r₂ : List Nat) :
    List.Lex (· < ·) (utf8EncodeNat m ++ r₁) (utf8EncodeNat n ++ r₂) := by
  unfold utf8EncodeNat
  split_ifs <;> simp only [List.cons_append, List.nil_append] <;>
    first
    | exact List.Lex.rel (by omega)
    | (refine lex_cons_of_le (by omega) (fun _ => ?_)
       first
       | exact List.Lex.rel (by omega)
       | (refine lex_cons_of_le (by omega) (fun _ => ?_)
          first
          | exact List.Lex.rel (by omega)
          | (refine lex_cons_of_le (by omega) (fun _ => ?_)
             exact List.Lex.rel (by omega))))

theorem utf8EncodeNat_ne_nil (n : Nat) : utf8EncodeNat n ≠ [] := by
  unfold utf8EncodeNat
  split_ifs <;> simp

theorem char_toNat_lt {a b : Char} (h : a < b) : a.toNat < b.toNat := h

/-- A text that comes first by code points comes first by bytes. -/
theorem utf8_lt_of_data_lt {l₁ l₂ : List Char} (h : l₁ < l₂) :
    l₁.flatMap (fun c => utf8EncodeNat c.toNat)
      < l₂.flatMap (fun c => utf8EncodeNat c.toNat) := by
  induction h with
  | nil =>
    rename_i a l
    rw [List.flatMap_cons]
    cases he : utf8EncodeNat a.toNat with
    | nil => exact absurd he (utf8EncodeNat_ne_nil _)
    | cons x xs => exact List.Lex.nil
  | cons _ ih =>
    simp only [List.flatMap_cons]
    exact List.Lex.append_left _ ih _
  | rel hab =>
    simp only [List.flatMap_cons]
    exact utf8EncodeNat_lt (char_toNat_lt hab) _ _

theorem utf8Bytes_lt_iff {a b : String} : utf8Bytes a < utf8Bytes b ↔ a.data < b.data := by
  constructor
  · intro h
    rcases lt_trichotomy a.data b.data with hlt | heq | hgt
    · exact hlt
    · exact absurd h (by unfold utf8Bytes; rw [heq]; exact lt_irrefl _)
    · exact absurd h (lt_asymm (utf8_lt_of_data_lt hgt))
  · exact utf8_lt_of_data_lt

/-- The byte-wise order of two texts is the order of their code points. -/
theorem strLE_iff_data_le {a b : String} : strLE a b ↔ a.data ≤ b.data := by
  unfold strLE
  rw [← not_lt, ← not_lt, utf8Bytes_lt_iff]

theorem strLE_total (a b : String) : strLE a b ∨ strLE b a :=
  @le_total (List Nat) _ (utf8Bytes a) (utf8Bytes b)

theorem strLE_trans {a b c : String} (h₁ : strLE a b) (h₂ : strLE b c) : strLE a c :=
  @le_trans (List Nat) _ (utf8Bytes a) (utf8Bytes b) (utf8Bytes c) h₁ h₂

theorem strLE_antisymm {a b : String} (h₁ : strLE a b) (h₂ : strLE b a) : a = b := by
  have h := @le_antisymm (List Char) _ a.data b.data
    (strLE_iff_data_le.1 h₁) (strLE_iff_data_le.1 h₂)
  cases a; cases b; simp_all

theorem strLT_iff {a b : String} : strLT a b ↔ strLE a b ∧ a ≠ b := by
  unfold strLT
  rw [utf8Bytes_lt_iff, strLE_iff_data_le, @lt_iff_le_and_ne (List Char)]
  constructor
  · rintro ⟨h, hne⟩
    exact ⟨h, fun e => hne (by rw [e])⟩
  · rintro ⟨h, hne⟩
    refine ⟨h, fun e => hne ?_⟩
    cases a; cases b; simp_all

instance strLE.isTotal : IsTotal String strLE := ⟨strLE_total⟩

instance strLE.isTrans : IsTrans String strLE := ⟨fun _ _ _ => strLE_trans⟩

theorem sortStrings_sorted (l : List String) : (sortStrings l).Pairwise strLE :=
  List.sorted_insertionSort strLE l

theorem sortStrings_perm (l : List String) : (sortStrings l).Perm l :=
  List.perm_insertionSort strLE l

theorem sortStrings_eq_of_perm {l₁ l₂ : List String} (h : l₁.Perm l₂) :
    sortStrings l₁ = sortStrings l₂ := by
  refine List.Perm.eq_of_sorted (fun a b _ _ hab hba => strLE_antisymm hab hba)
    (sortStrings_sorted l₁) (sortStrings_sorted l₂) ?_
  exact (sortStrings_perm l₁).trans (h.trans (sortStrings_perm l₂).symm)

instance idLE.isTotal : IsTotal idPathsJSON (fun a b => strLE a.ID b.ID) :=
  ⟨fun a b => strLE_total a.ID b.ID⟩

instance idLE.isTrans : IsTrans idPathsJSON (fun a b => strLE a.ID b.ID) :=
  ⟨fun _ _ _ => strLE_trans⟩

theorem sortByID_sorted (l : List idPathsJSON) :
    (sortByID l).Pairwise (fun a b => strLE a.ID b.ID) :=
  List.sorted_insertionSort (fun a b : idPathsJSON => strLE a.ID b.ID) l

theorem sortByID_perm (l : List idPathsJSON) : (sortByID l).Perm l :=
  List.perm_insertionSort (fun a b : idPathsJSON => strLE a.ID b.ID) l

theorem sortByID_eq_of_perm {l₁ l₂ : List idPathsJSON} (h : l₁.Perm l₂)
    (hnd : (l₁.map idPathsJSON.ID).Nodup) : sortByID l₁ = sortByID l₂ := by
  have hp : (sortByID l₁).Perm (sortByID l₂) :=
    (sortByID_perm l₁).trans (h.trans (sortByID_perm l₂).symm)
  refine List.Perm.eq_of_sorted ?_ (sortByID_sorted l₁) (sortByID_sorted l₂) hp
  intro a b ha hb hab hba
  have ha' : a ∈ l₁ := (sortByID_perm l₁).mem_iff.1 ha
  have hb' : b ∈ l₁ := (sortByID_perm l₁).mem_iff.1 (hp.mem_iff.2 hb)
  exact List.inj_on_of_nodup_map hnd ha' hb' (strLE_antisymm hab hba)

/-- The ids of the entries made from a map are its keys. -/
theorem map_ID_entries (l : List (String × List String)) :
    (l.map (fun e => ({ ID := e.1, Paths := sortStrings e.2 } : idPathsJSON))).map idPathsJSON.ID
      = l.map Prod.fst := by
  rw [List.map_map]; rfl

theorem mapEntries_nodup (m : Option PathsMap) : ((mapEntries m).map Prod.fst).Nodup := by
  cases m with
  | none => exact List.nodup_nil
  | some m => exact m.nodup

theorem entries_eq_of_forall₂ {l b : List (String × List String)}
    (h : List.Forall₂ (fun x y => x.1 = y.1 ∧ x.2.Perm y.2) l b) :
    l.map (fun e => ({ ID := e.1, Paths := sortStrings e.2 } : idPathsJSON))
      = b.map (fun e => ({ ID := e.1, Paths := sortStrings e.2 } : idPathsJSON)) := by
  induction h with
  | nil => rfl
  | cons hxy _ ih =>
    simp only [List.map_cons, ih, hxy.1, sortStrings_eq_of_perm hxy.2]

theorem mapEntries_rearranged {a b : Option PathsMap} (h : mapRearranged a b) :
    sortByID ((mapEntries a).map (fun e => ({ ID := e.1, Paths := sortStrings e.2 } : idPathsJSON)))
      = sortByID ((mapEntries b).map
          (fun e => ({ ID := e.1, Paths := sortStrings e.2 } : idPathsJSON))) := by
  cases a with
  | none =>
    cases b with
    | none => rfl
    | some b => exact absurd h (by simp [mapRearranged])
  | some a =>
    cases b with
    | none => exact absurd h (by simp [mapRearranged])
    | some b =>
      obtain ⟨l, hl, hf⟩ := h
      show sortByID (a.entries.map _) = sortByID (b.entries.map _)
      rw [← entries_eq_of_forall₂ hf]
      refine sortByID_eq_of_perm (hl.symm.map _) ?_
      rw [map_ID_entries]
      exact a.nodup

/-- The `configJSON` of two rearranged Configs is the same. -/
theorem configToJSON_rearranged {A B : Config} (h : A.Rearranged B) :
    (configToJSON A).1 = (configToJSON B).1 := by
  obtain ⟨hu, he, hi, hm, hp, hv⟩ := h
  simp only [configToJSON, sortStrings_eq_of_perm hu, sortStrings_eq_of_perm he,
    sortStrings_eq_of_perm hi, mapEntries_rearranged hm, hp, hv]

/-! ## The canonical byte serializer -/

/-- C3, as stated, fails: `BytesForConfig` on a Config with `use = ["B","A"]`
leaves `use = ["A","B"]` in that Config. -/
theorem bytesForConfig_mutates_use :
    (BytesForConfig (some sampleConfig)).config.map Config.Use = some ["A", "B"] ∧
    (BytesForConfig (some sampleConfig)).config.map Config.Use ≠ some sampleConfig.Use := by
  decide

theorem sortPaths_forall₂ (l : List (String × List String)) :
    List.Forall₂ (fun x y => y.1 = x.1 ∧ y.2.Perm x.2 ∧ y.2.Pairwise strLE) l
      (l.map (fun e => (e.1, sortStrings e.2))) := by
  induction l with
  | nil => exact List.Forall₂.nil
  | cons x l ih =>
    exact List.Forall₂.cons ⟨rfl, sortStrings_perm x.2, sortStrings_sorted x.2⟩ ih

/-- On a Config that holds each slice as a list of its own: after the call
`use`, `except`, `ignoreRootPaths` and every path list of the map hold the
elements they held before, with the same multiplicities, in ascending order;
the map has the same keys, and nil-ness, `ignoreUnstablePackages` and `version`
are as before. -/
theorem bytesForConfig_sorts_in_place (c : Config) :
    ∃ c', (BytesForConfig (some c)).config = some c' ∧
      (c'.Use.Perm c.Use ∧ c'.Use.Pairwise strLE) ∧
      (c'.Except.Perm c.Except ∧ c'.Except.Pairwise strLE) ∧
      (c'.IgnoreRootPaths.Perm c.IgnoreRootPaths ∧ c'.IgnoreRootPaths.Pairwise strLE) ∧
      List.Forall₂ (fun x y => y.1 = x.1 ∧ y.2.Perm x.2 ∧ y.2.Pairwise strLE)
        (mapEntries c.IgnoreIDOrCategoryToRootPaths)
        (mapEntries c'.IgnoreIDOrCategoryToRootPaths) ∧
      c'.IgnoreIDOrCategoryToRootPaths.isSome = c.IgnoreIDOrCategoryToRootPaths.isSome ∧
      c'.IgnoreUnstablePackages = c.IgnoreUnstablePackages ∧ c'.Version = c.Version := by
  refine ⟨(configToJSON c).2, rfl, ⟨sortStrings_perm _, sortStrings_sorted _⟩,
    ⟨sortStrings_perm _, sortStrings_sorted _⟩, ⟨sortStrings_perm _, sortStrings_sorted _⟩,
    ?_, ?_, rfl, rfl⟩
  · cases hm : c.IgnoreIDOrCategoryToRootPaths with
    | none => simp [configToJSON, hm, mapEntries]
    | some m =>
      simp only [configToJSON, hm, mapEntries, Option.map_some', PathsMap.sortPaths]
      exact sortPaths_forall₂ m.entries
  · cases hm : c.IgnoreIDOrCategoryToRootPaths <;> simp [configToJSON, hm]

/-- The entries of the normalized structure are made from the entries of the map. -/
theorem configToJSON_entries_perm (c : Config) :
    (configToJSON c).1.IgnoreIDOrCategoryToRootPaths.Perm
      ((mapEntries c.IgnoreIDOrCategoryToRootPaths).map
        (fun e => ({ ID := e.1, Paths := sortStrings e.2 } : idPathsJSON))) :=
  sortByID_perm _

/-- On a Config that holds each slice as a list of its own: in the structure
that is serialized, `use`, `except` and `ignoreRootPaths` are sorted ascending
and are permutations of the input sequences (duplicates kept); the entries have
strictly ascending ids, their ids are exactly the keys of the map, one entry
per key, and the paths of each entry are a sorted permutation of the path list
of its key. -/
theorem configToJSON_normalized (c : Config) :
    ((configToJSON c).1.Use.Pairwise strLE ∧ (configToJSON c).1.Use.Perm c.Use) ∧
    ((configToJSON c).1.Except.Pairwise strLE ∧ (configToJSON c).1.Except.Perm c.Except) ∧
    ((configToJSON c).1.IgnoreRootPaths.Pairwise strLE ∧
      (configToJSON c).1.IgnoreRootPaths.Perm c.IgnoreRootPaths) ∧
    ((configToJSON c).1.IgnoreIDOrCategoryToRootPaths.map idPathsJSON.ID).Pairwise strLT ∧
    ((configToJSON c).1.IgnoreIDOrCategoryToRootPaths.map idPathsJSON.ID).Perm
      ((mapEntries c.IgnoreIDOrCategoryToRootPaths).map Prod.fst) ∧
    (configToJSON c).1.IgnoreIDOrCategoryToRootPaths.length
      = (mapEntries c.IgnoreIDOrCategoryToRootPaths).length ∧
    (∀ e ∈ (configToJSON c).1.IgnoreIDOrCategoryToRootPaths,
      ∃ paths, (e.ID, paths) ∈ mapEntries c.IgnoreIDOrCategoryToRootPaths ∧
        e.Paths.Pairwise strLE ∧ e.Paths.Perm paths) := by
  have hperm := configToJSON_entries_perm c
  have hids : ((configToJSON c).1.IgnoreIDOrCategoryToRootPaths.map idPathsJSON.ID).Perm
      ((mapEntries c.IgnoreIDOrCategoryToRootPaths).map Prod.fst) := by
    have h := hperm.map idPathsJSON.ID
    rwa [map_ID_entries] at h
  refine ⟨⟨sortStrings_sorted _, sortStrings_perm _⟩, ⟨sortStrings_sorted _, sortStrings_perm _⟩,
    ⟨sortStrings_sorted _, sortStrings_perm _⟩, ?_, hids, ?_, ?_⟩
  · have hnd : ((configToJSON c).1.IgnoreIDOrCategoryToRootPaths.map idPathsJSON.ID).Nodup :=
      hids.nodup_iff.2 (mapEntries_nodup _)
    have hs : ((configToJSON c).1.IgnoreIDOrCategoryToRootPaths.map idPathsJSON.ID).Pairwise
        strLE := List.pairwise_map.2 (sortByID_sorted _)
    exact (hs.and hnd).imp (fun h => strLT_iff.2 h)
  · have h := hperm.length_eq
    rwa [List.length_map] at h
  · intro e he
    obtain ⟨x, hx, rfl⟩ := List.mem_map.1 (hperm.mem_iff.1 he)
    exact ⟨x.2, hx, sortStrings_sorted _, sortStrings_perm _⟩


theorem filterMap_id_cons (o : Option String) (l : List (Option String)) :
    (o :: l).filterMap id = o.toList ++ l.filterMap id := by
  cases o <;> rfl

theorem jsonField_toList (name : String) (b : Bool) (v : String) :
    (jsonField name b v).toList = if b then [] else ["\"" ++ name ++ "\":" ++ v] := by
  cases b <;> rfl

theorem data_isEmpty_iff (s : String) : s.data.isEmpty = decide (s = "") := by
  cases s with
  | mk d => cases d <;> simp [String.ext_iff]

theorem sortStrings_isEmpty (l : List String) : (sortStrings l).isEmpty = decide (l = []) := by
  have h := (sortStrings_perm l).length_eq
  cases l with
  | nil => rfl
  | cons a l =>
    cases hs : sortStrings (a :: l) with
    | nil => rw [hs] at h; simp at h
    | cons b l' => simp

theorem sortByID_isEmpty (l : List idPathsJSON) : (sortByID l).isEmpty = decide (l = []) := by
  have h := (sortByID_perm l).length_eq
  cases l with
  | nil => rfl
  | cons a l =>
    cases hs : sortByID (a :: l) with
    | nil => rw [hs] at h; simp at h
    | cons b l' => simp

theorem jsonIDPaths_eq (e : idPathsJSON) : jsonIDPaths e = canonicalEntry e := by
  simp only [jsonIDPaths, canonicalEntry, jsonObject, filterMap_id_cons, jsonField_toList,
    List.filterMap_nil, List.append_nil, data_isEmpty_iff]
  cases h1 : decide (e.ID = "") <;> cases h2 : e.Paths <;> simp_all [String.append_assoc]


theorem jsonMarshal_configToJSON (c : Config) :
    jsonMarshal (configToJSON c).1
      = "\x7b" ++ ",".intercalate (canonicalFields c) ++ "\x7d" := by
  have hj : (jsonIDPaths : idPathsJSON → String) = canonicalEntry := funext jsonIDPaths_eq
  obtain ⟨u, e, i, m, b, v⟩ := c
  simp only [jsonMarshal, configToJSON, canonicalFields, jsonObject, filterMap_id_cons,
    jsonField_toList, List.filterMap_nil, List.append_nil, data_isEmpty_iff,
    sortStrings_isEmpty, sortByID_isEmpty, hj, List.map_eq_nil_iff]
  cases b <;> simp [String.append_assoc, List.append_assoc]
  

/-- C5: for every non-nil Config, `BytesForConfig` returns, with no error, one
JSON object without white space between its tokens: an opening brace, the
fields of `canonicalFields` separated by commas, a closing brace. The fields
come in the order `use`, `except`, `ignore_root_paths`,
`ignore_id_to_root_paths` (entries with `id`, then `paths`),
`ignore_unstable_packages`, `version`, and an empty sequence, an empty or nil
map, a false flag and an empty version are left out. The Config with
`use: ["B","A"]`, `ignoreRootPaths: ["z","a"]`, the flag set and version `v1`
gives `{"use":["A","B"],"ignore_root_paths":["a","z"],"ignore_unstable_packages":true,"version":"v1"}`. -/
theorem bytesForConfig_canonical_object :
    (∀ c : Config,
      (BytesForConfig (some c)).bytes
        = some ("\x7b" ++ ",".intercalate (canonicalFields c) ++ "\x7d") ∧
      (BytesForConfig (some c)).err = none) ∧
    (BytesForConfig (some sampleConfig)).bytes
      = some "\x7b\"use\":[\"A\",\"B\"],\"ignore_root_paths\":[\"a\",\"z\"],\"ignore_unstable_packages\":true,\"version\":\"v1\"\x7d" := by
  refine ⟨fun c => ⟨?_, rfl⟩, by decide⟩
  show some (jsonMarshal (configToJSON c).1) = _
  rw [jsonMarshal_configToJSON]

/-- C6: `BytesForConfig` on a nil Config returns nil bytes and a nil error; the
Config is not read (the call does not panic), and there is nothing behind the
pointer afterwards either. -/
theorem bytesForConfig_nil :
    BytesForConfig none = { bytes := none, err := none, config := none } := rfl

/-! ## The ordered codec -/

/-- The pairs that `MarshalYAML` writes: those with a path. -/
theorem marshalPairs_eq (l : List IDPaths) (content : List Node) :
    marshalPairs l content
      = content ++ (l.filter (fun p => decide (p.Paths ≠ []))).flatMap
          (fun p => [Node.zero.SetString p.ID, newPathsNode p.Paths]) := by
  induction l generalizing content with
  | nil => simp [marshalPairs]
  | cons p l ih =>
    unfold marshalPairs
    by_cases h : p.Paths = []
    · simp [h, ih]
    · have hlen : ¬ p.Paths.length = 0 := fun e => h (List.length_eq_zero.1 e)
      simp [h, hlen, ih]

theorem shortTag_str : shortTag "!!str" = "!!str" := by decide

theorem indicatedString_setString (n : Node) (s : String) :
    (n.SetString s).indicatedString = true := by
  simp [Node.SetString, Node.indicatedString, Node.Kind, Node.Tag, shortTag_str]

theorem unmarshalString_setString (r : Resolver) (s : String) :
    unmarshalString r (Node.zero.SetString s) = .done true s [] := by
  have h := indicatedString_setString Node.zero s
  unfold Node.SetString at h ⊢
  unfold unmarshalString
  have h1 : ¬ ScalarNode = DocumentNode := by decide
  have h2 : ¬ ScalarNode = AliasNode := by decide
  simp only [h1, h2, if_false, if_true, resolveScalar, h, Node.Value]

theorem sequenceStrings_setString (r : Resolver) (paths : List String) :
    sequenceStrings r (paths.map (fun path => Node.zero.SetString path))
      = .done true paths [] := by
  induction paths with
  | nil => rfl
  | cons p ps ih =>
    simp only [List.map_cons, sequenceStrings, unmarshalString_setString, ih]
    simp

theorem decodeString_setString (r : Resolver) (s : String) :
    (Node.zero.SetString s).DecodeString r = .ok s := by
  simp [Node.DecodeString, unmarshalString_setString, finishDecode]

theorem decodeStrings_newPathsNode (r : Resolver) (paths : List String) :
    (newPathsNode paths).DecodeStrings r = .ok paths := by
  have h1 : ¬ SequenceNode = DocumentNode := by decide
  have h2 : ¬ SequenceNode = AliasNode := by decide
  have h3 : ¬ SequenceNode = ScalarNode := by decide
  have h4 : ¬ SequenceNode = MappingNode := by decide
  simp [Node.DecodeStrings, newPathsNode, unmarshalStrings, h1, h2, h3, h4,
    sequenceStrings_setString, finishDecode]

/-- Decoding the children that `MarshalYAML` writes for `l` appends `l`. -/
theorem unmarshalPairs_marshalled (r : Resolver) (l acc : List IDPaths) :
    unmarshalPairs r
      (l.flatMap (fun p => [Node.zero.SetString p.ID, newPathsNode p.Paths])) acc
      = (.returned none, acc ++ l) := by
  induction l generalizing acc with
  | nil => simp [unmarshalPairs]
  | cons p l ih =>
    have hstep : unmarshalPairs r
        (Node.zero.SetString p.ID :: newPathsNode p.Paths ::
          l.flatMap (fun p => [Node.zero.SetString p.ID, newPathsNode p.Paths])) acc
        = unmarshalPairs r
            (l.flatMap (fun p => [Node.zero.SetString p.ID, newPathsNode p.Paths]))
            (acc ++ [p]) := by
      rw [unmarshalPairs]
      simp only [decodeString_setString, decodeStrings_newPathsNode]
    have hcons : (p :: l).flatMap (fun p => [Node.zero.SetString p.ID, newPathsNode p.Paths])
        = Node.zero.SetString p.ID :: newPathsNode p.Paths ::
          l.flatMap (fun p => [Node.zero.SetString p.ID, newPathsNode p.Paths]) := by
      simp [List.flatMap_cons]
    rw [hcons, hstep, ih, List.append_assoc]
    rfl


theorem marshalYAML_eq (l : List IDPaths) (h : l ≠ []) :
    ExternalIgnoreOnly.MarshalYAML ⟨l⟩
      = (some (.mk MappingNode LiteralStyle "" ""
          ((l.filter (fun p => decide (p.Paths ≠ []))).flatMap
            (fun p => [Node.zero.SetString p.ID, newPathsNode p.Paths]))), none) := by
  have hlen : ¬ l.length = 0 := fun e => h (List.length_eq_zero.1 e)
  simp only [ExternalIgnoreOnly.MarshalYAML, hlen, if_false, marshalPairs_eq, List.nil_append]

/-- Decoding, into a fresh receiver, the node with the children that
`MarshalYAML` writes for `l` gives the pairs of `l` that have a path. -/
theorem unmarshalYAML_marshalled (r : Resolver) (l : List IDPaths) :
    ExternalIgnoreOnly.UnmarshalYAML r ⟨[]⟩
      (.mk MappingNode LiteralStyle "" ""
        ((l.filter (fun p => decide (p.Paths ≠ []))).flatMap
          (fun p => [Node.zero.SetString p.ID, newPathsNode p.Paths])))
      = (.returned none, ⟨l.filter (fun p => decide (p.Paths ≠ []))⟩) := by
  unfold ExternalIgnoreOnly.UnmarshalYAML
  simp only [Node.Content, Node.Kind, unmarshalPairs_marshalled, List.nil_append]
  cases hf : l.filter (fun p => decide (p.Paths ≠ [])) with
  | nil => simp
  | cons p l' => simp

/-- C1: for every ordered list of pairs in which every paths list is non-empty
and the ids are unique, `MarshalYAML` returns no node when the list is empty,
and otherwise a node that `UnmarshalYAML` decodes, into a fresh receiver, to
exactly the original list, without error. -/
theorem roundtrip_nonempty_paths (r : Resolver) (l : List IDPaths)
    (hne : ∀ p ∈ l, p.Paths ≠ []) (_hid : (l.map IDPaths.ID).Nodup) :
    if l = [] then ExternalIgnoreOnly.MarshalYAML ⟨l⟩ = (none, none)
    else ∃ node, ExternalIgnoreOnly.MarshalYAML ⟨l⟩ = (some node, none) ∧
      ExternalIgnoreOnly.UnmarshalYAML r ⟨[]⟩ node = (.returned none, ⟨l⟩) := by
  by_cases h : l = []
  · subst h; simp [ExternalIgnoreOnly.MarshalYAML]
  · rw [if_neg h]
    refine ⟨_, marshalYAML_eq l h, ?_⟩
    have hf : l.filter (fun p => decide (p.Paths ≠ [])) = l :=
      List.filter_eq_self.2 (fun p hp => decide_eq_true (hne p hp))
    have hu := unmarshalYAML_marshalled r l
    rw [hf] at hu
    rw [hf]
    exact hu

theorem roundtrip_nonempty_paths_witness :
    (∀ p ∈ samplePairs, p.Paths ≠ []) ∧ (samplePairs.map IDPaths.ID).Nodup ∧
    ∃ node, ExternalIgnoreOnly.MarshalYAML ⟨samplePairs⟩ = (some node, none) ∧
      ExternalIgnoreOnly.UnmarshalYAML Resolver.strict ⟨[]⟩ node
        = (.returned none, ⟨samplePairs⟩) :=
  have h1 : ∀ p ∈ samplePairs, p.Paths ≠ [] := by decide
  have h2 : (samplePairs.map IDPaths.ID).Nodup := by decide
  ⟨h1, h2, by
    have h := roundtrip_nonempty_paths Resolver.strict samplePairs h1 h2
    rwa [if_neg (by decide)] at h⟩

/-- C7: for every ordered list of pairs, `MarshalYAML` returns no node when the
list is empty, and otherwise a node that `UnmarshalYAML` decodes, into a fresh
receiver and without error, to the list without the pairs whose paths list is
empty, the other pairs unchanged and in their order. In particular the single
pair `(R, [])` is encoded as a node with no children. -/
theorem roundtrip_drops_empty_paths :
    (∀ (r : Resolver) (l : List IDPaths),
      if l = [] then ExternalIgnoreOnly.MarshalYAML ⟨l⟩ = (none, none)
      else ∃ node, ExternalIgnoreOnly.MarshalYAML ⟨l⟩ = (some node, none) ∧
        ExternalIgnoreOnly.UnmarshalYAML r ⟨[]⟩ node
          = (.returned none, ⟨l.filter (fun p => decide (p.Paths ≠ []))⟩)) ∧
    (∀ R : String, ∃ node,
      ExternalIgnoreOnly.MarshalYAML ⟨[{ ID := R, Paths := [] }]⟩ = (some node, none) ∧
      node.Content = []) := by
  constructor
  · intro r l
    by_cases h : l = []
    · subst h; simp [ExternalIgnoreOnly.MarshalYAML]
    · rw [if_neg h]
      exact ⟨_, marshalYAML_eq l h, unmarshalYAML_marshalled r l⟩
  · intro R
    exact ⟨_, marshalYAML_eq _ (by simp), by simp [Node.Content]⟩

/-- C8: `MarshalYAML` never fails and is the reference encoder: no node for the
empty list; for a non-empty list a mapping node in literal style whose children
are, for each pair with a path and in input order, the scalar text node of the
id and the sequence node of the scalar text nodes of the paths, so twice as
many children as there are pairs with a path. A scalar text node holding `s`
is of scalar kind, has the value `s` and no children. -/
theorem marshalYAML_reference :
    (∀ e : ExternalIgnoreOnly,
      e.MarshalYAML = (encodeReference e.IDToPaths, none) ∧
      (e.IDToPaths = [] ↔ e.MarshalYAML.1 = none) ∧
      (∀ node, e.MarshalYAML.1 = some node →
        node.Kind = MappingNode ∧ node.Style = LiteralStyle ∧
        node.Content.length
          = 2 * (e.IDToPaths.filter (fun p => decide (p.Paths ≠ []))).length)) ∧
    (∀ s : String, (scalarText s).Kind = ScalarNode ∧ (scalarText s).Value = s ∧
      (scalarText s).Content = []) := by
  constructor
  · rintro ⟨l⟩
    by_cases h : l = []
    · subst h
      simp [ExternalIgnoreOnly.MarshalYAML, encodeReference]
    · have hm := marshalYAML_eq l h
      refine ⟨?_, ?_, ?_⟩
      · have hs : scalarText = fun s => Node.zero.SetString s := rfl
        rw [hm]; simp [encodeReference, h, hs, newPathsNode]
      · rw [hm]; simp [h]
      · intro node hn
        rw [hm] at hn
        simp only [Option.some.injEq] at hn
        subst hn
        refine ⟨rfl, rfl, ?_⟩
        simp only [Node.Content]
        generalize l.filter (fun p => decide (p.Paths ≠ [])) = l'
        induction l' with
        | nil => rfl
        | cons p l' ih => simp [List.flatMap_cons, ih]; omega
  · intro s
    exact ⟨rfl, rfl, rfl⟩


/-- C9, as stated, fails: a scalar node is not a mapping, has no children, and
`UnmarshalYAML` returns a nil error for it. -/
theorem unmarshalYAML_scalar_no_error :
    (scalarText "x").Kind ≠ MappingNode ∧
    ExternalIgnoreOnly.UnmarshalYAML Resolver.strict ⟨[]⟩ (scalarText "x")
      = (.returned none, ⟨[]⟩) := by
  decide

/-- C9, amended: for every node that has at least one child and whose kind is
not mapping, `UnmarshalYAML` returns the error "ignore_only must be a YAML map,
instead is K", K the kind of the node as a number, and leaves the receiver as it
was. (A node without children is accepted whatever its kind.) -/
theorem unmarshalYAML_not_mapping (r : Resolver) (e : ExternalIgnoreOnly) (value : Node)
    (hc : value.Content ≠ []) (hk : value.Kind ≠ MappingNode) :
    e.UnmarshalYAML r value
      = (.returned (some (.errorf
          ("ignore_only must be a YAML map, instead is " ++ toString value.Kind))), e) := by
  have hlen : ¬ value.Content.length = 0 := fun h => hc (List.length_eq_zero.1 h)
  simp [ExternalIgnoreOnly.UnmarshalYAML, hlen, hk]

theorem unmarshalYAML_not_mapping_witness :
    (newPathsNode ["a"]).Content ≠ [] ∧ (newPathsNode ["a"]).Kind ≠ MappingNode ∧
    ExternalIgnoreOnly.UnmarshalYAML Resolver.strict ⟨samplePairs⟩ (newPathsNode ["a"])
      = (.returned (some (.errorf "ignore_only must be a YAML map, instead is 2")),
          ⟨samplePairs⟩) :=
  ⟨by decide, by decide,
    unmarshalYAML_not_mapping Resolver.strict ⟨samplePairs⟩ (newPathsNode ["a"])
      (by decide) (by decide)⟩

/-- C10: for every node without children `UnmarshalYAML` returns a nil error and
leaves the list of the receiver as it was; into a fresh receiver it therefore
yields the empty list. -/
theorem unmarshalYAML_no_children (r : Resolver) (e : ExternalIgnoreOnly) (value : Node)
    (hc : value.Content = []) :
    e.UnmarshalYAML r value = (.returned none, e) ∧
    (ExternalIgnoreOnly.UnmarshalYAML r ⟨[]⟩ value).2.IDToPaths = [] := by
  simp [ExternalIgnoreOnly.UnmarshalYAML, hc]

theorem unmarshalYAML_no_children_witness :
    (Node.mk MappingNode 0 "!!map" "" []).Content = [] ∧
    ExternalIgnoreOnly.UnmarshalYAML Resolver.strict ⟨samplePairs⟩
        (Node.mk MappingNode 0 "!!map" "" []) = (.returned none, ⟨samplePairs⟩) ∧
    (ExternalIgnoreOnly.UnmarshalYAML Resolver.strict ⟨[]⟩
        (Node.mk MappingNode 0 "!!map" "" [])).2.IDToPaths = [] :=
  ⟨rfl, unmarshalYAML_no_children Resolver.strict ⟨samplePairs⟩
    (Node.mk MappingNode 0 "!!map" "" []) rfl⟩

/-! ## Decoding a mapping of scalars and sequences -/

theorem unmarshalString_text (r : Resolver) (n : Node) (h : n.isTextScalar r) :
    unmarshalString r n = .done true n.Value [] := by
  obtain ⟨k, st, t, v, c⟩ := n
  obtain ⟨hk, hr⟩ := h
  simp only [Node.Kind] at hk
  subst hk
  unfold unmarshalString
  have h1 : ¬ ScalarNode = DocumentNode := by decide
  have h2 : ¬ ScalarNode = AliasNode := by decide
  simp only [h1, h2, if_false, if_true, hr]

theorem sequenceStrings_text (r : Resolver) (cs : List Node)
    (h : ∀ c ∈ cs, c.isTextScalar r) :
    sequenceStrings r cs = .done true (cs.map Node.Value) [] := by
  induction cs with
  | nil => rfl
  | cons c cs ih =>
    have hc := unmarshalString_text r c (h c (List.mem_cons_self _ _))
    have ih' := ih (fun x hx => h x (List.mem_cons_of_mem _ hx))
    simp only [sequenceStrings, hc, ih', List.map_cons]
    simp

theorem decodeString_text (r : Resolver) (n : Node) (h : n.isTextScalar r) :
    n.DecodeString r = .ok n.Value := by
  simp [Node.DecodeString, unmarshalString_text r n h, finishDecode]

theorem decodeStrings_text (r : Resolver) (n : Node) (h : n.isTextSequence r) :
    n.DecodeStrings r = .ok (n.Content.map Node.Value) := by
  obtain ⟨k, st, t, v, c⟩ := n
  obtain ⟨hk, hc⟩ := h
  simp only [Node.Kind] at hk
  subst hk
  simp only [Node.Content] at hc ⊢
  have h1 : ¬ SequenceNode = DocumentNode := by decide
  have h2 : ¬ SequenceNode = AliasNode := by decide
  have h3 : ¬ SequenceNode = ScalarNode := by decide
  have h4 : ¬ SequenceNode = MappingNode := by decide
  simp [Node.DecodeStrings, unmarshalStrings, h1, h2, h3, h4, sequenceStrings_text r c hc,
    finishDecode]

theorem pairContent_cons (p : Node × Node) (pairs : List (Node × Node)) :
    pairContent (p :: pairs) = p.1 :: p.2 :: pairContent pairs := by
  simp [pairContent, List.flatMap_cons]

theorem pairContent_eq_nil {pairs : List (Node × Node)} :
    pairContent pairs = [] ↔ pairs = [] := by
  cases pairs with
  | nil => simp [pairContent]
  | cons p l => simp [pairContent_cons]

/-- The loop over keys and values that hold text appends one pair for each. -/
theorem unmarshalPairs_text (r : Resolver) (pairs : List (Node × Node)) (acc : List IDPaths)
    (h : ∀ p ∈ pairs, p.1.isTextScalar r ∧ p.2.isTextSequence r) :
    unmarshalPairs r (pairContent pairs) acc
      = (.returned none,
          acc ++ pairs.map (fun p => { ID := p.1.Value, Paths := p.2.Content.map Node.Value })) := by
  induction pairs generalizing acc with
  | nil => simp [pairContent, unmarshalPairs]
  | cons p pairs ih =>
    have hp := h p (List.mem_cons_self _ _)
    rw [pairContent_cons, unmarshalPairs]
    simp only [decodeString_text r p.1 hp.1, decodeStrings_text r p.2 hp.2]
    rw [ih _ (fun x hx => h x (List.mem_cons_of_mem _ hx)), List.append_assoc]
    rfl

/-- C11, as stated, fails: a key that is the null scalar `~` gives the id `""`,
not `~`, and a null scalar among the paths is left out of the decoded paths. -/
theorem unmarshalYAML_null_scalars :
    nullScalar.Kind = ScalarNode ∧ nullScalar.Value = "~" ∧
    ExternalIgnoreOnly.UnmarshalYAML Resolver.strict ⟨[]⟩
        (.mk MappingNode 0 "!!map" "" [nullScalar, newPathsNode ["a"]])
      = (.returned none, ⟨[{ ID := "", Paths := ["a"] }]⟩) ∧
    ExternalIgnoreOnly.UnmarshalYAML Resolver.strict ⟨[]⟩
        (.mk MappingNode 0 "!!map" "" [scalarText "R",
          .mk SequenceNode 0 "!!seq" "" [scalarText "a", nullScalar, scalarText "b"]])
      = (.returned none, ⟨[{ ID := "R", Paths := ["a", "b"] }]⟩) := by
  decide

/-- C11, amended: for every mapping node with 2n children (n >= 1) in which
every even-indexed child is a scalar that holds text (it is not null and its
value conforms to its tag) and every odd-indexed child is a sequence of such
scalars, `UnmarshalYAML` returns a nil error and sets the list to exactly n
pairs, the k-th pair holding the value of child 2k as id and the values of the
children of child 2k+1, in order, as paths. Pairs with the same id stay
distinct entries in their positions, and what the receiver held is discarded. -/
theorem unmarshalYAML_text_pairs (r : Resolver) (e : ExternalIgnoreOnly) (value : Node)
    (pairs : List (Node × Node)) (hk : value.Kind = MappingNode)
    (hc : value.Content = pairContent pairs) (hne : pairs ≠ [])
    (ht : ∀ p ∈ pairs, p.1.isTextScalar r ∧ p.2.isTextSequence r) :
    e.UnmarshalYAML r value
      = (.returned none,
          ⟨pairs.map (fun p => { ID := p.1.Value, Paths := p.2.Content.map Node.Value })⟩) := by
  have hlen : ¬ (pairContent pairs).length = 0 := fun h0 =>
    hne (pairContent_eq_nil.1 (List.length_eq_zero.1 h0))
  unfold ExternalIgnoreOnly.UnmarshalYAML
  simp only [hk, ne_eq, not_true_eq_false, hc, hlen, if_false,
    unmarshalPairs_text r pairs [] ht, List.nil_append]

theorem unmarshalYAML_text_pairs_witness :
    (Node.mk MappingNode 0 "" ""
      (pairContent [(scalarText "R", newPathsNode ["a", "b"]), (scalarText "R", newPathsNode [])])).Kind
      = MappingNode ∧
    [(scalarText "R", newPathsNode ["a", "b"]), (scalarText "R", newPathsNode [])] ≠ [] ∧
    (∀ p ∈ [(scalarText "R", newPathsNode ["a", "b"]), (scalarText "R", newPathsNode [])],
      p.1.isTextScalar Resolver.strict ∧ p.2.isTextSequence Resolver.strict) ∧
    ExternalIgnoreOnly.UnmarshalYAML Resolver.strict ⟨samplePairs⟩
        (.mk MappingNode 0 "" ""
          (pairContent
            [(scalarText "R", newPathsNode ["a", "b"]), (scalarText "R", newPathsNode [])]))
      = (.returned none, ⟨[{ ID := "R", Paths := ["a", "b"] }, { ID := "R", Paths := [] }]⟩) :=
  ⟨rfl, by decide, by decide,
    unmarshalYAML_text_pairs Resolver.strict ⟨samplePairs⟩
      (.mk MappingNode 0 "" ""
        (pairContent
          [(scalarText "R", newPathsNode ["a", "b"]), (scalarText "R", newPathsNode [])]))
      [(scalarText "R", newPathsNode ["a", "b"]), (scalarText "R", newPathsNode [])]
      rfl rfl (by decide) (by decide)⟩

/-- The loop passes over keys and values that decode. -/
theorem unmarshalPairs_good (r : Resolver) (good : List (Node × Node)) (tail : List Node)
    (acc : List IDPaths)
    (h : ∀ p ∈ good, (∃ id, p.1.DecodeString r = .ok id) ∧ (∃ ps, p.2.DecodeStrings r = .ok ps)) :
    ∃ acc', unmarshalPairs r (pairContent good ++ tail) acc = unmarshalPairs r tail acc' := by
  induction good generalizing acc with
  | nil => exact ⟨acc, by simp [pairContent]⟩
  | cons p good ih =>
    obtain ⟨⟨id, hid⟩, ⟨ps, hps⟩⟩ := h p (List.mem_cons_self _ _)
    obtain ⟨acc', hacc⟩ := ih (acc ++ [{ ID := id, Paths := ps }])
      (fun x hx => h x (List.mem_cons_of_mem _ hx))
    refine ⟨acc', ?_⟩
    rw [pairContent_cons, List.cons_append, List.cons_append, unmarshalPairs]
    simp only [hid, hps]
    exact hacc

theorem unmarshalPairs_bad_key (r : Resolver) (bad : Node) (rest : List Node)
    (acc : List IDPaths) (err : Error) (h : bad.DecodeString r = .error err) :
    unmarshalPairs r (bad :: rest) acc = (.returned (some err), acc) := by
  cases rest with
  | nil => rw [unmarshalPairs]; simp only [h]
  | cons c rest => rw [unmarshalPairs]; simp only [h]

theorem unmarshalPairs_bad_value (r : Resolver) (key bad : Node) (rest : List Node)
    (acc : List IDPaths) (id : String) (err : Error) (hkey : key.DecodeString r = .ok id)
    (h : bad.DecodeStrings r = .error err) :
    unmarshalPairs r (key :: bad :: rest) acc = (.returned (some err), acc) := by
  rw [unmarshalPairs]; simp only [hkey, h]

/-- C12: for every mapping node with an even, non-zero number of children in
which some child does not decode (an even-indexed child into a string, an
odd-indexed child into a list of strings), `UnmarshalYAML` returns the error of
the first such child in child order: `bad` is that child, the pairs of `good`
before it decode, and the children `rest` after it are arbitrary, so none of
them is decoded. -/
theorem unmarshalYAML_first_error (r : Resolver) (e : ExternalIgnoreOnly) (value : Node)
    (good : List (Node × Node)) (bad : Node) (rest : List Node) (err : Error)
    (hk : value.Kind = MappingNode) (_heven : value.Content.length % 2 = 0)
    (hnz : value.Content.length ≠ 0)
    (hgood : ∀ p ∈ good,
      (∃ id, p.1.DecodeString r = .ok id) ∧ (∃ ps, p.2.DecodeStrings r = .ok ps))
    (hbad : (value.Content = pairContent good ++ bad :: rest ∧
              bad.DecodeString r = .error err) ∨
            (∃ key id, value.Content = pairContent good ++ key :: bad :: rest ∧
              key.DecodeString r = .ok id ∧ bad.DecodeStrings r = .error err)) :
    (e.UnmarshalYAML r value).1 = .returned (some err) := by
  have hlen : ¬ value.Content.length = 0 := hnz
  unfold ExternalIgnoreOnly.UnmarshalYAML
  simp only [hlen, if_false, hk, ne_eq, not_true_eq_false]
  rcases hbad with ⟨hc, hb⟩ | ⟨key, id, hc, hkey, hb⟩
  · obtain ⟨acc', hacc⟩ := unmarshalPairs_good r good (bad :: rest) [] hgood
    rw [hc, hacc, unmarshalPairs_bad_key r bad rest acc' err hb]
  · obtain ⟨acc', hacc⟩ := unmarshalPairs_good r good (key :: bad :: rest) [] hgood
    rw [hc, hacc, unmarshalPairs_bad_value r key bad rest acc' id err hkey hb]

theorem unmarshalYAML_first_error_witness :
    sampleBadNode.Kind = MappingNode ∧ sampleBadNode.Content.length % 2 = 0 ∧
    sampleBadNode.Content.length ≠ 0 ∧
    (scalarText "R2").DecodeString Resolver.strict = .ok "R2" ∧
    (Node.mk MappingNode 0 "!!map" "" []).DecodeStrings Resolver.strict
      = .error (.typeError [.mk MappingNode 0 "!!map" "" []]) ∧
    (ExternalIgnoreOnly.UnmarshalYAML Resolver.strict ⟨[]⟩ sampleBadNode).1
      = .returned (some (.typeError [.mk MappingNode 0 "!!map" "" []])) :=
  ⟨rfl, by decide, by decide, by decide, by decide,
    unmarshalYAML_first_error Resolver.strict ⟨[]⟩ sampleBadNode
      [(scalarText "R1", newPathsNode ["a"])] (.mk MappingNode 0 "!!map" "" [])
      [scalarText "R3", newPathsNode ["z"]] (.typeError [.mk MappingNode 0 "!!map" "" []])
      rfl (by decide) (by decide)
      (fun p hp => by
        rw [List.mem_singleton] at hp
        subst hp
        exact ⟨⟨"R1", by decide⟩, ⟨["a"], by decide⟩⟩)
      (Or.inr ⟨scalarText "R2", "R2", rfl, by decide, by decide⟩)⟩

/-- C13, as stated, fails: a key whose value is the non-empty sequence `[~]`
decodes to a pair without paths, which is not encoded again, so the key is lost;
and the key `~` comes back as the empty key. -/
theorem reencode_null_scalars :
    ExternalIgnoreOnly.UnmarshalYAML Resolver.strict ⟨[]⟩
        (.mk MappingNode 0 "!!map" "" [scalarText "R", .mk SequenceNode 0 "!!seq" "" [nullScalar]])
      = (.returned none, ⟨[{ ID := "R", Paths := [] }]⟩) ∧
    ExternalIgnoreOnly.MarshalYAML ⟨[{ ID := "R", Paths := [] }]⟩
      = (some (.mk MappingNode LiteralStyle "" "" []), none) ∧
    ExternalIgnoreOnly.UnmarshalYAML Resolver.strict ⟨[]⟩
        (.mk MappingNode 0 "!!map" "" [nullScalar, newPathsNode ["a"]])
      = (.returned none, ⟨[{ ID := "", Paths := ["a"] }]⟩) ∧
    ExternalIgnoreOnly.MarshalYAML ⟨[{ ID := "", Paths := ["a"] }]⟩
      = (some (.mk MappingNode LiteralStyle "" "" [scalarText "", newPathsNode ["a"]]), none) := by
  decide

/-- C13, amended: for every mapping node with at least one key whose keys are
scalars that hold text (not null, conforming to their tag) and whose values are
all non-empty sequences of such scalars, `UnmarshalYAML` succeeds, and
`MarshalYAML` of the decoded list returns a mapping node whose children are,
for the keys in their order, the scalar text node of the key and the sequence
of the scalar text nodes of its paths in their order. -/
theorem reencode_text_pairs (r : Resolver) (e : ExternalIgnoreOnly) (value : Node)
    (pairs : List (Node × Node)) (hk : value.Kind = MappingNode)
    (hc : value.Content = pairContent pairs) (hne : pairs ≠ [])
    (ht : ∀ p ∈ pairs, p.1.isTextScalar r ∧ p.2.isTextSequence r)
    (hp : ∀ p ∈ pairs, p.2.Content ≠ []) :
    ∃ l, e.UnmarshalYAML r value = (.returned none, ⟨l⟩) ∧
      ExternalIgnoreOnly.MarshalYAML ⟨l⟩
        = (some (.mk MappingNode LiteralStyle "" ""
            (pairContent (pairs.map
              (fun p => (scalarText p.1.Value, newPathsNode (p.2.Content.map Node.Value)))))),
           none) := by
  have hl : ¬ pairs.map (fun p => ({ ID := p.1.Value, Paths := p.2.Content.map Node.Value } : IDPaths))
        = [] := by
    simpa using hne
  have hfilter : ∀ pairs : List (Node × Node), (∀ p ∈ pairs, p.2.Content ≠ []) →
      ((pairs.map (fun p => ({ ID := p.1.Value, Paths := p.2.Content.map Node.Value } : IDPaths))).filter
          (fun p => decide (p.Paths ≠ []))).flatMap
        (fun p => [Node.zero.SetString p.ID, newPathsNode p.Paths])
      = pairContent (pairs.map
          (fun p => (scalarText p.1.Value, newPathsNode (p.2.Content.map Node.Value)))) := by
    intro pairs hp
    induction pairs with
    | nil => simp [pairContent]
    | cons p pairs ih =>
      have h1 := hp p (List.mem_cons_self _ _)
      have ih' := ih (fun x hx => hp x (List.mem_cons_of_mem _ hx))
      simp only [List.map_cons, pairContent_cons]
      rw [List.filter_cons_of_pos (by simpa using h1), List.flatMap_cons, ih']
      rfl
  refine ⟨_, unmarshalYAML_text_pairs r e value pairs hk hc hne ht, ?_⟩
  rw [marshalYAML_eq _ hl, hfilter pairs hp]

theorem reencode_text_pairs_witness :
    sampleNode.Kind = MappingNode ∧ samplePairNodes ≠ [] ∧
    (∀ p ∈ samplePairNodes,
      p.1.isTextScalar Resolver.strict ∧ p.2.isTextSequence Resolver.strict) ∧
    (∀ p ∈ samplePairNodes, p.2.Content ≠ []) ∧
    (∃ l, ExternalIgnoreOnly.UnmarshalYAML Resolver.strict ⟨[]⟩ sampleNode
        = (.returned none, ⟨l⟩) ∧
      ExternalIgnoreOnly.MarshalYAML ⟨l⟩
        = (some (.mk MappingNode LiteralStyle "" ""
            (pairContent (samplePairNodes.map
              (fun p => (scalarText p.1.Value, newPathsNode (p.2.Content.map Node.Value)))))),
           none)) ∧
    ExternalIgnoreOnly.UnmarshalYAML Resolver.strict ⟨[]⟩ sampleNode
      = (.returned none, ⟨samplePairs⟩) ∧
    ExternalIgnoreOnly.MarshalYAML ⟨samplePairs⟩ = (some sampleNode, none) ∧
    sampleNode.Content.map Node.Value = ["RULE1", "", "RULE2", ""] :=
  ⟨rfl, by decide, by decide, by decide,
    reencode_text_pairs Resolver.strict ⟨[]⟩ sampleNode samplePairNodes rfl rfl
      (by decide) (by decide) (by decide),
    by decide, by decide, by decide⟩

/-! ## The map form -/

theorem lookupEntry_eq_none {key : String} {l : List (String × List String)}
    (h : key ∉ l.map Prod.fst) : lookupEntry key l = none := by
  induction l with
  | nil => rfl
  | cons e l ih =>
    simp only [List.map_cons, List.mem_cons, not_or] at h
    simp only [lookupEntry, if_neg (Ne.symm h.1), ih h.2]

theorem lookupEntry_append (key : String) (a b : List (String × List String)) :
    lookupEntry key (a ++ b)
      = match lookupEntry key a with
        | some v => some v
        | none => lookupEntry key b := by
  induction a with
  | nil => rfl
  | cons e a ih =>
    by_cases h : e.1 = key
    · simp [lookupEntry, h]
    · simp [lookupEntry, h, ih]

theorem lookupEntry_filter_ne {key k : String} (h : k ≠ key)
    (l : List (String × List String)) :
    lookupEntry k (l.filter (fun e => decide (e.1 ≠ key))) = lookupEntry k l := by
  induction l with
  | nil => rfl
  | cons e l ih =>
    by_cases he : e.1 = key
    · have hk : ¬ e.1 = k := fun h' => h (h'.symm.trans he)
      rw [List.filter_cons_of_neg (by simpa using he), ih, lookupEntry, if_neg hk]
    · rw [List.filter_cons_of_pos (by simpa using he), lookupEntry, lookupEntry, ih]

/-- After `m[key] = value` the map holds `value` under `key`. -/
theorem mapGet_insert_self (m : PathsMap) (key : String) (value : List String) :
    mapGet (some (m.insert key value)) key = some value := by
  have hn : lookupEntry key (m.entries.filter (fun e => decide (e.1 ≠ key))) = none := by
    apply lookupEntry_eq_none
    intro hmem
    obtain ⟨e, he, hk⟩ := List.mem_map.1 hmem
    have := (List.mem_filter.1 he).2
    simp [hk] at this
  show lookupEntry key (m.entries.filter (fun e => decide (e.1 ≠ key)) ++ [(key, value)]) = _
  rw [lookupEntry_append, hn]
  simp [lookupEntry]

/-- `m[key] = value` leaves the other keys as they were. -/
theorem mapGet_insert_ne (m : PathsMap) {key k : String} (value : List String) (h : k ≠ key) :
    mapGet (some (m.insert key value)) k = mapGet (some m) k := by
  have hk : ¬ key = k := fun h' => h h'.symm
  show lookupEntry k (m.entries.filter (fun e => decide (e.1 ≠ key)) ++ [(key, value)])
    = lookupEntry k m.entries
  rw [lookupEntry_append, lookupEntry_filter_ne h]
  cases lookupEntry k m.entries <;> simp [lookupEntry, hk]

theorem keys_insert (m : PathsMap) (key k : String) (value : List String) :
    k ∈ (m.insert key value).entries.map Prod.fst ↔ k = key ∨ k ∈ m.entries.map Prod.fst := by
  simp only [PathsMap.insert, List.map_append, List.mem_append, List.map_cons, List.map_nil,
    List.mem_singleton, List.mem_map, List.mem_filter]
  constructor
  · rintro (⟨e, ⟨he, _⟩, rfl⟩ | h)
    · exact Or.inr ⟨e, he, rfl⟩
    · exact Or.inl h
  · rintro (h | ⟨e, he, rfl⟩)
    · exact Or.inr h
    · by_cases hk : e.1 = key
      · exact Or.inr hk
      · exact Or.inl ⟨e, ⟨he, by simpa using hk⟩, rfl⟩

/-- The keys after a loop of assignments: those before, and the keys assigned. -/
theorem keys_foldl_insert {α : Type} (key : α → String) (val : α → List String) (l : List α)
    (m : PathsMap) (k : String) :
    k ∈ (l.foldl (fun m x => m.insert (key x) (val x)) m).entries.map Prod.fst
      ↔ k ∈ m.entries.map Prod.fst ∨ k ∈ l.map key := by
  induction l generalizing m with
  | nil => simp
  | cons x l ih =>
    rw [List.foldl_cons, ih, keys_insert]
    simp only [List.map_cons, List.mem_cons]
    tauto

/-- A loop of assignments that does not assign `k` leaves the value under `k`. -/
theorem mapGet_foldl_insert_ne {α : Type} (key : α → String) (val : α → List String)
    (l : List α) (m : PathsMap) (k : String) (h : ∀ y ∈ l, key y ≠ k) :
    mapGet (some (l.foldl (fun m x => m.insert (key x) (val x)) m)) k = mapGet (some m) k := by
  induction l generalizing m with
  | nil => rfl
  | cons x l ih =>
    rw [List.foldl_cons, ih _ (fun y hy => h y (List.mem_cons_of_mem _ hy))]
    exact mapGet_insert_ne m (val x) (Ne.symm (h x (List.mem_cons_self _ _)))

/-- In a loop of assignments the last assignment to a key decides its value. -/
theorem mapGet_foldl_insert_last {α : Type} (key : α → String) (val : α → List String)
    (pre : List α) (x : α) (post : List α) (m : PathsMap) (h : ∀ y ∈ post, key y ≠ key x) :
    mapGet (some ((pre ++ x :: post).foldl (fun m x => m.insert (key x) (val x)) m)) (key x)
      = some (val x) := by
  rw [List.foldl_append, List.foldl_cons, mapGet_foldl_insert_ne key val post _ _ h]
  exact mapGet_insert_self _ _ _

/-- C14: converting an ordered list of pairs to the map form, for the textual
schema and for the wire message, gives a map whose keys are exactly the ids of
the list and whose value under an id is the paths of the last pair with that
id: a later pair overwrites an earlier one. The conversions return a map and
nothing else, so no error is raised; a nil list of wire entries gives a nil
map, which has no keys. -/
theorem map_form_last_wins :
    (∀ l : List IDPaths, ∃ m, ignoreOnlyMapForExternalIgnoreOnly (some ⟨l⟩) = some m ∧
      (∀ k, k ∈ m.entries.map Prod.fst ↔ k ∈ l.map IDPaths.ID) ∧
      (∀ pre p post, l = pre ++ p :: post → (∀ q ∈ post, q.ID ≠ p.ID) →
        mapGet (some m) p.ID = some p.Paths)) ∧
    (∀ l : List (Option ProtoIDPaths), ∃ m,
      ignoreIDOrCategoryToRootPathsForProto (some l) = some m ∧
      (∀ k, k ∈ m.entries.map Prod.fst ↔ k ∈ l.map ProtoIDPaths.GetId) ∧
      (∀ pre p post, l = pre ++ p :: post →
        (∀ q ∈ post, ProtoIDPaths.GetId q ≠ ProtoIDPaths.GetId p) →
        mapGet (some m) (ProtoIDPaths.GetId p) = some (ProtoIDPaths.GetPaths p))) ∧
    (ignoreIDOrCategoryToRootPathsForProto none = none ∧
      ∀ k, mapGet (ignoreIDOrCategoryToRootPathsForProto none) k = none) := by
  refine ⟨fun l => ⟨_, rfl, ?_, ?_⟩, fun l => ⟨_, rfl, ?_, ?_⟩, rfl, fun _ => rfl⟩
  · intro k
    rw [keys_foldl_insert IDPaths.ID IDPaths.Paths l PathsMap.empty k]
    simp [PathsMap.empty]
  · rintro pre p post rfl h
    exact mapGet_foldl_insert_last IDPaths.ID IDPaths.Paths pre p post PathsMap.empty h
  · intro k
    rw [keys_foldl_insert ProtoIDPaths.GetId ProtoIDPaths.GetPaths l PathsMap.empty k]
    simp [PathsMap.empty]
  · rintro pre p post rfl h
    exact mapGet_foldl_insert_last ProtoIDPaths.GetId ProtoIDPaths.GetPaths pre p post
      PathsMap.empty h

/-! ## The schema adapters and the wire adapter -/

/-- C15: `NewConfigV1Beta1(e)` and `NewConfigV1(e')`, for `e'` with the fields
of `e`, copy `use`, `except`, `ignore` and `ignore_unstable_packages` as they
are, take the map form of `ignore_only` as the map, and set the version to
`v1beta1` and `v1`; the two Configs differ in the version only. -/
theorem newConfig_fields (e : ExternalConfigV1Beta1) :
    ((NewConfigV1Beta1 e).Use = e.Use ∧ (NewConfigV1Beta1 e).Except = e.Except ∧
      (NewConfigV1Beta1 e).IgnoreRootPaths = e.Ignore ∧
      (NewConfigV1Beta1 e).IgnoreUnstablePackages = e.IgnoreUnstablePackages ∧
      (NewConfigV1Beta1 e).IgnoreIDOrCategoryToRootPaths
        = ignoreOnlyMapForExternalIgnoreOnly e.IgnoreOnly ∧
      (NewConfigV1Beta1 e).Version = "v1beta1") ∧
    ((NewConfigV1 ⟨e.Use, e.Except, e.Ignore, e.IgnoreOnly, e.IgnoreUnstablePackages⟩).Use
        = e.Use ∧
      (NewConfigV1 ⟨e.Use, e.Except, e.Ignore, e.IgnoreOnly, e.IgnoreUnstablePackages⟩).Except
        = e.Except ∧
      (NewConfigV1
        ⟨e.Use, e.Except, e.Ignore, e.IgnoreOnly, e.IgnoreUnstablePackages⟩).IgnoreRootPaths
        = e.Ignore ∧
      (NewConfigV1
        ⟨e.Use, e.Except, e.Ignore, e.IgnoreOnly,
          e.IgnoreUnstablePackages⟩).IgnoreUnstablePackages
        = e.IgnoreUnstablePackages ∧
      (NewConfigV1
        ⟨e.Use, e.Except, e.Ignore, e.IgnoreOnly,
          e.IgnoreUnstablePackages⟩).IgnoreIDOrCategoryToRootPaths
        = ignoreOnlyMapForExternalIgnoreOnly e.IgnoreOnly ∧
      (NewConfigV1 ⟨e.Use, e.Except, e.Ignore, e.IgnoreOnly, e.IgnoreUnstablePackages⟩).Version
        = "v1") ∧
    NewConfigV1 ⟨e.Use, e.Except, e.Ignore, e.IgnoreOnly, e.IgnoreUnstablePackages⟩
      = { NewConfigV1Beta1 e with Version := "v1" } :=
  ⟨⟨rfl, rfl, rfl, rfl, rfl, rfl⟩, ⟨rfl, rfl, rfl, rfl, rfl, rfl⟩, rfl⟩

theorem externalIgnoreOnlyForMap_pairs (m : Option PathsMap) :
    (externalIgnoreOnlyForMap m).IDToPaths.map (fun p => (p.ID, p.Paths)) = mapEntries m := by
  simp [externalIgnoreOnlyForMap, List.map_map, Function.comp_def]

theorem externalIgnoreOnlyForMap_ids (m : Option PathsMap) :
    (externalIgnoreOnlyForMap m).IDToPaths.map IDPaths.ID = (mapEntries m).map Prod.fst := by
  simp [externalIgnoreOnlyForMap, List.map_map, Function.comp_def]

theorem protoForMap_pairs (m : Option PathsMap) :
    ((protoForIgnoreIDOrCategoryToRootPaths m).getD []).map
        (fun q => (ProtoIDPaths.GetId q, ProtoIDPaths.GetPaths q))
      = mapEntries m := by
  cases m with
  | none => rfl
  | some m =>
    simp [protoForIgnoreIDOrCategoryToRootPaths, mapEntries, List.map_map, Function.comp_def,
      ProtoIDPaths.GetId, ProtoIDPaths.GetPaths]

/-- C16: for every Config `c`, the ordered pairs that the inverse adapters make
from its map are, in the order in which the map is enumerated, its entries: one
(id, paths) pair per key with the paths of that key, so the ids are pairwise
distinct and there are as many pairs as keys. The other fields are copied as
they are, and the external struct does not depend on the version of `c`. For
the wire message a nil map gives a nil list and every entry made is non-nil. -/
theorem inverse_adapters_entries (c : Config) :
    (∃ x, ExternalConfigV1Beta1ForConfig (some c) = .value x ∧
      x.Use = c.Use ∧ x.Except = c.Except ∧ x.Ignore = c.IgnoreRootPaths ∧
      x.IgnoreUnstablePackages = c.IgnoreUnstablePackages ∧
      ∃ l, x.IgnoreOnly = some ⟨l⟩ ∧
        l.map (fun p => (p.ID, p.Paths)) = mapEntries c.IgnoreIDOrCategoryToRootPaths ∧
        (l.map IDPaths.ID).Nodup ∧
        l.length = (mapEntries c.IgnoreIDOrCategoryToRootPaths).length) ∧
    (∃ x, ExternalConfigV1ForConfig (some c) = .value x ∧
      x.Use = c.Use ∧ x.Except = c.Except ∧ x.Ignore = c.IgnoreRootPaths ∧
      x.IgnoreUnstablePackages = c.IgnoreUnstablePackages ∧
      ∃ l, x.IgnoreOnly = some ⟨l⟩ ∧
        l.map (fun p => (p.ID, p.Paths)) = mapEntries c.IgnoreIDOrCategoryToRootPaths ∧
        (l.map IDPaths.ID).Nodup ∧
        l.length = (mapEntries c.IgnoreIDOrCategoryToRootPaths).length) ∧
    (∃ x, ProtoForConfig (some c) = .value x ∧
      x.UseIds = c.Use ∧ x.ExceptIds = c.Except ∧ x.IgnorePaths = c.IgnoreRootPaths ∧
      x.IgnoreUnstablePackages = c.IgnoreUnstablePackages ∧ x.Version = c.Version ∧
      x.IgnoreIdPaths.isSome = c.IgnoreIDOrCategoryToRootPaths.isSome ∧
      (x.IgnoreIdPaths.getD []).map (fun q => (ProtoIDPaths.GetId q, ProtoIDPaths.GetPaths q))
        = mapEntries c.IgnoreIDOrCategoryToRootPaths ∧
      (∀ q ∈ x.IgnoreIdPaths.getD [], q ≠ none) ∧
      ((x.IgnoreIdPaths.getD []).map ProtoIDPaths.GetId).Nodup ∧
      (x.IgnoreIdPaths.getD []).length = (mapEntries c.IgnoreIDOrCategoryToRootPaths).length) ∧
    (∀ version : String,
      ExternalConfigV1Beta1ForConfig (some { c with Version := version })
        = ExternalConfigV1Beta1ForConfig (some c) ∧
      ExternalConfigV1ForConfig (some { c with Version := version })
        = ExternalConfigV1ForConfig (some c)) := by
  have hids := externalIgnoreOnlyForMap_ids c.IgnoreIDOrCategoryToRootPaths
  have hnd : ((externalIgnoreOnlyForMap c.IgnoreIDOrCategoryToRootPaths).IDToPaths.map
      IDPaths.ID).Nodup := by
    rw [hids]; exact mapEntries_nodup _
  have hlen : (externalIgnoreOnlyForMap c.IgnoreIDOrCategoryToRootPaths).IDToPaths.length
      = (mapEntries c.IgnoreIDOrCategoryToRootPaths).length := by
    simp [externalIgnoreOnlyForMap]
  have hpp := protoForMap_pairs c.IgnoreIDOrCategoryToRootPaths
  refine ⟨⟨_, rfl, rfl, rfl, rfl, rfl, _, rfl, externalIgnoreOnlyForMap_pairs _, hnd, hlen⟩,
    ⟨_, rfl, rfl, rfl, rfl, rfl, _, rfl, externalIgnoreOnlyForMap_pairs _, hnd, hlen⟩,
    ⟨_, rfl, rfl, rfl, rfl, rfl, rfl, ?_, hpp, ?_, ?_, ?_⟩, fun _ => ⟨rfl, rfl⟩⟩
  · cases c.IgnoreIDOrCategoryToRootPaths <;> rfl
  · intro q hq
    cases hm : c.IgnoreIDOrCategoryToRootPaths with
    | none => simp [hm, protoForIgnoreIDOrCategoryToRootPaths] at hq
    | some m =>
      simp only [hm, protoForIgnoreIDOrCategoryToRootPaths, Option.getD_some,
        List.mem_map] at hq
      obtain ⟨e, _, rfl⟩ := hq
      simp
  · have h := congrArg (List.map Prod.fst) hpp
    rw [List.map_map] at h
    have h' : (fun q => ProtoIDPaths.GetId q)
        = (Prod.fst ∘ fun q => (ProtoIDPaths.GetId q, ProtoIDPaths.GetPaths q)) := rfl
    show (List.map (fun q => ProtoIDPaths.GetId q) _).Nodup
    rw [h', h]
    exact mapEntries_nodup _
  · have h := congrArg List.length hpp
    simpa using h


theorem insert_entries_of_not_mem (m : PathsMap) (key : String) (value : List String)
    (h : key ∉ m.entries.map Prod.fst) :
    (m.insert key value).entries = m.entries ++ [(key, value)] := by
  have hf : m.entries.filter (fun e => decide (e.1 ≠ key)) = m.entries := by
    apply List.filter_eq_self.2
    intro e he
    have : e.1 ≠ key := fun hk => h (List.mem_map.2 ⟨e, he, hk⟩)
    simpa using this
  show m.entries.filter (fun e => decide (e.1 ≠ key)) ++ [(key, value)] = _
  rw [hf]

/-- A loop of assignments to new, pairwise distinct keys appends the entries in
the order of the assignments. -/
theorem foldl_insert_entries {α : Type} (key : α → String) (val : α → List String)
    (l : List α) (m : PathsMap) (hnd : (l.map key).Nodup)
    (hnew : ∀ x ∈ l, key x ∉ m.entries.map Prod.fst) :
    (l.foldl (fun m x => m.insert (key x) (val x)) m).entries
      = m.entries ++ l.map (fun x => (key x, val x)) := by
  induction l generalizing m with
  | nil => simp
  | cons x l ih =>
    rw [List.map_cons, List.nodup_cons] at hnd
    have hx := hnew x (List.mem_cons_self _ _)
    rw [List.foldl_cons, ih _ hnd.2, insert_entries_of_not_mem m _ _ hx]
    · simp
    · intro y hy
      rw [insert_entries_of_not_mem m _ _ hx, List.map_append, List.mem_append]
      rintro (h | h)
      · exact hnew y (List.mem_cons_of_mem _ hy) h
      · simp only [List.map_cons, List.map_nil, List.mem_singleton] at h
        exact hnd.1 (h ▸ List.mem_map.2 ⟨y, hy, rfl⟩)

/-- The map form of the pairs made from a map holds the entries of that map. -/
theorem mapForm_externalIgnoreOnlyForMap (m : Option PathsMap) :
    ∃ m', ignoreOnlyMapForExternalIgnoreOnly (some (externalIgnoreOnlyForMap m)) = some m' ∧
      m'.entries = mapEntries m := by
  refine ⟨_, rfl, ?_⟩
  rw [foldl_insert_entries IDPaths.ID IDPaths.Paths]
  · have h := externalIgnoreOnlyForMap_pairs m
    simpa [PathsMap.empty] using h
  · rw [externalIgnoreOnlyForMap_ids]; exact mapEntries_nodup _
  · intro x _; simp [PathsMap.empty]

/-- C17: for every Config `c`, the Config made from the external struct of `c`
has the `use`, `except`, `ignoreRootPaths` and `ignoreUnstablePackages` of `c`
and a map, never nil, that holds exactly the entries of the map of `c` (none
when that map is nil), so each key has the same paths; the version is `v1` for
the v1 adapters and `v1beta1` for the v1beta1 adapters. -/
theorem external_roundtrip (c : Config) :
    (∃ x, ExternalConfigV1ForConfig (some c) = .value x ∧
      (NewConfigV1 x).Use = c.Use ∧ (NewConfigV1 x).Except = c.Except ∧
      (NewConfigV1 x).IgnoreRootPaths = c.IgnoreRootPaths ∧
      (NewConfigV1 x).IgnoreUnstablePackages = c.IgnoreUnstablePackages ∧
      (NewConfigV1 x).IgnoreIDOrCategoryToRootPaths.isSome = true ∧
      (mapEntries (NewConfigV1 x).IgnoreIDOrCategoryToRootPaths).Perm
        (mapEntries c.IgnoreIDOrCategoryToRootPaths) ∧
      (∀ k, mapGet (NewConfigV1 x).IgnoreIDOrCategoryToRootPaths k
        = mapGet c.IgnoreIDOrCategoryToRootPaths k) ∧
      (NewConfigV1 x).Version = "v1") ∧
    (∃ x, ExternalConfigV1Beta1ForConfig (some c) = .value x ∧
      (NewConfigV1Beta1 x).Use = c.Use ∧ (NewConfigV1Beta1 x).Except = c.Except ∧
      (NewConfigV1Beta1 x).IgnoreRootPaths = c.IgnoreRootPaths ∧
      (NewConfigV1Beta1 x).IgnoreUnstablePackages = c.IgnoreUnstablePackages ∧
      (NewConfigV1Beta1 x).IgnoreIDOrCategoryToRootPaths.isSome = true ∧
      (mapEntries (NewConfigV1Beta1 x).IgnoreIDOrCategoryToRootPaths).Perm
        (mapEntries c.IgnoreIDOrCategoryToRootPaths) ∧
      (∀ k, mapGet (NewConfigV1Beta1 x).IgnoreIDOrCategoryToRootPaths k
        = mapGet c.IgnoreIDOrCategoryToRootPaths k) ∧
      (NewConfigV1Beta1 x).Version = "v1beta1") := by
  obtain ⟨m', hm', he⟩ := mapForm_externalIgnoreOnlyForMap c.IgnoreIDOrCategoryToRootPaths
  have h1 : (NewConfigV1 ⟨c.Use, c.Except, c.IgnoreRootPaths,
      some (externalIgnoreOnlyForMap c.IgnoreIDOrCategoryToRootPaths),
      c.IgnoreUnstablePackages⟩).IgnoreIDOrCategoryToRootPaths = some m' := hm'
  have h2 : (NewConfigV1Beta1 ⟨c.Use, c.Except, c.IgnoreRootPaths,
      some (externalIgnoreOnlyForMap c.IgnoreIDOrCategoryToRootPaths),
      c.IgnoreUnstablePackages⟩).IgnoreIDOrCategoryToRootPaths = some m' := hm'
  refine ⟨⟨_, rfl, rfl, rfl, rfl, rfl, ?_, ?_, ?_, rfl⟩,
    ⟨_, rfl, rfl, rfl, rfl, rfl, ?_, ?_, ?_, rfl⟩⟩
  · rw [h1]; rfl
  · rw [h1]; show m'.entries.Perm _; rw [he]
  · intro k; rw [h1]; show lookupEntry k m'.entries = _; rw [he]; rfl
  · rw [h2]; rfl
  · rw [h2]; show m'.entries.Perm _; rw [he]
  · intro k; rw [h2]; show lookupEntry k m'.entries = _; rw [he]; rfl


/-- C18: for every v1beta1 external struct `e` whose `ignore_only` is present and
has pairwise distinct ids, the v1 external struct made from the Config of `e`
(in whatever order the map of that Config is enumerated) has the `use`,
`except`, `ignore` and `ignore_unstable_packages` of `e`, and its `ignore_only`
pairs are a permutation of the pairs of `e`, each id with its paths as they
were. -/
theorem migration_v1beta1_to_v1 (e : ExternalConfigV1Beta1) (l : List IDPaths)
    (hl : e.IgnoreOnly = some ⟨l⟩) (hnd : (l.map IDPaths.ID).Nodup) (c' : Config)
    (hc : (NewConfigV1Beta1 e).Reordered c') :
    ∃ x, ExternalConfigV1ForConfig (some c') = .value x ∧
      x.Use = e.Use ∧ x.Except = e.Except ∧ x.Ignore = e.Ignore ∧
      x.IgnoreUnstablePackages = e.IgnoreUnstablePackages ∧
      ∃ l', x.IgnoreOnly = some ⟨l'⟩ ∧ l'.Perm l := by
  obtain ⟨hu, hx, hi, hm, hp, _⟩ := hc
  refine ⟨_, rfl, hu, hx, hi, hp, _, rfl, ?_⟩
  have hmap : (NewConfigV1Beta1 e).IgnoreIDOrCategoryToRootPaths
      = some (l.foldl (fun m p => m.insert p.ID p.Paths) PathsMap.empty) := by
    simp [NewConfigV1Beta1, hl, ignoreOnlyMapForExternalIgnoreOnly]
  have hent : (l.foldl (fun m p => m.insert p.ID p.Paths) PathsMap.empty).entries
      = l.map (fun p => (p.ID, p.Paths)) := by
    rw [foldl_insert_entries IDPaths.ID IDPaths.Paths l PathsMap.empty hnd
      (fun x _ => by simp [PathsMap.empty])]
    simp [PathsMap.empty]
  rw [hmap] at hm
  cases hm' : c'.IgnoreIDOrCategoryToRootPaths with
  | none => rw [hm'] at hm; exact absurd hm (by simp [mapReordered])
  | some m' =>
    rw [hm'] at hm
    have hperm : m'.entries.Perm (l.map (fun p => (p.ID, p.Paths))) := by
      have h : m'.entries.Perm _ := hm
      rwa [hent] at h
    have h2 := hperm.map (fun e : String × List String => ({ ID := e.1, Paths := e.2 } : IDPaths))
    rw [List.map_map] at h2
    have hid : ((fun e : String × List String => ({ ID := e.1, Paths := e.2 } : IDPaths)) ∘
        fun p : IDPaths => (p.ID, p.Paths)) = id := by
      funext p; rfl
    rw [hid, List.map_id] at h2
    exact h2

theorem migration_v1beta1_to_v1_witness :
    sampleExternal.IgnoreOnly = some ⟨samplePairs⟩ ∧ (samplePairs.map IDPaths.ID).Nodup ∧
    (NewConfigV1Beta1 sampleExternal).Reordered sampleReordered ∧
    ExternalConfigV1ForConfig (some sampleReordered)
      = .value { Use := ["FILE"], Except := ["RULE9"], Ignore := ["vendor"],
                 IgnoreOnly := some ⟨[{ ID := "RULE2", Paths := ["x"] },
                   { ID := "RULE1", Paths := ["a/b", "a/c"] }]⟩,
                 IgnoreUnstablePackages := true } ∧
    ∃ x, ExternalConfigV1ForConfig (some sampleReordered) = .value x ∧
      x.Use = sampleExternal.Use ∧ x.Except = sampleExternal.Except ∧
      x.Ignore = sampleExternal.Ignore ∧
      x.IgnoreUnstablePackages = sampleExternal.IgnoreUnstablePackages ∧
      ∃ l', x.IgnoreOnly = some ⟨l'⟩ ∧ l'.Perm samplePairs :=
  have h : (NewConfigV1Beta1 sampleExternal).Reordered sampleReordered :=
    ⟨rfl, rfl, rfl,
      (show List.Perm [("RULE2", ["x"]), ("RULE1", ["a/b", "a/c"])]
          (samplePairs.foldl (fun m p => m.insert p.ID p.Paths) PathsMap.empty).entries
        from by decide),
      rfl, rfl⟩
  ⟨rfl, by decide, h, by decide,
    migration_v1beta1_to_v1 sampleExternal samplePairs rfl (by decide) sampleReordered h⟩

/-- The map made from the wire entries of a map holds the entries of that map,
and is nil when that map is nil. -/
theorem mapForm_protoForMap (m : Option PathsMap) :
    (ignoreIDOrCategoryToRootPathsForProto (protoForIgnoreIDOrCategoryToRootPaths m)).isSome
      = m.isSome ∧
    mapEntries (ignoreIDOrCategoryToRootPathsForProto (protoForIgnoreIDOrCategoryToRootPaths m))
      = mapEntries m := by
  cases m with
  | none => exact ⟨rfl, rfl⟩
  | some m =>
    refine ⟨rfl, ?_⟩
    have hpp := protoForMap_pairs (some m)
    simp only [protoForIgnoreIDOrCategoryToRootPaths, Option.getD_some] at hpp
    show (List.foldl _ PathsMap.empty _).entries = m.entries
    rw [foldl_insert_entries ProtoIDPaths.GetId ProtoIDPaths.GetPaths]
    · simpa [PathsMap.empty, mapEntries] using hpp
    · have h := congrArg (List.map Prod.fst) hpp
      rw [List.map_map] at h
      have h' : ProtoIDPaths.GetId
          = (Prod.fst ∘ fun q => (ProtoIDPaths.GetId q, ProtoIDPaths.GetPaths q)) := rfl
      rw [h', h]
      exact m.nodup
    · intro x _; simp [PathsMap.empty]

/-- C19: for every Config `c`, `ConfigForProto(ProtoForConfig(c))` has the `use`,
`except`, `ignoreRootPaths`, `ignoreUnstablePackages` and `version` of `c`, and
a map that is nil exactly when the map of `c` is and holds exactly the entries
of the map of `c`, so each key has the same paths. -/
theorem proto_roundtrip (c : Config) :
    ∃ p, ProtoForConfig (some c) = .value p ∧
      (ConfigForProto (some p)).Use = c.Use ∧ (ConfigForProto (some p)).Except = c.Except ∧
      (ConfigForProto (some p)).IgnoreRootPaths = c.IgnoreRootPaths ∧
      (ConfigForProto (some p)).IgnoreUnstablePackages = c.IgnoreUnstablePackages ∧
      (ConfigForProto (some p)).Version = c.Version ∧
      (ConfigForProto (some p)).IgnoreIDOrCategoryToRootPaths.isSome
        = c.IgnoreIDOrCategoryToRootPaths.isSome ∧
      (mapEntries (ConfigForProto (some p)).IgnoreIDOrCategoryToRootPaths).Perm
        (mapEntries c.IgnoreIDOrCategoryToRootPaths) ∧
      (∀ k, mapGet (ConfigForProto (some p)).IgnoreIDOrCategoryToRootPaths k
        = mapGet c.IgnoreIDOrCategoryToRootPaths k) := by
  obtain ⟨hs, he⟩ := mapForm_protoForMap c.IgnoreIDOrCategoryToRootPaths
  refine ⟨_, rfl, rfl, rfl, rfl, rfl, rfl, hs, ?_, ?_⟩
  · show (mapEntries (ignoreIDOrCategoryToRootPathsForProto
      (protoForIgnoreIDOrCategoryToRootPaths c.IgnoreIDOrCategoryToRootPaths))).Perm _
    rw [he]
  · intro k
    show lookupEntry k (mapEntries (ignoreIDOrCategoryToRootPathsForProto
      (protoForIgnoreIDOrCategoryToRootPaths c.IgnoreIDOrCategoryToRootPaths))) = _
    rw [he]
    rfl

/-- C20: absent collections convert to empty collections in both directions. A
nil message gives a Config with empty `use`, `except`, `ignoreRootPaths` and a
nil map; a message with nil use-ids, except-ids, ignore-paths or ignore-id-paths
gives a Config whose `use`, `except`, `ignoreRootPaths` or map is empty (the map
nil). A Config with an empty `use`, `except` or `ignoreRootPaths`, a nil map or a
map without entries gives a message whose use-ids, except-ids, ignore-paths or
ignore-id-paths has no elements. -/
theorem absent_collections_empty :
    ((ConfigForProto none).Use = [] ∧ (ConfigForProto none).Except = [] ∧
      (ConfigForProto none).IgnoreRootPaths = [] ∧
      (ConfigForProto none).IgnoreIDOrCategoryToRootPaths = none ∧
      mapEntries (ConfigForProto none).IgnoreIDOrCategoryToRootPaths = []) ∧
    (∀ p : ProtoConfig,
      (ConfigForProto (some { p with UseIds := [] })).Use = [] ∧
      (ConfigForProto (some { p with ExceptIds := [] })).Except = [] ∧
      (ConfigForProto (some { p with IgnorePaths := [] })).IgnoreRootPaths = [] ∧
      (ConfigForProto (some { p with IgnoreIdPaths := none })).IgnoreIDOrCategoryToRootPaths
        = none ∧
      mapEntries
        (ConfigForProto (some { p with IgnoreIdPaths := none })).IgnoreIDOrCategoryToRootPaths
        = []) ∧
    (∀ c : Config,
      (∃ p, ProtoForConfig (some { c with Use := [] }) = .value p ∧ p.UseIds = []) ∧
      (∃ p, ProtoForConfig (some { c with Except := [] }) = .value p ∧ p.ExceptIds = []) ∧
      (∃ p, ProtoForConfig (some { c with IgnoreRootPaths := [] }) = .value p ∧
        p.IgnorePaths = []) ∧
      (∃ p, ProtoForConfig (some { c with IgnoreIDOrCategoryToRootPaths := none }) = .value p ∧
        p.IgnoreIdPaths = none ∧ p.IgnoreIdPaths.getD [] = []) ∧
      (∃ p, ProtoForConfig (some { c with IgnoreIDOrCategoryToRootPaths := some PathsMap.empty })
          = .value p ∧
        p.IgnoreIdPaths = some [] ∧ p.IgnoreIdPaths.getD [] = [])) :=
  ⟨⟨rfl, rfl, rfl, rfl, rfl⟩, fun _ => ⟨rfl, rfl, rfl, rfl, rfl⟩,
    fun _ => ⟨⟨_, rfl, rfl⟩, ⟨_, rfl, rfl⟩, ⟨_, rfl, rfl⟩, ⟨_, rfl, rfl, rfl⟩,
      ⟨_, rfl, rfl, rfl⟩⟩⟩

/-! ## Encoding a map, nil pointers, odd child counts and failed decodes -/

/-- C21, as stated, fails: for a map without entries, and for a nil map, the
pairs made from it are none and `MarshalYAML` returns nil, not a mapping node. -/
theorem marshalYAML_empty_map_no_node :
    (externalIgnoreOnlyForMap (some PathsMap.empty)).MarshalYAML = (none, none) ∧
    (externalIgnoreOnlyForMap none).MarshalYAML = (none, none) := by
  decide

/-- C21, amended: for every map form with at least one key, `MarshalYAML` of
the pairs made from it returns a mapping node whose children are, for the
entries with a non-empty path list in the order in which the map is enumerated,
the scalar text node of the key and the sequence of its paths; the keys of the
node are exactly the keys of the map with a non-empty path list, each once.
(For a map without keys no node is returned.) -/
theorem marshalYAML_map_form (m : Option PathsMap) (hne : mapEntries m ≠ []) :
    ∃ node, (externalIgnoreOnlyForMap m).MarshalYAML = (some node, none) ∧
      node.Kind = MappingNode ∧
      node.Content = pairContent
        (((mapEntries m).filter (fun e => decide (e.2 ≠ []))).map
          (fun e => (scalarText e.1, newPathsNode e.2))) ∧
      (((mapEntries m).filter (fun e => decide (e.2 ≠ []))).map Prod.fst).Nodup ∧
      ∀ k, k ∈ ((mapEntries m).filter (fun e => decide (e.2 ≠ []))).map Prod.fst ↔
        ∃ paths, mapGet m k = some paths ∧ paths ≠ [] := by
  have hl : (externalIgnoreOnlyForMap m).IDToPaths ≠ [] := by
    simpa [externalIgnoreOnlyForMap] using hne
  have hnd := mapEntries_nodup m
  refine ⟨_, marshalYAML_eq _ hl, rfl, ?_, ?_, ?_⟩
  · simp only [Node.Content, externalIgnoreOnlyForMap]
    generalize mapEntries m = l
    induction l with
    | nil => rfl
    | cons e l ih =>
      by_cases he : e.2 = []
      · rw [List.map_cons, List.filter_cons_of_neg (by simpa using he),
          List.filter_cons_of_neg (by simpa using he)]
        exact ih
      · rw [List.map_cons, List.filter_cons_of_pos (by simpa using he),
          List.filter_cons_of_pos (by simpa using he), List.map_cons, pairContent_cons,
          List.flatMap_cons, ih]
        rfl
  · exact ((List.filter_sublist _).map Prod.fst).nodup hnd
  · intro k
    unfold mapGet
    generalize mapEntries m = l at hnd
    induction l with
    | nil => simp [lookupEntry]
    | cons e l ih =>
      rw [List.map_cons, List.nodup_cons] at hnd
      have ih' := ih hnd.2
      by_cases hk : e.1 = k
      · have hnot : k ∉ (l.filter (fun e => decide (e.2 ≠ []))).map Prod.fst := by
          intro hmem
          obtain ⟨x, hx, hxk⟩ := List.mem_map.1 hmem
          exact hnd.1 (List.mem_map.2 ⟨x, (List.mem_filter.1 hx).1, hxk.trans hk.symm⟩)
        by_cases he : e.2 = []
        · rw [List.filter_cons_of_neg (by simpa using he)]
          simp only [lookupEntry, hk, if_true]
          constructor
          · intro h; exact absurd h hnot
          · rintro ⟨paths, hp, hpne⟩
            simp only [Option.some.injEq] at hp
            exact absurd (hp ▸ he) hpne
        · rw [List.filter_cons_of_pos (by simpa using he)]
          simp only [lookupEntry, hk, if_true, List.map_cons, List.mem_cons]
          constructor
          · intro _; exact ⟨e.2, rfl, he⟩
          · intro _; simp
      · by_cases he : e.2 = []
        · rw [List.filter_cons_of_neg (by simpa using he)]
          simp only [lookupEntry, hk, if_false]
          exact ih'
        · rw [List.filter_cons_of_pos (by simpa using he)]
          simp only [lookupEntry, hk, if_false, List.map_cons, List.mem_cons]
          constructor
          · rintro (h | h)
            · exact absurd h.symm hk
            · exact ih'.1 h
          · intro h; exact Or.inr (ih'.2 h)

theorem marshalYAML_map_form_witness :
    mapEntries (some sampleMap) ≠ [] ∧
    (externalIgnoreOnlyForMap (some sampleMap)).MarshalYAML
      = (some (.mk MappingNode LiteralStyle "" "" [scalarText "RULE4", newPathsNode ["p"]]),
          none) ∧
    ∃ node, (externalIgnoreOnlyForMap (some sampleMap)).MarshalYAML = (some node, none) ∧
      node.Kind = MappingNode ∧
      node.Content = pairContent
        (((mapEntries (some sampleMap)).filter (fun e => decide (e.2 ≠ []))).map
          (fun e => (scalarText e.1, newPathsNode e.2))) ∧
      (((mapEntries (some sampleMap)).filter (fun e => decide (e.2 ≠ []))).map Prod.fst).Nodup ∧
      ∀ k, k ∈ ((mapEntries (some sampleMap)).filter (fun e => decide (e.2 ≠ []))).map Prod.fst ↔
        ∃ paths, mapGet (some sampleMap) k = some paths ∧ paths ≠ [] :=
  ⟨by decide, by decide, marshalYAML_map_form (some sampleMap) (by decide)⟩


/-- C22, as stated, fails: on a nil Config the three adapters that take a
`*Config` read a field of it and panic. -/
theorem adapters_nil_config_panic :
    ProtoForConfig none = .panic ∧ ExternalConfigV1ForConfig none = .panic ∧
    ExternalConfigV1Beta1ForConfig none = .panic :=
  ⟨rfl, rfl, rfl⟩

/-- C22, amended: what the six adapters return. `NewConfigV1Beta1` and
`NewConfigV1` return, for every external struct, a Config whose map is nil
exactly when `ignore_only` is absent; for an absent `ignore_only` it is the
Config with `use`, `except`, `ignore` and the flag copied, the version constant
and a nil map. `ConfigForProto` returns for an absent message the Config with
empty fields, and for every message the Config that holds its fields, with a
nil map exactly when the message has no list of entries.
`ExternalConfigV1Beta1ForConfig`, `ExternalConfigV1ForConfig` and
`ProtoForConfig` return a result, without a panic, for every Config that is not
nil. None of the six returns an error. -/
theorem adapters_results :
    (∀ e : ExternalConfigV1Beta1,
      (NewConfigV1Beta1 e).IgnoreIDOrCategoryToRootPaths.isSome = e.IgnoreOnly.isSome ∧
      (e.IgnoreOnly = none →
        NewConfigV1Beta1 e
          = { Use := e.Use, Except := e.Except, IgnoreRootPaths := e.Ignore,
              IgnoreIDOrCategoryToRootPaths := none,
              IgnoreUnstablePackages := e.IgnoreUnstablePackages, Version := "v1beta1" })) ∧
    (∀ e : ExternalConfigV1,
      (NewConfigV1 e).IgnoreIDOrCategoryToRootPaths.isSome = e.IgnoreOnly.isSome ∧
      (e.IgnoreOnly = none →
        NewConfigV1 e
          = { Use := e.Use, Except := e.Except, IgnoreRootPaths := e.Ignore,
              IgnoreIDOrCategoryToRootPaths := none,
              IgnoreUnstablePackages := e.IgnoreUnstablePackages, Version := "v1" })) ∧
    ConfigForProto none
      = { Use := [], Except := [], IgnoreRootPaths := [], IgnoreIDOrCategoryToRootPaths := none,
          IgnoreUnstablePackages := false, Version := "" } ∧
    (∀ p : ProtoConfig,
      (ConfigForProto (some p)).Use = p.UseIds ∧
      (ConfigForProto (some p)).Except = p.ExceptIds ∧
      (ConfigForProto (some p)).IgnoreRootPaths = p.IgnorePaths ∧
      (ConfigForProto (some p)).IgnoreIDOrCategoryToRootPaths.isSome = p.IgnoreIdPaths.isSome ∧
      (ConfigForProto (some p)).IgnoreUnstablePackages = p.IgnoreUnstablePackages ∧
      (ConfigForProto (some p)).Version = p.Version) ∧
    (∀ c : Config, (∃ x, ExternalConfigV1Beta1ForConfig (some c) = .value x) ∧
      (∃ x, ExternalConfigV1ForConfig (some c) = .value x) ∧
      (∃ x, ProtoForConfig (some c) = .value x)) := by
  refine ⟨fun e => ⟨?_, fun h => ?_⟩, fun e => ⟨?_, fun h => ?_⟩, rfl, fun p => ?_,
    fun c => ⟨⟨_, rfl⟩, ⟨_, rfl⟩, ⟨_, rfl⟩⟩⟩
  · cases h : e.IgnoreOnly <;> simp [NewConfigV1Beta1, h, ignoreOnlyMapForExternalIgnoreOnly]
  · simp [NewConfigV1Beta1, h, ignoreOnlyMapForExternalIgnoreOnly, v1Beta1Version]
  · cases h : e.IgnoreOnly <;> simp [NewConfigV1, h, ignoreOnlyMapForExternalIgnoreOnly]
  · simp [NewConfigV1, h, ignoreOnlyMapForExternalIgnoreOnly, v1Version]
  · refine ⟨rfl, rfl, rfl, ?_, rfl, rfl⟩
    cases h : p.IgnoreIdPaths <;>
      simp [ConfigForProto, ProtoConfig.GetIgnoreIdPaths, h,
        ignoreIDOrCategoryToRootPathsForProto]

/-- C24, as stated, fails: the mapping-kind check tests the kind only. A mapping
node with one child (built by hand; the parser builds none) passes the check
(kind mapping, one child), the key decodes, and the access to
`value.Content[1]` is out of range: the call panics. -/
theorem unmarshalYAML_odd_children_panic :
    sampleOddNode.Kind = MappingNode ∧ sampleOddNode.Content.length = 1 ∧
    (scalarText "R").DecodeString Resolver.strict = .ok "R" ∧
    ExternalIgnoreOnly.UnmarshalYAML Resolver.strict ⟨[]⟩ sampleOddNode = (.panic, ⟨[]⟩) := by
  decide

/-- On an even number of children the loop ends in a panic only when the
decoding of a child does. -/
theorem unmarshalPairs_even (r : Resolver) :
    ∀ (n : Nat) (content : List Node) (idToPaths : List IDPaths), content.length = 2 * n →
      (unmarshalPairs r content idToPaths).1 = .panic →
      ∃ c ∈ content, c.DecodeString r = .panic ∨ c.DecodeStrings r = .panic
  | 0, content, idToPaths, hlen, hp => by
    have hnil : content = [] := List.length_eq_zero.1 (by omega)
    subst hnil
    simp [unmarshalPairs] at hp
  | n + 1, content, idToPaths, hlen, hp => by
    match content, hlen with
    | [], hlen => simp at hlen
    | [_], hlen => simp at hlen; omega
    | key :: paths :: rest, hlen =>
      have hrest : rest.length = 2 * n := by
        simp only [List.length_cons] at hlen
        omega
      cases hk : key.DecodeString r with
      | error err => simp [unmarshalPairs, hk] at hp
      | panic => exact ⟨key, List.mem_cons_self _ _, Or.inl hk⟩
      | ok id =>
        cases hv : paths.DecodeStrings r with
        | error err => simp [unmarshalPairs, hk, hv] at hp
        | panic =>
          exact ⟨paths, List.mem_cons_of_mem _ (List.mem_cons_self _ _), Or.inr hv⟩
        | ok ps =>
          simp only [unmarshalPairs, hk, hv] at hp
          obtain ⟨c, hc, hcp⟩ := unmarshalPairs_even r n rest _ hrest hp
          exact ⟨c, List.mem_cons_of_mem _ (List.mem_cons_of_mem _ hc), hcp⟩

/-- C24, amended: for every node with an even number of children (every mapping
node that the parser builds has one), every access to child `i+1` made by the
loop is in bounds: unless the decoding of a child itself panics, the call
returns, with nil or with an error. -/
theorem unmarshalYAML_even_children_in_bounds (r : Resolver) (e : ExternalIgnoreOnly)
    (value : Node) (heven : value.Content.length % 2 = 0)
    (hdec : ∀ c ∈ value.Content, c.DecodeString r ≠ .panic ∧ c.DecodeStrings r ≠ .panic) :
    ∃ err, (e.UnmarshalYAML r value).1 = .returned err := by
  cases ho : (e.UnmarshalYAML r value).1 with
  | returned err => exact ⟨err, rfl⟩
  | panic =>
    exfalso
    unfold ExternalIgnoreOnly.UnmarshalYAML at ho
    split_ifs at ho with h1 h2
    obtain ⟨c, hc, hcp⟩ := unmarshalPairs_even r (value.Content.length / 2) value.Content []
      (by omega) ho
    rcases hcp with hcp | hcp
    · exact (hdec c hc).1 hcp
    · exact (hdec c hc).2 hcp

/-- The mapping node of `sampleNode` has four children, none of them an alias:
the call returns. -/
theorem unmarshalYAML_even_children_in_bounds_witness :
    (sampleNode.Content.length % 2 = 0 ∧
      ∀ c ∈ sampleNode.Content,
        c.DecodeString Resolver.strict ≠ .panic ∧ c.DecodeStrings Resolver.strict ≠ .panic) ∧
    ∃ err, (ExternalIgnoreOnly.UnmarshalYAML Resolver.strict ⟨[]⟩ sampleNode).1
      = .returned err :=
  have heven : sampleNode.Content.length % 2 = 0 := by decide
  have hdec : ∀ c ∈ sampleNode.Content,
      c.DecodeString Resolver.strict ≠ .panic ∧ c.DecodeStrings Resolver.strict ≠ .panic := by
    decide
  ⟨⟨heven, hdec⟩,
    unmarshalYAML_even_children_in_bounds Resolver.strict ⟨[]⟩ sampleNode heven hdec⟩

/-- The loop over keys and values that decode appends what they decode to. -/
theorem unmarshalPairs_decoded (r : Resolver)
    (good : List ((Node × Node) × (String × List String))) (tail : List Node)
    (acc : List IDPaths)
    (h : ∀ p ∈ good, p.1.1.DecodeString r = .ok p.2.1 ∧ p.1.2.DecodeStrings r = .ok p.2.2) :
    unmarshalPairs r (pairContent (good.map Prod.fst) ++ tail) acc
      = unmarshalPairs r tail (acc ++ good.map (fun p => { ID := p.2.1, Paths := p.2.2 })) := by
  induction good generalizing acc with
  | nil => simp [pairContent]
  | cons p good ih =>
    obtain ⟨hid, hps⟩ := h p (List.mem_cons_self _ _)
    rw [List.map_cons, pairContent_cons, List.cons_append, List.cons_append, unmarshalPairs]
    simp only [hid, hps]
    rw [ih _ (fun x hx => h x (List.mem_cons_of_mem _ hx)), List.map_cons, List.append_assoc]
    rfl

/-- C26, as stated, fails: the receiver held two pairs, the decoding fails at the
value of the second key, and afterwards the receiver holds the one pair decoded
before the failure. -/
theorem unmarshalYAML_error_changes_receiver :
    ExternalIgnoreOnly.UnmarshalYAML Resolver.strict ⟨samplePairs⟩ sampleBadNode
      = (.returned (some (.typeError [.mk MappingNode 0 "!!map" "" []])),
          ⟨[{ ID := "R1", Paths := ["a"] }]⟩) ∧
    (⟨[{ ID := "R1", Paths := ["a"] }]⟩ : ExternalIgnoreOnly) ≠ ⟨samplePairs⟩ := by
  decide

/-- C26, amended: a failed decode leaves the receiver as it was only when the
node is rejected by the mapping-kind check. When a child of a mapping node
fails to decode (`bad`, after the pairs of `good`, which decode), the entries
that the receiver held are discarded and its list holds exactly the pairs
decoded before the failing child. -/
theorem unmarshalYAML_error_receiver (r : Resolver) (e : ExternalIgnoreOnly) (value : Node)
    (good : List ((Node × Node) × (String × List String))) (bad : Node) (rest : List Node)
    (err : Error) (hk : value.Kind = MappingNode)
    (hgood : ∀ p ∈ good,
      p.1.1.DecodeString r = .ok p.2.1 ∧ p.1.2.DecodeStrings r = .ok p.2.2)
    (hbad : (value.Content = pairContent (good.map Prod.fst) ++ bad :: rest ∧
              bad.DecodeString r = .error err) ∨
            (∃ key id, value.Content = pairContent (good.map Prod.fst) ++ key :: bad :: rest ∧
              key.DecodeString r = .ok id ∧ bad.DecodeStrings r = .error err)) :
    e.UnmarshalYAML r value
        = (.returned (some err), ⟨good.map (fun p => { ID := p.2.1, Paths := p.2.2 })⟩) ∧
    ∀ other : Node, other.Content ≠ [] → other.Kind ≠ MappingNode →
      (∃ err', (e.UnmarshalYAML r other).1 = .returned (some err')) ∧
      (e.UnmarshalYAML r other).2 = e := by
  constructor
  · have hlen : ¬ value.Content.length = 0 := by
      intro h0
      have hnil := List.length_eq_zero.1 h0
      rcases hbad with ⟨hc, _⟩ | ⟨_, _, hc, _⟩ <;> rw [hc] at hnil <;> simp at hnil
    unfold ExternalIgnoreOnly.UnmarshalYAML
    simp only [hlen, if_false, hk, ne_eq, not_true_eq_false]
    rcases hbad with ⟨hc, hb⟩ | ⟨key, id, hc, hkey, hb⟩
    · rw [hc, unmarshalPairs_decoded r good _ [] hgood,
        unmarshalPairs_bad_key r bad rest _ err hb, List.nil_append]
    · rw [hc, unmarshalPairs_decoded r good _ [] hgood,
        unmarshalPairs_bad_value r key bad rest _ id err hkey hb, List.nil_append]
  · intro other hc hko
    have hlen : ¬ other.Content.length = 0 := fun h => hc (List.length_eq_zero.1 h)
    simp [ExternalIgnoreOnly.UnmarshalYAML, hlen, hko]

theorem unmarshalYAML_error_receiver_witness :
    sampleBadNode.Kind = MappingNode ∧
    (scalarText "R1").DecodeString Resolver.strict = .ok "R1" ∧
    (newPathsNode ["a"]).DecodeStrings Resolver.strict = .ok ["a"] ∧
    (scalarText "R2").DecodeString Resolver.strict = .ok "R2" ∧
    (Node.mk MappingNode 0 "!!map" "" []).DecodeStrings Resolver.strict
      = .error (.typeError [.mk MappingNode 0 "!!map" "" []]) ∧
    (ExternalIgnoreOnly.UnmarshalYAML Resolver.strict ⟨samplePairs⟩ sampleBadNode
        = (.returned (some (.typeError [.mk MappingNode 0 "!!map" "" []])),
            ⟨[{ ID := "R1", Paths := ["a"] }]⟩) ∧
      ∀ other : Node, other.Content ≠ [] → other.Kind ≠ MappingNode →
        (∃ err', (ExternalIgnoreOnly.UnmarshalYAML Resolver.strict ⟨samplePairs⟩ other).1
          = .returned (some err')) ∧
        (ExternalIgnoreOnly.UnmarshalYAML Resolver.strict ⟨samplePairs⟩ other).2
          = ⟨samplePairs⟩) :=
  ⟨rfl, by decide, by decide, by decide, by decide,
    unmarshalYAML_error_receiver Resolver.strict ⟨samplePairs⟩ sampleBadNode
      [((scalarText "R1", newPathsNode ["a"]), ("R1", ["a"]))]
      (.mk MappingNode 0 "!!map" "" []) [scalarText "R3", newPathsNode ["z"]]
      (.typeError [.mk MappingNode 0 "!!map" "" []]) rfl
      (fun p hp => by
        rw [List.mem_singleton] at hp
        subst hp
        exact ⟨by decide, by decide⟩)
      (Or.inr ⟨scalarText "R2", "R2", rfl, by decide, by decide⟩)⟩

/-! ## Message encoding references -/

theorem head_dropWhile_isSpace (l : List Char) (c : Char)
    (h : (l.dropWhile isSpace).head? = some c) : isSpace c = false := by
  have := List.head?_dropWhile_not isSpace l
  rw [h] at this
  exact this

/-- What `strings.TrimSpace` returns starts with no white space. -/
theorem trimSpace_head (l : List Char) (c : Char) (h : (trimSpace l).head? = some c) :
    isSpace c = false := by
  unfold trimSpace at h
  rw [List.head?_reverse] at h
  obtain ⟨t, ht⟩ := List.dropWhile_suffix (l := (l.dropWhile isSpace).reverse) isSpace
  have hne : List.dropWhile isSpace (l.dropWhile isSpace).reverse ≠ [] := by
    intro h0; rw [h0] at h; simp at h
  have hl := List.getLast?_append_of_ne_nil t hne
  rw [ht, List.getLast?_reverse] at hl
  exact head_dropWhile_isSpace l c (hl.trans h)

/-- What `strings.TrimSpace` returns ends with no white space. -/
theorem trimSpace_last (l : List Char) (c : Char) (h : (trimSpace l).getLast? = some c) :
    isSpace c = false := by
  unfold trimSpace at h
  rw [List.getLast?_reverse] at h
  exact head_dropWhile_isSpace _ c h

theorem string_ne_empty {s : String} (h : ¬ s = "") : s.data ≠ [] := by
  intro h0
  apply h
  cases s
  simp_all

/-- C23: for every input on which `getRawPathAndOptions` succeeds, the raw path
is not empty, its first character and its last character are not white space. -/
theorem rawPath_trimmed_nonempty (value path : String) (options : Option Options)
    (h : getRawPathAndOptions value = .ok (path, options)) :
    path ≠ "" ∧ path.data ≠ [] ∧
    (∀ c, path.data.head? = some c → isSpace c = false) ∧
    (∀ c, path.data.getLast? = some c → isSpace c = false) := by
  have key : ∀ l : List Char, ¬ (TrimSpace ⟨l⟩ = "") → path = TrimSpace ⟨l⟩ →
      path ≠ "" ∧ path.data ≠ [] ∧
      (∀ c, path.data.head? = some c → isSpace c = false) ∧
      (∀ c, path.data.getLast? = some c → isSpace c = false) := by
    intro l hne hp
    subst hp
    exact ⟨hne, string_ne_empty hne, fun c hc => trimSpace_head l c hc,
      fun c hc => trimSpace_last l c hc⟩
  unfold getRawPathAndOptions at h
  simp only at h
  split at h
  · exact absurd h (by simp)
  · rename_i hv
    split at h
    · simp only [Except.ok.injEq, Prod.mk.injEq] at h
      exact key value.data hv h.1.symm
    · rename_i p o _
      split at h
      · exact absurd h (by simp)
      · rename_i hp
        split at h
        · exact absurd h (by simp)
        · split at h
          · exact absurd h (by simp)
          · simp only [Except.ok.injEq, Prod.mk.injEq] at h
            exact key p hp h.1.symm
    · exact absurd h (by simp)

theorem rawPath_trimmed_nonempty_witness :
    getRawPathAndOptions "  a/b.bin # format = json , x=1 "
      = .ok ("a/b.bin", some [("format", "json"), ("x", "1")]) ∧
    ("a/b.bin" ≠ "" ∧ "a/b.bin".data ≠ [] ∧
      (∀ c, "a/b.bin".data.head? = some c → isSpace c = false) ∧
      (∀ c, "a/b.bin".data.getLast? = some c → isSpace c = false)) :=
  ⟨by decide,
    rawPath_trimmed_nonempty "  a/b.bin # format = json , x=1 " "a/b.bin"
      (some [("format", "json"), ("x", "1")]) (by decide)⟩


theorem splitOn_ne_nil (sep : Char) (l : List Char) : splitOn sep l ≠ [] := by
  induction l with
  | nil => simp [splitOn]
  | cons c cs ih =>
    unfold splitOn
    split
    · simp
    · split <;> simp

/-- A text without the separator is split into itself. -/
theorem splitOn_count_zero (sep : Char) (l : List Char) (h : l.count sep = 0) :
    splitOn sep l = [l] := by
  induction l with
  | nil => rfl
  | cons c cs ih =>
    rw [List.count_cons] at h
    have hc : ¬ c = sep := by
      intro e; subst e; simp at h
    have h0 : cs.count sep = 0 := by omega
    unfold splitOn
    rw [if_neg hc, ih h0]

/-- A text with one separator is split into the part before it and the part
after it. -/
theorem splitOn_count_one (sep : Char) (l : List Char) (h : l.count sep = 1) :
    splitOn sep l = [beforeSep sep l, afterSep sep l] := by
  induction l with
  | nil => simp at h
  | cons c cs ih =>
    rw [List.count_cons] at h
    by_cases hc : c = sep
    · subst hc
      have h0 : cs.count c = 0 := by simpa using h
      unfold splitOn
      rw [if_pos rfl, splitOn_count_zero c cs h0]
      simp [beforeSep, afterSep, List.takeWhile_cons, List.dropWhile_cons]
    · have h1 : cs.count sep = 1 := by
        have : (c == sep) = false := by simpa using hc
        simpa [this] using h
      unfold splitOn
      rw [if_neg hc, ih h1]
      simp [beforeSep, afterSep, List.takeWhile_cons, List.dropWhile_cons, hc]

theorem splitOn_length (sep : Char) (l : List Char) :
    (splitOn sep l).length = l.count sep + 1 := by
  induction l with
  | nil => rfl
  | cons c cs ih =>
    rw [List.count_cons]
    unfold splitOn
    by_cases hc : c = sep
    · subst hc
      simp [ih]
    · have : (c == sep) = false := by simpa using hc
      rw [if_neg hc]
      cases hs : splitOn sep cs with
      | nil => exact absurd hs (splitOn_ne_nil sep cs)
      | cons piece pieces =>
        rw [hs] at ih
        simp only [List.length_cons] at ih ⊢
        simp [this]
        omega

/-- A text with two separators or more is split into three pieces or more. -/
theorem splitOn_count_many (sep : Char) (l : List Char) (h : 2 ≤ l.count sep) :
    ∃ a b c rest, splitOn sep l = a :: b :: c :: rest := by
  have hl := splitOn_length sep l
  match hs : splitOn sep l with
  | [] => rw [hs] at hl; simp at hl
  | [_] => rw [hs] at hl; simp at hl; omega
  | [_, _] => rw [hs] at hl; simp at hl; omega
  | a :: b :: c :: rest => exact ⟨a, b, c, rest, rfl⟩


theorem mk_eq_empty_iff (l : List Char) : (String.mk l = "") ↔ l = [] := by
  constructor
  · intro h
    have := congrArg String.data h
    simpa using this
  · intro h; subst h; rfl

theorem lookupOption_isSome (key : String) (options : Options) :
    (lookupOption key (some options)).isSome = true ↔ key ∈ options.map Prod.fst := by
  unfold lookupOption
  induction options with
  | nil => simp [lookupEntries]
  | cons e rest ih =>
    by_cases h : e.1 = key
    · simp [lookupEntries, h]
    · have h' : ¬ key = e.1 := fun x => h x.symm
      simp only [lookupEntries, if_neg h, List.map_cons, List.mem_cons, h', false_or]
      exact ih

/-- One step of the loop at an item with exactly one `=`. -/
theorem parseOptions_cons_one (optionsString : String) (item : List Char)
    (rest : List (List Char)) (options : Options) (h : item.count equalsChar = 1) :
    parseOptions optionsString (item :: rest) options
      = if itemKey item = "" ∨ itemValue item = "" then .error (.invalidOptions optionsString)
        else if (lookupOption (itemKey item) (some options)).isSome then
          .error (.duplicateKey (itemKey item))
        else parseOptions optionsString rest (options ++ [(itemKey item, itemValue item)]) := by
  rw [parseOptions, splitOn_count_one equalsChar item h]
  rfl

/-- One step of the loop at an item without `=` or with several. -/
theorem parseOptions_cons_other (optionsString : String) (item : List Char)
    (rest : List (List Char)) (options : Options) (h : item.count equalsChar ≠ 1) :
    parseOptions optionsString (item :: rest) options
      = .error (.invalidOptions optionsString) := by
  rcases Nat.lt_or_ge (item.count equalsChar) 1 with h0 | h2
  · have h0' : item.count equalsChar = 0 := by omega
    rw [parseOptions, splitOn_count_zero equalsChar item h0']
  · have h2' : 2 ≤ item.count equalsChar := by omega
    obtain ⟨a, b, c, more, hs⟩ := splitOn_count_many equalsChar item h2'
    rw [parseOptions, hs]

/-- The loop succeeds on well-formed items with new, pairwise distinct keys and
appends their entries. -/
theorem parseOptions_ok (optionsString : String) (items : List (List Char)) (options : Options)
    (hok : ∀ item ∈ items, itemOK item) (hnd : (items.map itemKey).Nodup)
    (hnew : ∀ item ∈ items, itemKey item ∉ options.map Prod.fst) :
    parseOptions optionsString items options
      = .ok (options ++ items.map (fun item => (itemKey item, itemValue item))) := by
  induction items generalizing options with
  | nil => simp [parseOptions]
  | cons item rest ih =>
    obtain ⟨h1, hk, hv⟩ := hok item (List.mem_cons_self _ _)
    rw [List.map_cons, List.nodup_cons] at hnd
    have hkey : ¬ itemKey item = "" := fun h => hk ((mk_eq_empty_iff _).1 h)
    have hval : ¬ itemValue item = "" := fun h => hv ((mk_eq_empty_iff _).1 h)
    have hlook : ¬ (lookupOption (itemKey item) (some options)).isSome = true := fun h =>
      hnew item (List.mem_cons_self _ _) ((lookupOption_isSome _ _).1 h)
    rw [parseOptions_cons_one optionsString item rest options h1]
    simp only [hkey, hval, or_self, if_false, hlook]
    rw [ih _ (fun x hx => hok x (List.mem_cons_of_mem _ hx)) hnd.2]
    · simp
    · intro x hx hmem
      rw [List.map_append, List.mem_append] at hmem
      rcases hmem with hmem | hmem
      · exact hnew x (List.mem_cons_of_mem _ hx) hmem
      · simp only [List.map_cons, List.map_nil, List.mem_singleton] at hmem
        exact hnd.1 (hmem ▸ List.mem_map.2 ⟨x, hx, rfl⟩)

/-- When the loop succeeds, the items are well formed and their keys are new and
pairwise distinct. -/
theorem parseOptions_ok_inv (optionsString : String) (items : List (List Char))
    (options res : Options) (h : parseOptions optionsString items options = .ok res) :
    (∀ item ∈ items, itemOK item) ∧ (items.map itemKey).Nodup ∧
      (∀ item ∈ items, itemKey item ∉ options.map Prod.fst) := by
  induction items generalizing options with
  | nil => simp
  | cons item rest ih =>
    by_cases h1 : item.count equalsChar = 1
    · rw [parseOptions_cons_one optionsString item rest options h1] at h
      split at h
      · exact absurd h (by simp)
      · rename_i hkv
        split at h
        · exact absurd h (by simp)
        · rename_i hlook
          obtain ⟨hok, hnd, hnew⟩ := ih _ h
          have hk : trimSpace (beforeSep equalsChar item) ≠ [] := fun e =>
            hkv (Or.inl ((mk_eq_empty_iff _).2 e))
          have hv : trimSpace (afterSep equalsChar item) ≠ [] := fun e =>
            hkv (Or.inr ((mk_eq_empty_iff _).2 e))
          have hnotin : itemKey item ∉ options.map Prod.fst := fun hm =>
            hlook ((lookupOption_isSome _ _).2 hm)
          refine ⟨?_, ?_, ?_⟩
          · intro x hx
            rcases List.mem_cons.1 hx with rfl | hx
            · exact ⟨h1, hk, hv⟩
            · exact hok x hx
          · rw [List.map_cons, List.nodup_cons]
            refine ⟨?_, hnd⟩
            intro hmem
            obtain ⟨x, hx, hxk⟩ := List.mem_map.1 hmem
            apply hnew x hx
            rw [List.map_append, List.mem_append]
            exact Or.inr (by simp [hxk])
          · intro x hx
            rcases List.mem_cons.1 hx with rfl | hx
            · exact hnotin
            · intro hm
              apply hnew x hx
              rw [List.map_append, List.mem_append]
              exact Or.inl hm
    · rw [parseOptions_cons_other optionsString item rest options h1] at h
      exact absurd h (by simp)

theorem parseOptions_ok_or_error (optionsString : String) (items : List (List Char))
    (options : Options) :
    (∃ res, parseOptions optionsString items options = .ok res) ∨
      ∃ err, parseOptions optionsString items options = .error err := by
  cases parseOptions optionsString items options with
  | ok res => exact Or.inl ⟨res, rfl⟩
  | error err => exact Or.inr ⟨err, rfl⟩


/-- `getRawPathAndOptions` by the number of `#` in the trimmed input. -/
theorem getRawPathAndOptions_cases (value : String) :
    getRawPathAndOptions value
      = if trimSpace value.data = [] then .error .valueRequired
        else if (trimSpace value.data).count hashChar = 0 then
          .ok (⟨trimSpace value.data⟩, none)
        else if (trimSpace value.data).count hashChar = 1 then
          if trimSpace (beforeSep hashChar (trimSpace value.data)) = [] then
            .error (.startsWithHash ⟨trimSpace value.data⟩)
          else if trimSpace (afterSep hashChar (trimSpace value.data)) = [] then
            .error (.endsWithHash ⟨trimSpace value.data⟩)
          else
            match parseOptions ⟨trimSpace (afterSep hashChar (trimSpace value.data))⟩
                (optionItems (trimSpace value.data)) [] with
            | .error err => .error err
            | .ok options =>
              .ok (⟨trimSpace (beforeSep hashChar (trimSpace value.data))⟩, some options)
        else .error (.multipleHashes ⟨trimSpace value.data⟩) := by
  unfold getRawPathAndOptions
  simp only [TrimSpace, mk_eq_empty_iff, optionItems]
  generalize trimSpace value.data = t
  by_cases h0 : t = []
  · simp only [h0, if_true]
  · simp only [h0, if_false]
    by_cases hc0 : t.count hashChar = 0
    · simp only [hc0, if_true, splitOn_count_zero hashChar t hc0]
    · simp only [hc0, if_false]
      by_cases hc1 : t.count hashChar = 1
      · simp only [hc1, if_true, splitOn_count_one hashChar t hc1]
      · simp only [hc1, if_false]
        obtain ⟨a, b, c, rest, hs⟩ := splitOn_count_many hashChar t (by omega)
        simp only [hs]

/-- C27: `getRawPathAndOptions` succeeds exactly on the inputs of `acceptsRaw`:
the trimmed input is not empty and has no `#`, or has exactly one `#` with a
non-blank part before it and a non-blank part after it in which every
comma-separated item has exactly one `=`, a non-blank key and a non-blank value
and no trimmed key occurs twice. On success it returns `expectedRaw`: without
`#` the trimmed input and no options, with `#` the trimmed part before it and
the map from each trimmed key to its trimmed value. On every other input it
returns an error. -/
theorem getRawPathAndOptions_accepts (value : String) :
    ((∃ res, getRawPathAndOptions value = .ok res) ↔ acceptsRaw value) ∧
    (∀ res, getRawPathAndOptions value = .ok res → res = expectedRaw value) ∧
    ((∃ err, getRawPathAndOptions value = .error err) ↔ ¬ acceptsRaw value) := by
  have hcases := getRawPathAndOptions_cases value
  have main : (acceptsRaw value → getRawPathAndOptions value = .ok (expectedRaw value)) ∧
      (¬ acceptsRaw value → ∃ err, getRawPathAndOptions value = .error err) := by
    unfold acceptsRaw expectedRaw
    generalize trimSpace value.data = t at hcases ⊢
    by_cases h0 : t = []
    · simp only [h0, if_true] at hcases
      exact ⟨fun h => absurd h0 h.1, fun _ => ⟨_, hcases⟩⟩
    · simp only [h0, if_false] at hcases
      by_cases hc0 : t.count hashChar = 0
      · simp only [hc0, if_true] at hcases
        refine ⟨fun _ => by rw [hcases, if_pos hc0], fun h => ?_⟩
        exact absurd ⟨h0, Or.inl hc0⟩ h
      · simp only [hc0, if_false] at hcases
        by_cases hc1 : t.count hashChar = 1
        · simp only [hc1, if_true] at hcases
          by_cases hp : trimSpace (beforeSep hashChar t) = []
          · simp only [hp, if_true] at hcases
            refine ⟨fun h => ?_, fun _ => ⟨_, hcases⟩⟩
            rcases h.2 with h' | h'
            · exact absurd h' hc0
            · exact absurd hp h'.2.1
          · simp only [hp, if_false] at hcases
            by_cases ho : trimSpace (afterSep hashChar t) = []
            · simp only [ho, if_true] at hcases
              refine ⟨fun h => ?_, fun _ => ⟨_, hcases⟩⟩
              rcases h.2 with h' | h'
              · exact absurd h' hc0
              · exact absurd ho h'.2.2.1
            · simp only [ho, if_false] at hcases
              constructor
              · intro h
                rcases h.2 with h' | h'
                · exact absurd h' hc0
                · obtain ⟨_, _, _, hok, hnd⟩ := h'
                  rw [hcases, parseOptions_ok _ _ [] hok hnd (fun _ _ => by simp),
                    if_neg hc0]
                  rfl
              · intro hna
                rcases parseOptions_ok_or_error ⟨trimSpace (afterSep hashChar t)⟩
                    (optionItems t) [] with ⟨res, hres⟩ | ⟨err, herr⟩
                · obtain ⟨hok, hnd, _⟩ := parseOptions_ok_inv _ _ _ _ hres
                  exact absurd ⟨h0, Or.inr ⟨hc1, hp, ho, hok, hnd⟩⟩ hna
                · rw [herr] at hcases
                  exact ⟨err, hcases⟩
        · simp only [hc1, if_false] at hcases
          refine ⟨fun h => ?_, fun _ => ⟨_, hcases⟩⟩
          rcases h.2 with h' | h'
          · exact absurd h' hc0
          · exact absurd h'.1 hc1
  obtain ⟨hacc, hrej⟩ := main
  refine ⟨⟨?_, fun h => ⟨_, hacc h⟩⟩, ?_, ⟨?_, hrej⟩⟩
  · rintro ⟨res, hres⟩
    by_contra hna
    obtain ⟨err, herr⟩ := hrej hna
    rw [herr] at hres
    exact absurd hres (by simp)
  · intro res hres
    by_cases ha : acceptsRaw value
    · rw [hacc ha] at hres
      simp only [Except.ok.injEq] at hres
      exact hres.symm
    · obtain ⟨err, herr⟩ := hrej ha
      rw [herr] at hres
      exact absurd hres (by simp)
  · rintro ⟨err, herr⟩ ha
    rw [hacc ha] at herr
    exact absurd herr (by simp)


theorem getPathAndMessageEncoding_of_raw (value path : String) (options : Option Options)
    (h : getRawPathAndOptions value = .ok (path, options)) :
    getPathAndMessageEncoding value
      = match lookupOption "format" options with
        | some format =>
          if format = "bin" then .ok (path, MessageEncodingBin)
          else if format = "json" then .ok (path, MessageEncodingJSON)
          else .error (.invalidFormat format)
        | none =>
          .ok (path,
            if Ext path = ".bin" then MessageEncodingBin
            else if Ext path = ".json" then MessageEncodingJSON
            else 0) := by
  unfold getPathAndMessageEncoding
  rw [h]
  simp only
  cases lookupOption "format" options with
  | none => simp only [parseMessageEncodingExt]
  | some format =>
    simp only [parseMessageEncodingFormat]
    by_cases hb : format = "bin"
    · simp [hb]
    · by_cases hj : format = "json"
      · simp [hj]
      · simp [hb, hj]

/-- C28: for every input accepted by `getRawPathAndOptions`, with raw path `path`
and options `options`: if the option `format` is present it alone decides the
encoding (`bin` gives binary, `json` gives JSON, any other value is an error
whatever the extension of the path); otherwise the extension of the path
decides (`.bin` gives binary, `.json` gives JSON, anything else the unset
encoding 0). Another accepted input with the same raw path and the same
`format` option (or none in both) gives the same result, whatever other options
the two have. -/
theorem messageEncoding_decided (value path : String) (options : Option Options)
    (h : getRawPathAndOptions value = .ok (path, options)) :
    getPathAndMessageEncoding value
      = (match lookupOption "format" options with
        | some format =>
          if format = "bin" then .ok (path, MessageEncodingBin)
          else if format = "json" then .ok (path, MessageEncodingJSON)
          else .error (.invalidFormat format)
        | none =>
          .ok (path,
            if Ext path = ".bin" then MessageEncodingBin
            else if Ext path = ".json" then MessageEncodingJSON
            else 0)) ∧
    ∀ (value' : String) (options' : Option Options),
      getRawPathAndOptions value' = .ok (path, options') →
      lookupOption "format" options' = lookupOption "format" options →
      getPathAndMessageEncoding value' = getPathAndMessageEncoding value := by
  refine ⟨getPathAndMessageEncoding_of_raw value path options h, ?_⟩
  intro value' options' h' hf
  rw [getPathAndMessageEncoding_of_raw value path options h,
    getPathAndMessageEncoding_of_raw value' path options' h', hf]

theorem messageEncoding_decided_witness :
    getRawPathAndOptions "a.json#format=bin,x=1"
      = .ok ("a.json", some [("format", "bin"), ("x", "1")]) ∧
    getPathAndMessageEncoding "a.json#format=bin,x=1" = .ok ("a.json", MessageEncodingBin) ∧
    getPathAndMessageEncoding "a.json#format=bin" = .ok ("a.json", MessageEncodingBin) ∧
    getPathAndMessageEncoding "a.bin#format=yaml" = .error (.invalidFormat "yaml") ∧
    getPathAndMessageEncoding "dir/a.json#x=1" = .ok ("dir/a.json", MessageEncodingJSON) ∧
    getPathAndMessageEncoding "dir.bin/a" = .ok ("dir.bin/a", 0) ∧
    (getPathAndMessageEncoding "a.json#format=bin,x=1"
        = (match lookupOption "format" (some [("format", "bin"), ("x", "1")]) with
          | some format =>
            if format = "bin" then .ok ("a.json", MessageEncodingBin)
            else if format = "json" then .ok ("a.json", MessageEncodingJSON)
            else .error (.invalidFormat format)
          | none =>
            .ok ("a.json",
              if Ext "a.json" = ".bin" then MessageEncodingBin
              else if Ext "a.json" = ".json" then MessageEncodingJSON
              else 0)) ∧
      ∀ (value' : String) (options' : Option Options),
        getRawPathAndOptions value' = .ok ("a.json", options') →
        lookupOption "format" options'
          = lookupOption "format" (some [("format", "bin"), ("x", "1")]) →
        getPathAndMessageEncoding value' = getPathAndMessageEncoding "a.json#format=bin,x=1") :=
  ⟨by decide, by decide, by decide, by decide, by decide, by decide,
    messageEncoding_decided "a.json#format=bin,x=1" "a.json"
      (some [("format", "bin"), ("x", "1")]) (by decide)⟩

/-! ## `format` and the text output of repository tracks -/

theorem trimRightNewlines_append (l : List Char) :
    ∃ n, l = trimRightNewlines l ++ List.replicate n newlineChar := by
  have h := List.takeWhile_append_dropWhile (fun c => decide (c = newlineChar)) l.reverse
  have hall : ∀ c ∈ (l.reverse.takeWhile (fun c => decide (c = newlineChar))), c = newlineChar := by
    intro c hc
    simpa using List.mem_takeWhile_imp hc
  refine ⟨(l.reverse.takeWhile (fun c => decide (c = newlineChar))).length, ?_⟩
  have hrep := List.eq_replicate_of_mem hall
  have h2 := congrArg List.reverse h
  rw [List.reverse_append, List.reverse_reverse] at h2
  rw [hrep, List.reverse_replicate] at h2
  exact h2.symm

theorem trimRightNewlines_last (l : List Char) :
    (trimRightNewlines l).getLast? ≠ some newlineChar := by
  unfold trimRightNewlines
  rw [List.getLast?_reverse]
  intro h
  have := List.head?_dropWhile_not (fun c => decide (c = newlineChar)) l.reverse
  rw [h] at this
  simp at this

/-- C29: for every formatter output `s` (written without error), `format`
returns `s` with all trailing newlines removed: the content is a prefix of `s`,
it does not end with a newline, and `s` is the content followed by zero or more
newlines. An error of the formatter is returned as it is. -/
theorem format_trims_trailing_newlines :
    (∀ s : String, ∃ out : String, format ((s, none) : String × Option String) = .ok out ∧
      out.data <+: s.data ∧ out.data.getLast? ≠ some newlineChar ∧
      ∃ n, s.data = out.data ++ List.replicate n newlineChar) ∧
    (∀ (s : String) (err : String), format (s, some err) = .error err) := by
  refine ⟨fun s => ⟨⟨trimRightNewlines s.data⟩, rfl, ?_, trimRightNewlines_last s.data,
    trimRightNewlines_append s.data⟩, fun _ _ => rfl⟩
  obtain ⟨n, hn⟩ := trimRightNewlines_append s.data
  exact ⟨List.replicate n newlineChar, hn.symm⟩

/-- C30: the code at one repository track. The header has three columns (Name,
Commit, Created), the row written for a track has two values (the name and the
time), and a tab writer that checks the number of values rejects the row. -/
theorem repositoryTrack_row_short :
    repositoryTrackHeader.length = 3 ∧
    (∀ (formatRFC3339 : Int → String) (ot : outputRepositoryTrack),
      (repositoryTrackRow formatRFC3339 ot).length = 2 ∧
      (repositoryTrackRow formatRFC3339 ot).length ≠ repositoryTrackHeader.length) ∧
    printRepositoryTracksText columnCheckingTabWriter (fun _ => "2021-01-01T00:00:00Z")
        [{ ID := "", Name := "main", CreateTime := 1609459200 }]
      = some ["main", "2021-01-01T00:00:00Z"] := by
  refine ⟨rfl, fun _ _ => ⟨rfl, ?_⟩, by decide⟩
  show (2 : Nat) ≠ 3
  decide

/-! ## The canonical bytes determine the Config -/

theorem hexDigit_toNat : ∀ k < 16, (hexDigit k).toNat = hexCode k := by decide

theorem unhexCode_hexCode (k : Nat) (h : k < 16) : unhexCode (hexCode k) = k := by
  unfold unhexCode hexCode
  split_ifs <;> omega

theorem jsonEscapeChar_codes (c : Char) :
    (jsonEscapeChar c).map Char.toNat = escapeCodes c.toNat := by
  unfold jsonEscapeChar escapeCodes
  have h16 : c.toNat % 16 < 16 := Nat.mod_lt _ (by decide)
  simp only []
  split_ifs with h1 h2 h3 h4 h5 h6 h7
  · rfl
  · rfl
  · rfl
  · rfl
  · rfl
  · have hd : c.toNat / 16 < 16 := by omega
    simp only [List.map_cons, List.map_nil, hexDigit_toNat _ hd, hexDigit_toNat _ h16]
    rfl
  · simp only [List.map_cons, List.map_nil, hexDigit_toNat _ h16]
    rfl
  · rfl

theorem unescapeCodes_escapeCodes (n : Nat) (X : List Nat) :
    unescapeCodes (escapeCodes n ++ X) = n := by
  unfold escapeCodes
  have h16 : n % 16 < 16 := Nat.mod_lt _ (by decide)
  split_ifs with h1 h2 h3 h4 h5 h6 h7
  · simp [unescapeCodes, h1]
  · simp [unescapeCodes, h2]
  · simp [unescapeCodes, h3]
  · simp [unescapeCodes, h4]
  · simp [unescapeCodes, h5]
  · have hd : n / 16 < 16 := by omega
    simp [unescapeCodes, unhexCode_hexCode _ hd, unhexCode_hexCode _ h16]
    omega
  · simp [unescapeCodes, unhexCode_hexCode _ h16]
    omega
  · simp [unescapeCodes, h2]

theorem char_toNat_inj {a b : Char} (h : a.toNat = b.toNat) : a = b := by
  rw [← Char.ofNat_toNat a, ← Char.ofNat_toNat b, h]

/-- The escaped forms of the characters are a prefix code. -/
theorem jsonEscapeChar_prefix (c d : Char) (X Y : List Char)
    (h : jsonEscapeChar c ++ X = jsonEscapeChar d ++ Y) : c = d ∧ X = Y := by
  have h' := congrArg (List.map Char.toNat) h
  rw [List.map_append, List.map_append, jsonEscapeChar_codes, jsonEscapeChar_codes] at h'
  have hn : c.toNat = d.toNat := by
    rw [← unescapeCodes_escapeCodes c.toNat (X.map Char.toNat),
      ← unescapeCodes_escapeCodes d.toNat (Y.map Char.toNat), h']
  have hcd : c = d := char_toNat_inj hn
  subst hcd
  exact ⟨rfl, List.append_cancel_left h⟩

/-- The escaped form of a character does not start with a quote. -/
theorem jsonEscapeChar_head (c : Char) :
    ∃ x rest, jsonEscapeChar c = x :: rest ∧ x ≠ quoteChar := by
  unfold jsonEscapeChar
  simp only []
  split_ifs with h1 h2 h3 h4 h5 h6 h7
  · exact ⟨_, _, rfl, by decide⟩
  · exact ⟨_, _, rfl, by decide⟩
  · exact ⟨_, _, rfl, by decide⟩
  · exact ⟨_, _, rfl, by decide⟩
  · exact ⟨_, _, rfl, by decide⟩
  · exact ⟨_, _, rfl, by decide⟩
  · exact ⟨_, _, rfl, by decide⟩
  · refine ⟨_, _, rfl, ?_⟩
    intro hc
    apply h1
    rw [hc]
    rfl

/-- The escaped characters of a string, up to the closing quote, decide the
string. -/
theorem escaped_body_prefix (l₁ l₂ r s : List Char)
    (h : l₁.flatMap jsonEscapeChar ++ quoteChar :: r
      = l₂.flatMap jsonEscapeChar ++ quoteChar :: s) : l₁ = l₂ ∧ r = s := by
  induction l₁ generalizing l₂ with
  | nil =>
    cases l₂ with
    | nil => simpa using h
    | cons d l₂ =>
      obtain ⟨x, rest, hx, hne⟩ := jsonEscapeChar_head d
      rw [List.flatMap_cons, hx] at h
      simp only [List.flatMap_nil, List.nil_append, List.cons_append, List.cons.injEq] at h
      exact absurd h.1.symm hne
  | cons c l₁ ih =>
    cases l₂ with
    | nil =>
      obtain ⟨x, rest, hx, hne⟩ := jsonEscapeChar_head c
      rw [List.flatMap_cons, hx] at h
      simp only [List.flatMap_nil, List.nil_append, List.cons_append, List.cons.injEq] at h
      exact absurd h.1 hne
    | cons d l₂ =>
      rw [List.flatMap_cons, List.flatMap_cons, List.append_assoc, List.append_assoc] at h
      obtain ⟨hcd, hrest⟩ := jsonEscapeChar_prefix c d _ _ h
      obtain ⟨hl, hr⟩ := ih l₂ hrest
      exact ⟨by rw [hcd, hl], hr⟩

theorem jsonString_data (s : String) :
    (jsonString s).data = quoteChar :: (s.data.flatMap jsonEscapeChar ++ [quoteChar]) := by
  simp [jsonString, String.data_append]
  rfl

/-- JSON string literals are a prefix code, and the literal decides the string. -/
theorem jsonString_prefix (a b : String) (r s : List Char)
    (h : (jsonString a).data ++ r = (jsonString b).data ++ s) : a = b ∧ r = s := by
  rw [jsonString_data, jsonString_data] at h
  simp only [List.cons_append, List.append_assoc, List.nil_append, List.cons.injEq, true_and] at h
  obtain ⟨hd, hr⟩ := escaped_body_prefix a.data b.data r s h
  refine ⟨?_, hr⟩
  cases a; cases b; simp_all

theorem clash_incompatible : ∀ (a b : List Char), clash a b = true → Incompatible a b
  | [], _, h => by simp [clash] at h
  | _ :: _, [], h => by simp [clash] at h
  | x :: a, y :: b, h => by
    intro X Y hxy
    simp only [clash, Bool.or_eq_true, bne_iff_ne, ne_eq] at h
    simp only [List.cons_append, List.cons.injEq] at hxy
    rcases h with h | h
    · exact h hxy.1
    · exact clash_incompatible a b h X Y hxy.2

theorem joinComma_cons (x : List Char) (l : List (List Char)) :
    joinComma (x :: l) = x ++ l.flatMap (fun a => commaChar :: a) := by
  induction l generalizing x with
  | nil => simp [joinComma]
  | cons y l ih => simp [joinComma, ih]

theorem intercalate_go_data (acc s : String) (l : List String) :
    (String.intercalate.go acc s l).data
      = acc.data ++ l.flatMap (fun a => s.data ++ a.data) := by
  induction l generalizing acc with
  | nil => simp [String.intercalate.go]
  | cons a l ih => simp [String.intercalate.go, ih, String.data_append]

theorem intercalate_comma_data (l : List String) :
    (",".intercalate l).data = joinComma (l.map String.data) := by
  cases l with
  | nil => rfl
  | cons a l =>
    simp only [String.intercalate, intercalate_go_data, List.map_cons, joinComma_cons,
      List.flatMap_map]
    rfl

/-- Texts of a prefix code, joined by commas and closed by a character that
none of them starts with, decide the list of texts. -/
theorem joinComma_prefix {V : List Char → Prop} (hV : PrefixCode V) (close : Char)
    (hclose : close ≠ commaChar)
    (hhead : ∀ v, V v → ∃ x rest, v = x :: rest ∧ x ≠ close)
    (l l' : List (List Char)) (hl : ∀ v ∈ l, V v) (hl' : ∀ v ∈ l', V v) (r s : List Char)
    (h : joinComma l ++ close :: r = joinComma l' ++ close :: s) : l = l' ∧ r = s := by
  induction l generalizing l' with
  | nil =>
    cases l' with
    | nil => simpa [joinComma] using h
    | cons y l' =>
      obtain ⟨x, rest, hx, hne⟩ := hhead y (hl' y (List.mem_cons_self _ _))
      rw [joinComma_cons, hx] at h
      simp only [joinComma, List.nil_append, List.cons_append, List.cons.injEq] at h
      exact absurd h.1.symm hne
  | cons x l ih =>
    cases l' with
    | nil =>
      obtain ⟨c, rest, hx, hne⟩ := hhead x (hl x (List.mem_cons_self _ _))
      rw [joinComma_cons, hx] at h
      simp only [joinComma, List.nil_append, List.cons_append, List.cons.injEq] at h
      exact absurd h.1 hne
    | cons y l' =>
      have hx := hl x (List.mem_cons_self _ _)
      have hy := hl' y (List.mem_cons_self _ _)
      have hlt : ∀ v ∈ l, V v := fun v hv => hl v (List.mem_cons_of_mem _ hv)
      have hlt' : ∀ v ∈ l', V v := fun v hv => hl' v (List.mem_cons_of_mem _ hv)
      cases l with
      | nil =>
        cases l' with
        | nil =>
          simp only [joinComma] at h
          obtain ⟨h1, h2⟩ := hV _ _ _ _ hx hy h
          simp only [List.cons.injEq, true_and] at h2
          exact ⟨by rw [h1], h2⟩
        | cons y2 l' =>
          simp only [joinComma, List.append_assoc, List.cons_append] at h
          obtain ⟨_, h2⟩ := hV _ _ _ _ hx hy h
          simp only [List.cons.injEq] at h2
          exact absurd h2.1 hclose
      | cons x2 l =>
        cases l' with
        | nil =>
          simp only [joinComma, List.append_assoc, List.cons_append] at h
          obtain ⟨_, h2⟩ := hV _ _ _ _ hx hy h
          simp only [List.cons.injEq] at h2
          exact absurd h2.1.symm hclose
        | cons y2 l' =>
          simp only [joinComma, List.append_assoc, List.cons_append] at h
          obtain ⟨h1, h2⟩ := hV _ _ _ _ hx hy h
          simp only [List.cons.injEq, true_and] at h2
          obtain ⟨h3, h4⟩ := ih (y2 :: l') hlt hlt' h2
          exact ⟨by rw [h1, h3], h4⟩

/-- The same for the encodings of the elements of a list. -/
theorem joinComma_map_prefix {α : Type} (enc : α → List Char)
    (henc : ∀ a b r s, enc a ++ r = enc b ++ s → a = b ∧ r = s) (close : Char)
    (hclose : close ≠ commaChar)
    (hhead : ∀ a, ∃ x rest, enc a = x :: rest ∧ x ≠ close)
    (l l' : List α) (r s : List Char)
    (h : joinComma (l.map enc) ++ close :: r = joinComma (l'.map enc) ++ close :: s) :
    l = l' ∧ r = s := by
  have hV : PrefixCode (fun v => ∃ a, v = enc a) := by
    rintro v v' r s ⟨a, rfl⟩ ⟨b, rfl⟩ h
    obtain ⟨h1, h2⟩ := henc a b r s h
    exact ⟨by rw [h1], h2⟩
  have hinj : Function.Injective enc := by
    intro a b hab
    exact (henc a b [] [] (by rw [hab])).1
  obtain ⟨h1, h2⟩ := joinComma_prefix hV close hclose
    (by rintro v ⟨a, rfl⟩; exact hhead a) (l.map enc) (l'.map enc)
    (by intro v hv; obtain ⟨a, _, rfl⟩ := List.mem_map.1 hv; exact ⟨a, rfl⟩)
    (by intro v hv; obtain ⟨a, _, rfl⟩ := List.mem_map.1 hv; exact ⟨a, rfl⟩) r s h
  exact ⟨List.map_injective_iff.2 hinj h1, h2⟩

/-- Every text of a present field starts with the tag of one of the fields. -/
theorem presentTexts_tag (fs : List (List Char × Option (List Char))) :
    ∀ t ∈ presentTexts fs, ∃ f ∈ fs, ∃ v, f.2 = some v ∧ t = f.1 ++ v := by
  intro t ht
  obtain ⟨f, hf, hft⟩ := List.mem_filterMap.1 ht
  cases hv : f.2 with
  | none => rw [hv] at hft; simp at hft
  | some v =>
    rw [hv] at hft
    simp only [Option.map_some', Option.some.injEq] at hft
    exact ⟨f, hf, v, hv, hft.symm⟩

/-- The texts of the present fields decide which fields are present and their
values, when no tag can be mistaken for another. -/
theorem presentTexts_inj (fs fs' : List (List Char × Option (List Char)))
    (htags : fs.map Prod.fst = fs'.map Prod.fst)
    (hclash : (fs.map Prod.fst).Pairwise (fun a b => clash a b = true))
    (h : presentTexts fs = presentTexts fs') : fs = fs' := by
  induction fs generalizing fs' with
  | nil =>
    cases fs' with
    | nil => rfl
    | cons f' fs' => simp at htags
  | cons f fs ih =>
    cases fs' with
    | nil => simp at htags
    | cons f' fs' =>
      simp only [List.map_cons, List.cons.injEq] at htags
      obtain ⟨htag, htags⟩ := htags
      rw [List.map_cons, List.pairwise_cons] at hclash
      obtain ⟨hfirst, hrest⟩ := hclash
      obtain ⟨tag, o⟩ := f
      obtain ⟨tag', o'⟩ := f'
      simp only at htag
      subst htag
      have hno : ∀ (v : List Char) (gs : List (List Char × Option (List Char))),
          gs.map Prod.fst = fs.map Prod.fst → tag ++ v ∉ presentTexts gs := by
        intro v gs hgs hmem
        obtain ⟨g, hg, w, _, hgw⟩ := presentTexts_tag gs _ hmem
        have hg1 : g.1 ∈ fs.map Prod.fst := by
          rw [← hgs]; exact List.mem_map_of_mem _ hg
        exact clash_incompatible _ _ (hfirst _ hg1) v w hgw
      cases o with
      | none =>
        cases o' with
        | none =>
          have h' : presentTexts fs = presentTexts fs' := by
            simpa [presentTexts] using h
          rw [ih fs' htags hrest h']
        | some v' =>
          exfalso
          have h' : presentTexts fs = (tag ++ v') :: presentTexts fs' := by
            simpa [presentTexts] using h
          exact hno v' fs rfl (by rw [h']; exact List.mem_cons_self _ _)
      | some v =>
        cases o' with
        | none =>
          exfalso
          have h' : (tag ++ v) :: presentTexts fs = presentTexts fs' := by
            simpa [presentTexts] using h
          exact hno v fs' htags.symm (by rw [← h']; exact List.mem_cons_self _ _)
        | some v' =>
          have h' : (tag ++ v) :: presentTexts fs = (tag ++ v') :: presentTexts fs' := by
            simpa [presentTexts] using h
          simp only [List.cons.injEq, List.append_cancel_left_eq] at h'
          rw [ih fs' htags hrest h'.2, h'.1]


theorem pairwise_mem {α : Type} {R : α → α → Prop} {l : List α} (h : l.Pairwise R)
    {a b : α} (ha : a ∈ l) (hb : b ∈ l) : a = b ∨ R a b ∨ R b a := by
  induction h with
  | nil => simp at ha
  | cons hx _ ih =>
    rcases List.mem_cons.1 ha with rfl | ha'
    · rcases List.mem_cons.1 hb with rfl | hb'
      · exact Or.inl rfl
      · exact Or.inr (Or.inl (hx _ hb'))
    · rcases List.mem_cons.1 hb with rfl | hb'
      · exact Or.inr (Or.inr (hx _ ha'))
      · exact ih ha' hb'

/-- An object body: the fields that are present, each from a prefix code of
its own under a tag that cannot be mistaken for another, up to the closing
character, decide the fields. -/
theorem presentTexts_prefix (specs : List (List Char × (List Char → Prop)))
    (hclash : (specs.map Prod.fst).Pairwise (fun a b => clash a b = true))
    (close : Char) (hclose : close ≠ commaChar)
    (hhead : ∀ sp ∈ specs, ∃ x rest, sp.1 = x :: rest ∧ x ≠ close)
    (hcode : ∀ sp ∈ specs, PrefixCode sp.2)
    (fs fs' : List (List Char × Option (List Char)))
    (htags : fs.map Prod.fst = specs.map Prod.fst)
    (htags' : fs'.map Prod.fst = specs.map Prod.fst)
    (hfit : ∀ f ∈ fs, ∀ v, f.2 = some v → ∃ sp ∈ specs, sp.1 = f.1 ∧ sp.2 v)
    (hfit' : ∀ f ∈ fs', ∀ v, f.2 = some v → ∃ sp ∈ specs, sp.1 = f.1 ∧ sp.2 v)
    (r s : List Char)
    (h : joinComma (presentTexts fs) ++ close :: r
      = joinComma (presentTexts fs') ++ close :: s) : fs = fs' ∧ r = s := by
  have hpair : specs.Pairwise (fun a b => clash a.1 b.1 = true) := List.pairwise_map.1 hclash
  have hV : PrefixCode (fun t => ∃ sp ∈ specs, ∃ v, sp.2 v ∧ t = sp.1 ++ v) := by
    rintro t t' r s ⟨sp, hsp, v, hv, rfl⟩ ⟨sp', hsp', v', hv', rfl⟩ h
    rw [List.append_assoc, List.append_assoc] at h
    rcases pairwise_mem hpair hsp hsp' with heq | hc | hc
    · subst heq
      obtain ⟨h1, h2⟩ := hcode sp hsp _ _ _ _ hv hv' (List.append_cancel_left h)
      exact ⟨by rw [h1], h2⟩
    · exact absurd h (clash_incompatible _ _ hc _ _)
    · exact absurd h.symm (clash_incompatible _ _ hc _ _)
  have hmem : ∀ (gs : List (List Char × Option (List Char))),
      (∀ f ∈ gs, ∀ v, f.2 = some v → ∃ sp ∈ specs, sp.1 = f.1 ∧ sp.2 v) →
      ∀ t ∈ presentTexts gs, ∃ sp ∈ specs, ∃ v, sp.2 v ∧ t = sp.1 ++ v := by
    intro gs hgs t ht
    obtain ⟨f, hf, v, hfv, rfl⟩ := presentTexts_tag gs t ht
    obtain ⟨sp, hsp, h1, h2⟩ := hgs f hf v hfv
    exact ⟨sp, hsp, v, h2, by rw [h1]⟩
  obtain ⟨h1, h2⟩ := joinComma_prefix hV close hclose
    (by
      rintro t ⟨sp, hsp, v, _, rfl⟩
      obtain ⟨x, rest, hx, hne⟩ := hhead sp hsp
      exact ⟨x, rest ++ v, by rw [hx]; rfl, hne⟩)
    _ _ (hmem fs hfit) (hmem fs' hfit') r s h
  refine ⟨presentTexts_inj fs fs' (by rw [htags, htags']) (by rw [htags]; exact hclash) h1, h2⟩

theorem jsonArray_data (items : List String) :
    (jsonArray items).data
      = openBracket :: (joinComma (items.map String.data) ++ [closeBracket]) := by
  simp only [jsonArray, String.data_append, intercalate_comma_data]
  rfl

theorem jsonField_data (name : String) (e : Bool) (v : String) :
    (jsonField name e v).map String.data
      = (fieldText name e v).2.map (fun w => (fieldText name e v).1 ++ w) := by
  cases e <;> simp [jsonField, fieldText, fieldTag, String.data_append]

theorem jsonObject_data (fields : List (String × Bool × String)) :
    (jsonObject (fields.map (fun f => jsonField f.1 f.2.1 f.2.2))).data
      = openBrace :: (joinComma (presentTexts
          (fields.map (fun f => fieldText f.1 f.2.1 f.2.2))) ++ [closeBrace]) := by
  have h : ((fields.map (fun f => jsonField f.1 f.2.1 f.2.2)).filterMap id).map String.data
      = presentTexts (fields.map (fun f => fieldText f.1 f.2.1 f.2.2)) := by
    induction fields with
    | nil => rfl
    | cons f fields ih =>
      obtain ⟨name, e, v⟩ := f
      cases e
      · change List.map String.data (("\"" ++ name ++ "\":" ++ v) ::
            List.filterMap id (List.map (fun f => jsonField f.1 f.2.1 f.2.2) fields))
          = (fieldTag name ++ v.data) ::
            presentTexts (List.map (fun f => fieldText f.1 f.2.1 f.2.2) fields)
        rw [List.map_cons, ih, String.data_append]
        rfl
      · exact ih
  simp only [jsonObject, String.data_append, intercalate_comma_data, h]
  rfl

/-- Arrays of string literals are a prefix code, and the array decides the strings. -/
theorem jsonStrings_prefix (a b : List String) (r s : List Char)
    (h : (jsonStrings a).data ++ r = (jsonStrings b).data ++ s) : a = b ∧ r = s := by
  simp only [jsonStrings, jsonArray_data, List.map_map, List.cons_append, List.append_assoc,
    List.cons.injEq, true_and, List.nil_append] at h
  exact joinComma_map_prefix (fun x => (jsonString x).data) jsonString_prefix closeBracket
    (by decide) (fun x => ⟨quoteChar, _, jsonString_data x, by decide⟩) a b r s h


theorem codeOf_prefix {α : Type} (enc : α → String)
    (henc : ∀ a b r s, (enc a).data ++ r = (enc b).data ++ s → a = b ∧ r = s) :
    PrefixCode (codeOf enc) := by
  rintro v v' r s ⟨a, rfl⟩ ⟨b, rfl⟩ h
  obtain ⟨h1, h2⟩ := henc a b r s h
  exact ⟨by rw [h1], h2⟩

/-- A field that is left out exactly for the one empty value decides its value. -/
theorem fieldText_inj {α : Type} (enc : α → String) (empty : α → Bool)
    (hempty : ∀ a b, empty a = true → empty b = true → a = b)
    (henc : ∀ a b r s, (enc a).data ++ r = (enc b).data ++ s → a = b ∧ r = s)
    (n : String) (x y : α)
    (h : fieldText n (empty x) (enc x) = fieldText n (empty y) (enc y)) : x = y := by
  have h2 := congrArg Prod.snd h
  simp only [fieldText] at h2
  cases hx : empty x <;> cases hy : empty y <;> simp only [hx, hy, Bool.false_eq_true, if_true,
    if_false, Option.some.injEq] at h2
  · exact (henc x y [] [] (by rw [h2])).1
  · exact absurd h2 (by simp)
  · exact absurd h2 (by simp)
  · exact hempty x y hx hy

theorem fieldText_fit {α : Type} (enc : α → String) (n : String) (e : Bool) (x : α)
    (specs : List (List Char × (List Char → Prop)))
    (hspec : (fieldTag n, codeOf enc) ∈ specs) :
    ∀ v, (fieldText n e (enc x)).2 = some v →
      ∃ sp ∈ specs, sp.1 = (fieldText n e (enc x)).1 ∧ sp.2 v := by
  intro v hv
  refine ⟨_, hspec, rfl, ?_⟩
  cases e
  · simp only [fieldText, Bool.false_eq_true, if_false, Option.some.injEq] at hv
    exact ⟨x, hv.symm⟩
  · simp [fieldText] at hv

theorem string_isEmpty_unique (a b : String) (ha : a.data.isEmpty = true)
    (hb : b.data.isEmpty = true) : a = b := by
  cases a with
  | mk x =>
    cases b with
    | mk y =>
      cases x <;> cases y <;> simp_all

theorem list_isEmpty_unique {α : Type} (a b : List α) (ha : a.isEmpty = true)
    (hb : b.isEmpty = true) : a = b := by
  cases a <;> cases b <;> simp_all

theorem jsonBool_prefix (a b : Bool) (r s : List Char)
    (h : (jsonBool a).data ++ r = (jsonBool b).data ++ s) : a = b ∧ r = s := by
  cases a <;> cases b
  · exact ⟨rfl, List.append_cancel_left h⟩
  · exact absurd (List.head_eq_of_cons_eq h) (by decide)
  · exact absurd (List.head_eq_of_cons_eq h) (by decide)
  · exact ⟨rfl, List.append_cancel_left h⟩

/-- The text of an entry, from its fields. -/
theorem jsonIDPaths_data (e : idPathsJSON) :
    (jsonIDPaths e).data
      = openBrace :: (joinComma (presentTexts (entryFields e)) ++ [closeBrace]) :=
  jsonObject_data
    [ ("id", e.ID.data.isEmpty, jsonString e.ID),
      ("paths", e.Paths.isEmpty, jsonStrings e.Paths) ]

theorem entryFields_fit (e : idPathsJSON) :
    ∀ f ∈ entryFields e, ∀ v, f.2 = some v → ∃ sp ∈ entrySpecs, sp.1 = f.1 ∧ sp.2 v := by
  intro f hf
  simp only [entryFields, List.mem_cons, List.mem_singleton, List.not_mem_nil, or_false] at hf
  rcases hf with rfl | rfl
  · exact fieldText_fit jsonString _ _ _ _ (by simp [entrySpecs])
  · exact fieldText_fit jsonStrings _ _ _ _ (by simp [entrySpecs])

/-- The entries are a prefix code, and the text decides the entry. -/
theorem jsonIDPaths_prefix (a b : idPathsJSON) (r s : List Char)
    (h : (jsonIDPaths a).data ++ r = (jsonIDPaths b).data ++ s) : a = b ∧ r = s := by
  rw [jsonIDPaths_data, jsonIDPaths_data] at h
  simp only [List.cons_append, List.append_assoc, List.cons.injEq, true_and,
    List.nil_append] at h
  obtain ⟨hf, hr⟩ := presentTexts_prefix entrySpecs (by decide) closeBrace (by decide)
    (by
      intro sp hsp
      simp only [entrySpecs, List.mem_cons, List.mem_singleton, List.not_mem_nil,
        or_false] at hsp
      rcases hsp with rfl | rfl
      · exact ⟨quoteChar, _, rfl, by decide⟩
      · exact ⟨quoteChar, _, rfl, by decide⟩)
    (by
      intro sp hsp
      simp only [entrySpecs, List.mem_cons, List.mem_singleton, List.not_mem_nil,
        or_false] at hsp
      rcases hsp with rfl | rfl
      · exact codeOf_prefix _ jsonString_prefix
      · exact codeOf_prefix _ jsonStrings_prefix)
    (entryFields a) (entryFields b) rfl rfl (entryFields_fit a) (entryFields_fit b) r s h
  refine ⟨?_, hr⟩
  simp only [entryFields, List.cons.injEq, and_true] at hf
  have h1 : a.ID = b.ID :=
    fieldText_inj jsonString (fun x => x.data.isEmpty) string_isEmpty_unique jsonString_prefix
      "id" a.ID b.ID hf.1
  have h2 : a.Paths = b.Paths :=
    fieldText_inj jsonStrings List.isEmpty list_isEmpty_unique jsonStrings_prefix
      "paths" a.Paths b.Paths hf.2
  cases a; cases b; simp_all

theorem jsonIDPaths_head (e : idPathsJSON) :
    ∃ x rest, (jsonIDPaths e).data = x :: rest ∧ x ≠ closeBracket :=
  ⟨openBrace, _, jsonIDPaths_data e, by decide⟩

/-- Arrays of entries are a prefix code, and the array decides the entries. -/
theorem jsonEntries_prefix (a b : List idPathsJSON) (r s : List Char)
    (h : (jsonEntries a).data ++ r = (jsonEntries b).data ++ s) : a = b ∧ r = s := by
  simp only [jsonEntries, jsonArray_data, List.map_map, List.cons_append, List.append_assoc,
    List.cons.injEq, true_and, List.nil_append] at h
  exact joinComma_map_prefix (fun x => (jsonIDPaths x).data) jsonIDPaths_prefix closeBracket
    (by decide) jsonIDPaths_head a b r s h

/-- The marshalled text, from the fields of the structure. -/
theorem jsonMarshal_data (c : configJSON) :
    (jsonMarshal c).data
      = openBrace :: (joinComma (presentTexts (configFields c)) ++ [closeBrace]) :=
  jsonObject_data
    [ ("use", c.Use.isEmpty, jsonStrings c.Use),
      ("except", c.Except.isEmpty, jsonStrings c.Except),
      ("ignore_root_paths", c.IgnoreRootPaths.isEmpty, jsonStrings c.IgnoreRootPaths),
      ("ignore_id_to_root_paths", c.IgnoreIDOrCategoryToRootPaths.isEmpty,
        jsonEntries c.IgnoreIDOrCategoryToRootPaths),
      ("ignore_unstable_packages", !c.IgnoreUnstablePackages,
        jsonBool c.IgnoreUnstablePackages),
      ("version", c.Version.data.isEmpty, jsonString c.Version) ]

theorem configFields_fit (c : configJSON) :
    ∀ f ∈ configFields c, ∀ v, f.2 = some v → ∃ sp ∈ configSpecs, sp.1 = f.1 ∧ sp.2 v := by
  intro f hf
  simp only [configFields, List.mem_cons, List.mem_singleton, List.not_mem_nil, or_false] at hf
  rcases hf with rfl | rfl | rfl | rfl | rfl | rfl
  · exact fieldText_fit jsonStrings _ _ _ _ (by simp [configSpecs])
  · exact fieldText_fit jsonStrings _ _ _ _ (by simp [configSpecs])
  · exact fieldText_fit jsonStrings _ _ _ _ (by simp [configSpecs])
  · exact fieldText_fit jsonEntries _ _ _ _ (by simp [configSpecs])
  · exact fieldText_fit jsonBool _ _ _ _ (by simp [configSpecs])
  · exact fieldText_fit jsonString _ _ _ _ (by simp [configSpecs])

/-- The marshalled text decides the structure that was marshalled. -/
theorem jsonMarshal_injective (a b : configJSON) (h : jsonMarshal a = jsonMarshal b) :
    a = b := by
  have h := congrArg String.data h
  rw [jsonMarshal_data, jsonMarshal_data] at h
  simp only [List.cons.injEq, true_and] at h
  obtain ⟨hf, -⟩ := presentTexts_prefix configSpecs (by decide) closeBrace (by decide)
    (by
      intro sp hsp
      simp only [configSpecs, List.mem_cons, List.mem_singleton, List.not_mem_nil,
        or_false] at hsp
      rcases hsp with rfl | rfl | rfl | rfl | rfl | rfl <;>
        exact ⟨quoteChar, _, rfl, by decide⟩)
    (by
      intro sp hsp
      simp only [configSpecs, List.mem_cons, List.mem_singleton, List.not_mem_nil,
        or_false] at hsp
      rcases hsp with rfl | rfl | rfl | rfl | rfl | rfl
      · exact codeOf_prefix _ jsonStrings_prefix
      · exact codeOf_prefix _ jsonStrings_prefix
      · exact codeOf_prefix _ jsonStrings_prefix
      · exact codeOf_prefix _ jsonEntries_prefix
      · exact codeOf_prefix _ jsonBool_prefix
      · exact codeOf_prefix _ jsonString_prefix)
    (configFields a) (configFields b) rfl rfl (configFields_fit a) (configFields_fit b)
    [] [] h
  simp only [configFields, List.cons.injEq, and_true] at hf
  obtain ⟨f1, f2, f3, f4, f5, f6⟩ := hf
  have h1 : a.Use = b.Use :=
    fieldText_inj jsonStrings List.isEmpty list_isEmpty_unique jsonStrings_prefix _ _ _ f1
  have h2 : a.Except = b.Except :=
    fieldText_inj jsonStrings List.isEmpty list_isEmpty_unique jsonStrings_prefix _ _ _ f2
  have h3 : a.IgnoreRootPaths = b.IgnoreRootPaths :=
    fieldText_inj jsonStrings List.isEmpty list_isEmpty_unique jsonStrings_prefix _ _ _ f3
  have h4 : a.IgnoreIDOrCategoryToRootPaths = b.IgnoreIDOrCategoryToRootPaths :=
    fieldText_inj jsonEntries List.isEmpty list_isEmpty_unique jsonEntries_prefix _ _ _ f4
  have h5 : a.IgnoreUnstablePackages = b.IgnoreUnstablePackages :=
    fieldText_inj jsonBool (fun x => !x) (by decide) jsonBool_prefix _ _ _ f5
  have h6 : a.Version = b.Version :=
    fieldText_inj jsonString (fun x => x.data.isEmpty) string_isEmpty_unique jsonString_prefix
      _ _ _ f6
  cases a; cases b; simp_all

theorem lookupEntry_mem {key : String} {p : List String} {l : List (String × List String)}
    (h : lookupEntry key l = some p) : (key, p) ∈ l := by
  induction l with
  | nil => simp [lookupEntry] at h
  | cons e l ih =>
    by_cases he : e.1 = key
    · simp only [lookupEntry, if_pos he, Option.some.injEq] at h
      rw [← he, ← h]
      exact List.mem_cons_self _ _
    · simp only [lookupEntry, if_neg he] at h
      exact List.mem_cons_of_mem _ (ih h)

theorem lookupEntry_of_mem {key : String} {p : List String} {l : List (String × List String)}
    (hnd : (l.map Prod.fst).Nodup) (h : (key, p) ∈ l) : lookupEntry key l = some p := by
  induction l with
  | nil => simp at h
  | cons e l ih =>
    rw [List.map_cons, List.nodup_cons] at hnd
    rcases List.mem_cons.1 h with h' | h'
    · rw [← h']
      simp [lookupEntry]
    · have hne : ¬ e.1 = key := by
        intro he
        apply hnd.1
        rw [he]
        exact List.mem_map_of_mem Prod.fst h'
      simp only [lookupEntry, if_neg hne]
      exact ih hnd.2 h'

theorem lookupEntry_isSome {key : String} {l : List (String × List String)} :
    (lookupEntry key l).isSome = true ↔ key ∈ l.map Prod.fst := by
  constructor
  · intro h
    obtain ⟨p, hp⟩ := Option.isSome_iff_exists.1 h
    exact List.mem_map_of_mem Prod.fst (lookupEntry_mem hp)
  · intro h
    by_contra hn
    have hnone : lookupEntry key l = none := by
      cases hl : lookupEntry key l with
      | none => rfl
      | some p => rw [hl] at hn; simp at hn
    induction l with
    | nil => simp at h
    | cons e l ih =>
      by_cases he : e.1 = key
      · simp [lookupEntry, he] at hnone
      · simp only [lookupEntry, if_neg he] at hnone
        simp only [List.map_cons, List.mem_cons] at h
        rcases h with h | h
        · exact he h.symm
        · exact ih h (by rw [hnone]; simp) hnone

/-- On Configs that hold each slice as a list of its own: when `BytesForConfig`
returns equal bytes for `A` and `B`, then `A` and `B` have the same version and
the same `IgnoreUnstablePackages`, their `Use`, `Except` and `IgnoreRootPaths`
are equal as multisets, their maps hold a value under the same keys, and under
each key the two path lists are equal as multisets. -/
theorem bytesForConfig_sound_fingerprint (A B : Config)
    (h : (BytesForConfig (some A)).bytes = (BytesForConfig (some B)).bytes) :
    A.Version = B.Version ∧
    A.IgnoreUnstablePackages = B.IgnoreUnstablePackages ∧
    A.Use.Perm B.Use ∧ A.Except.Perm B.Except ∧
    A.IgnoreRootPaths.Perm B.IgnoreRootPaths ∧
    (∀ key, (mapGet A.IgnoreIDOrCategoryToRootPaths key).isSome
      = (mapGet B.IgnoreIDOrCategoryToRootPaths key).isSome) ∧
    (∀ key pa pb, mapGet A.IgnoreIDOrCategoryToRootPaths key = some pa →
      mapGet B.IgnoreIDOrCategoryToRootPaths key = some pb → pa.Perm pb) := by
  have hj : (configToJSON A).1 = (configToJSON B).1 :=
    jsonMarshal_injective _ _ (Option.some.inj h)
  have hperm : ∀ {x y : List String}, sortStrings x = sortStrings y → x.Perm y := by
    intro x y hxy
    have hx := sortStrings_perm x
    rw [hxy] at hx
    exact hx.symm.trans (sortStrings_perm y)
  have hU : sortStrings A.Use = sortStrings B.Use := congrArg configJSON.Use hj
  have hX : sortStrings A.Except = sortStrings B.Except := congrArg configJSON.Except hj
  have hR : sortStrings A.IgnoreRootPaths = sortStrings B.IgnoreRootPaths :=
    congrArg configJSON.IgnoreRootPaths hj
  have hF : A.IgnoreUnstablePackages = B.IgnoreUnstablePackages :=
    congrArg configJSON.IgnoreUnstablePackages hj
  have hV : A.Version = B.Version := congrArg configJSON.Version hj
  have hE : sortByID ((mapEntries A.IgnoreIDOrCategoryToRootPaths).map
        (fun e => ({ ID := e.1, Paths := sortStrings e.2 } : idPathsJSON)))
      = sortByID ((mapEntries B.IgnoreIDOrCategoryToRootPaths).map
        (fun e => ({ ID := e.1, Paths := sortStrings e.2 } : idPathsJSON))) :=
    congrArg configJSON.IgnoreIDOrCategoryToRootPaths hj
  have hP : ((mapEntries A.IgnoreIDOrCategoryToRootPaths).map
        (fun e => ({ ID := e.1, Paths := sortStrings e.2 } : idPathsJSON))).Perm
      ((mapEntries B.IgnoreIDOrCategoryToRootPaths).map
        (fun e => ({ ID := e.1, Paths := sortStrings e.2 } : idPathsJSON))) := by
    have hx := sortByID_perm ((mapEntries A.IgnoreIDOrCategoryToRootPaths).map
        (fun e => ({ ID := e.1, Paths := sortStrings e.2 } : idPathsJSON)))
    rw [hE] at hx
    exact hx.symm.trans (sortByID_perm _)
  have hK : ((mapEntries A.IgnoreIDOrCategoryToRootPaths).map Prod.fst).Perm
      ((mapEntries B.IgnoreIDOrCategoryToRootPaths).map Prod.fst) := by
    have hx := hP.map idPathsJSON.ID
    rwa [map_ID_entries, map_ID_entries] at hx
  refine ⟨hV, hF, hperm hU, hperm hX, hperm hR, ?_, ?_⟩
  · intro key
    rw [Bool.eq_iff_iff]
    unfold mapGet
    rw [lookupEntry_isSome, lookupEntry_isSome]
    exact hK.mem_iff
  · intro key pa pb ha hb
    have hma : (key, pa) ∈ mapEntries A.IgnoreIDOrCategoryToRootPaths := lookupEntry_mem ha
    have hmem : ({ ID := key, Paths := sortStrings pa } : idPathsJSON) ∈
        (mapEntries B.IgnoreIDOrCategoryToRootPaths).map
          (fun e => ({ ID := e.1, Paths := sortStrings e.2 } : idPathsJSON)) :=
      hP.mem_iff.1 (List.mem_map.2 ⟨(key, pa), hma, rfl⟩)
    obtain ⟨e, he, heq⟩ := List.mem_map.1 hmem
    obtain ⟨k, p⟩ := e
    simp only [idPathsJSON.mk.injEq] at heq
    obtain ⟨hk, hp⟩ := heq
    subst hk
    have hb2 : lookupEntry k (mapEntries B.IgnoreIDOrCategoryToRootPaths) = some p :=
      lookupEntry_of_mem (mapEntries_nodup _) he
    have hpb : p = pb := by
      unfold mapGet at hb
      rw [hb2] at hb
      exact Option.some.inj hb
    subst hpb
    exact (hperm hp).symm

/-! ## Slices that share storage, and slices that do not -/

theorem slice_read_length (s : Mem.Slice) (mem : Mem.Memory) : (s.read mem).length = s.len := by
  simp [Mem.Slice.read]

theorem range_map_getD (l : List String) :
    (List.range l.length).map (fun i => l.getD i "") = l := by
  apply List.ext_getElem
  · simp
  · intro i h1 h2
    simp [List.getD_eq_getElem?_getD, List.getElem?_eq_getElem h2]

/-- After `sort.Strings(s)` the slice `s` holds its elements in ascending order. -/
theorem read_sortStrings_self (mem : Mem.Memory) (s : Mem.Slice) :
    s.read (Mem.sortStrings mem s) = sortStrings (s.read mem) := by
  have hlen : (sortStrings (s.read mem)).length = s.len := by
    rw [(sortStrings_perm _).length_eq, slice_read_length]
  have h : s.read (Mem.sortStrings mem s)
      = (List.range s.len).map (fun i => (sortStrings (s.read mem)).getD i "") := by
    unfold Mem.Slice.read
    apply List.map_congr_left
    intro i hi
    have hi' : i < s.len := List.mem_range.1 hi
    have hc : s.addr ≤ s.addr + i ∧ s.addr + i < s.addr + s.len := ⟨by omega, by omega⟩
    simp only [Mem.sortStrings, if_pos hc, Nat.add_sub_cancel_left]
    rfl
  rw [h]
  conv_lhs => rw [← hlen]
  exact range_map_getD _

/-- `sort.Strings(s)` leaves a slice that shares no element with `s` as it was. -/
theorem read_sortStrings_disjoint (mem : Mem.Memory) {s t : Mem.Slice} (h : s.Disjoint t) :
    t.read (Mem.sortStrings mem s) = t.read mem := by
  unfold Mem.Slice.read
  apply List.map_congr_left
  intro i hi
  have hi' : i < t.len := List.mem_range.1 hi
  have hc : ¬ (s.addr ≤ t.addr + i ∧ t.addr + i < s.addr + s.len) := by
    unfold Mem.Slice.Disjoint at h
    omega
  simp only [Mem.sortStrings, if_neg hc]

theorem disjoint_symm {s t : Mem.Slice} (h : s.Disjoint t) : t.Disjoint s := by
  unfold Mem.Slice.Disjoint at h ⊢
  omega

/-- Sorting slices one after the other leaves a slice that shares no element
with any of them as it was. -/
theorem read_foldl_sortStrings_disjoint (l : List Mem.Slice) (mem : Mem.Memory) (t : Mem.Slice)
    (h : ∀ s ∈ l, s.Disjoint t) : t.read (l.foldl Mem.sortStrings mem) = t.read mem := by
  induction l generalizing mem with
  | nil => rfl
  | cons s l ih =>
    rw [List.foldl_cons, ih _ (fun x hx => h x (List.mem_cons_of_mem _ hx)),
      read_sortStrings_disjoint mem (h s (List.mem_cons_self _ _))]

/-- Sorting slices that share no storage one after the other leaves each of
them holding its own elements in ascending order. -/
theorem read_foldl_sortStrings_mem (l : List Mem.Slice) (mem : Mem.Memory)
    (hl : l.Pairwise Mem.Slice.Disjoint) (s : Mem.Slice) (hs : s ∈ l) :
    s.read (l.foldl Mem.sortStrings mem) = sortStrings (s.read mem) := by
  induction l generalizing mem with
  | nil => simp at hs
  | cons x l ih =>
    rw [List.pairwise_cons] at hl
    rw [List.foldl_cons]
    rcases List.mem_cons.1 hs with hx | hx
    · subst hx
      rw [read_foldl_sortStrings_disjoint l _ s (fun y hy => disjoint_symm (hl.1 y hy)),
        read_sortStrings_self]
    · rw [ih _ hl.2 hx, read_sortStrings_disjoint mem (hl.1 s hx)]

/-- The memory after `configToJSON`: the slices of the Config have been sorted
one after the other. -/
theorem configToJSON_memory (mem : Mem.Memory) (c : Mem.Config) :
    (Mem.configToJSON mem c).2 = c.slices.foldl Mem.sortStrings mem := by
  simp only [Mem.configToJSON, Mem.Config.slices, List.foldl_append, List.foldl_map,
    List.foldl_cons, List.foldl_nil]

theorem mapEntries_read (c : Mem.Config) (mem : Mem.Memory) :
    mapEntries (c.read mem).IgnoreIDOrCategoryToRootPaths
      = (Mem.mapEntries c.IgnoreIDOrCategoryToRootPaths).map (fun e => (e.1, e.2.read mem)) := by
  cases h : c.IgnoreIDOrCategoryToRootPaths <;> simp [Mem.Config.read, h, mapEntries, Mem.mapEntries]

/-- On a Config whose slices share no storage, the struct that is marshalled
holds what `configToJSON` on the elements gives. -/
theorem configToJSON_separate (mem : Mem.Memory) (c : Mem.Config) (h : c.Separate) :
    (Mem.configToJSON mem c).1.read (Mem.configToJSON mem c).2
      = (configToJSON (c.read mem)).1 := by
  have hm := configToJSON_memory mem c
  have hread : ∀ s ∈ c.slices, s.read (Mem.configToJSON mem c).2 = sortStrings (s.read mem) := by
    intro s hs
    rw [hm]
    exact read_foldl_sortStrings_mem _ mem h s hs
  have hU := hread c.Use (by simp [Mem.Config.slices])
  have hX := hread c.Except (by simp [Mem.Config.slices])
  have hR := hread c.IgnoreRootPaths (by simp [Mem.Config.slices])
  have hE : ∀ e ∈ Mem.mapEntries c.IgnoreIDOrCategoryToRootPaths,
      e.2.read (Mem.configToJSON mem c).2 = sortStrings (e.2.read mem) := by
    intro e he
    exact hread e.2 (by
      simp only [Mem.Config.slices, List.mem_append, List.mem_map]
      exact Or.inl ⟨e, he, rfl⟩)
  have hentries : (Mem.configToJSON mem c).1.IgnoreIDOrCategoryToRootPaths.map
        (fun e => e.read (Mem.configToJSON mem c).2)
      = (configToJSON (c.read mem)).1.IgnoreIDOrCategoryToRootPaths := by
    show (Mem.sortByID ((Mem.mapEntries c.IgnoreIDOrCategoryToRootPaths).map
          (fun e => ({ ID := e.1, Paths := e.2 } : Mem.idPathsJSON)))).map
          (fun e => e.read (Mem.configToJSON mem c).2)
      = sortByID ((mapEntries (c.read mem).IgnoreIDOrCategoryToRootPaths).map
          (fun e => ({ ID := e.1, Paths := sortStrings e.2 } : idPathsJSON)))
    unfold Mem.sortByID sortByID
    rw [List.map_insertionSort (fun a b => strLE a.ID b.ID) (fun a b => strLE a.ID b.ID)
      (fun e : Mem.idPathsJSON => e.read (Mem.configToJSON mem c).2) _
      (fun a _ b _ => Iff.rfl)]
    rw [mapEntries_read, List.map_map, List.map_map]
    congr 1
    apply List.map_congr_left
    intro e he
    simp only [Function.comp, Mem.idPathsJSON.read, hE e he]
  show ({ Use := c.Use.read (Mem.configToJSON mem c).2
          Except := c.Except.read (Mem.configToJSON mem c).2
          IgnoreRootPaths := c.IgnoreRootPaths.read (Mem.configToJSON mem c).2
          IgnoreIDOrCategoryToRootPaths :=
            (Mem.configToJSON mem c).1.IgnoreIDOrCategoryToRootPaths.map
              (fun e => e.read (Mem.configToJSON mem c).2)
          IgnoreUnstablePackages := c.IgnoreUnstablePackages
          Version := c.Version } : configJSON) = _
  rw [hU, hX, hR, hentries]
  rfl

/-- On a Config whose slices share no storage, the Config holds after the call
what `configToJSON` on the elements leaves. -/
theorem configToJSON_separate_config (mem : Mem.Memory) (c : Mem.Config) (h : c.Separate) :
    c.read (Mem.configToJSON mem c).2 = (configToJSON (c.read mem)).2 := by
  have hm := configToJSON_memory mem c
  have hread : ∀ s ∈ c.slices, s.read (Mem.configToJSON mem c).2 = sortStrings (s.read mem) := by
    intro s hs
    rw [hm]
    exact read_foldl_sortStrings_mem _ mem h s hs
  have hU := hread c.Use (by simp [Mem.Config.slices])
  have hX := hread c.Except (by simp [Mem.Config.slices])
  have hR := hread c.IgnoreRootPaths (by simp [Mem.Config.slices])
  have hE : ∀ e ∈ Mem.mapEntries c.IgnoreIDOrCategoryToRootPaths,
      e.2.read (Mem.configToJSON mem c).2 = sortStrings (e.2.read mem) := by
    intro e he
    exact hread e.2 (by
      simp only [Mem.Config.slices, List.mem_append, List.mem_map]
      exact Or.inl ⟨e, he, rfl⟩)
  obtain ⟨u, x, i, m, b, v⟩ := c
  cases m with
  | none =>
    simp only [Mem.Config.read, configToJSON, Option.map_none'] at hU hX hR ⊢
    rw [hU, hX, hR]
  | some m =>
    have hentries : m.entries.map (fun e => (e.1, e.2.read (Mem.configToJSON mem ⟨u, x, i, some m, b, v⟩).2))
        = (m.entries.map (fun e => (e.1, e.2.read mem))).map (fun e => (e.1, sortStrings e.2)) := by
      rw [List.map_map]
      apply List.map_congr_left
      intro e he
      simp only [Function.comp, hE e he]
    simp only [Mem.Config.read, configToJSON, Option.map_some', PathsMap.sortPaths] at hU hX hR ⊢
    simp only [hU, hX, hR, hentries]

/-- On a Config whose slices share no storage, `BytesForConfig` returns the
bytes of the Config that holds the elements. -/
theorem bytesForConfig_separate (mem : Mem.Memory) (c : Mem.Config) (h : c.Separate) :
    (Mem.BytesForConfig mem (some c)).bytes = (BytesForConfig (some (c.read mem))).bytes ∧
    (Mem.BytesForConfig mem (some c)).err = (BytesForConfig (some (c.read mem))).err ∧
    some (c.read (Mem.BytesForConfig mem (some c)).memory)
      = (BytesForConfig (some (c.read mem))).config := by
  refine ⟨?_, rfl, ?_⟩
  · show some (jsonMarshal ((Mem.configToJSON mem c).1.read (Mem.configToJSON mem c).2)) = _
    rw [configToJSON_separate mem c h]
    rfl
  · show some (c.read (Mem.configToJSON mem c).2) = _
    rw [configToJSON_separate_config mem c h]
    rfl

/-- C2, as stated, fails when path lists share storage. The map holds under `X`
the window `[0:2]` and under `Y` the window `[1:3]` of the array `c, a, b`.
Enumerated `X`, `Y` the bytes hold `X: [a, b]`, `Y: [b, c]`; the same map
enumerated `Y`, `X` gives `X: [a, c]`, `Y: [c, b]`. -/
theorem bytesForConfig_shared_order_dependent :
    (sampleSharedMapXY.read sampleMemory).Rearranged (sampleSharedMapYX.read sampleMemory) ∧
    (Mem.BytesForConfig sampleMemory (some sampleSharedMapXY)).bytes
      = some "\x7b\"ignore_id_to_root_paths\":[\x7b\"id\":\"X\",\"paths\":[\"a\",\"b\"]\x7d,\x7b\"id\":\"Y\",\"paths\":[\"b\",\"c\"]\x7d]\x7d" ∧
    (Mem.BytesForConfig sampleMemory (some sampleSharedMapYX)).bytes
      = some "\x7b\"ignore_id_to_root_paths\":[\x7b\"id\":\"X\",\"paths\":[\"a\",\"c\"]\x7d,\x7b\"id\":\"Y\",\"paths\":[\"c\",\"b\"]\x7d]\x7d" ∧
    (Mem.BytesForConfig sampleMemory (some sampleSharedMapXY)).bytes
      ≠ (Mem.BytesForConfig sampleMemory (some sampleSharedMapYX)).bytes := by
  have h1 : (Mem.BytesForConfig sampleMemory (some sampleSharedMapXY)).bytes
      = some "\x7b\"ignore_id_to_root_paths\":[\x7b\"id\":\"X\",\"paths\":[\"a\",\"b\"]\x7d,\x7b\"id\":\"Y\",\"paths\":[\"b\",\"c\"]\x7d]\x7d" := by
    decide
  have h2 : (Mem.BytesForConfig sampleMemory (some sampleSharedMapYX)).bytes
      = some "\x7b\"ignore_id_to_root_paths\":[\x7b\"id\":\"X\",\"paths\":[\"a\",\"c\"]\x7d,\x7b\"id\":\"Y\",\"paths\":[\"c\",\"b\"]\x7d]\x7d" := by
    decide
  refine ⟨⟨by decide, by decide, by decide,
      ⟨[("Y", ["a", "b"]), ("X", ["c", "a"])], by decide,
        List.Forall₂.cons ⟨rfl, by decide⟩ (List.Forall₂.cons ⟨rfl, by decide⟩ List.Forall₂.nil)⟩,
      rfl, rfl⟩, h1, h2, ?_⟩
  rw [h1, h2]
  decide

/-- C2, amended: for two Configs whose slices share no storage and that are
equal up to the order of `use`, `except`, `ignoreRootPaths`, the order in which
the entries of the map are enumerated and the order inside each path list,
`BytesForConfig` returns identical bytes and no error. -/
theorem bytesForConfig_separate_order_independent (memA memB : Mem.Memory)
    (A B : Mem.Config) (hA : A.Separate) (hB : B.Separate)
    (h : (A.read memA).Rearranged (B.read memB)) :
    ∃ bytes, (Mem.BytesForConfig memA (some A)).bytes = some bytes ∧
      (Mem.BytesForConfig memB (some B)).bytes = some bytes ∧
      (Mem.BytesForConfig memA (some A)).err = none ∧
      (Mem.BytesForConfig memB (some B)).err = none := by
  refine ⟨jsonMarshal (configToJSON (A.read memA)).1, ?_, ?_, rfl, rfl⟩
  · rw [(bytesForConfig_separate memA A hA).1]
    rfl
  · rw [(bytesForConfig_separate memB B hB).1]
    show some (jsonMarshal (configToJSON (B.read memB)).1) = _
    rw [configToJSON_rearranged h]

/-- The Configs `sampleSeparateXY` and `sampleSeparateYX` hold the same map,
enumerated in two orders, in arrays of their own: their bytes are the same. -/
theorem bytesForConfig_separate_order_independent_witness :
    (sampleSeparateXY.Separate ∧ sampleSeparateYX.Separate ∧
      (sampleSeparateXY.read sampleMemory).Rearranged (sampleSeparateYX.read sampleMemory)) ∧
    ∃ bytes, (Mem.BytesForConfig sampleMemory (some sampleSeparateXY)).bytes = some bytes ∧
      (Mem.BytesForConfig sampleMemory (some sampleSeparateYX)).bytes = some bytes ∧
      (Mem.BytesForConfig sampleMemory (some sampleSeparateXY)).err = none ∧
      (Mem.BytesForConfig sampleMemory (some sampleSeparateYX)).err = none :=
  have hA : sampleSeparateXY.Separate := by decide
  have hB : sampleSeparateYX.Separate := by decide
  have h : (sampleSeparateXY.read sampleMemory).Rearranged
      (sampleSeparateYX.read sampleMemory) :=
    ⟨by decide, by decide, by decide,
      ⟨[("Y", ["b", "c"]), ("X", ["a", "b"])], by decide,
        List.Forall₂.cons ⟨rfl, by decide⟩ (List.Forall₂.cons ⟨rfl, by decide⟩ List.Forall₂.nil)⟩,
      rfl, rfl⟩
  ⟨⟨hA, hB, h⟩,
    bytesForConfig_separate_order_independent sampleMemory sampleMemory
      sampleSeparateXY sampleSeparateYX hA hB h⟩

/-- C3, amended: `BytesForConfig` sorts the Config it is given where it is. For
every non-nil Config whose slices share no storage, after the call `use`,
`except`, `ignoreRootPaths` and every path list of the map hold the elements
they held before, with the same multiplicities, in ascending order; the map has
the same keys, and nil-ness, `ignoreUnstablePackages` and `version` are as
before. -/
theorem bytesForConfig_separate_sorts_in_place (mem : Mem.Memory) (c : Mem.Config)
    (h : c.Separate) :
    ((c.read (Mem.BytesForConfig mem (some c)).memory).Use.Perm (c.read mem).Use ∧
      (c.read (Mem.BytesForConfig mem (some c)).memory).Use.Pairwise strLE) ∧
    ((c.read (Mem.BytesForConfig mem (some c)).memory).Except.Perm (c.read mem).Except ∧
      (c.read (Mem.BytesForConfig mem (some c)).memory).Except.Pairwise strLE) ∧
    ((c.read (Mem.BytesForConfig mem (some c)).memory).IgnoreRootPaths.Perm
        (c.read mem).IgnoreRootPaths ∧
      (c.read (Mem.BytesForConfig mem (some c)).memory).IgnoreRootPaths.Pairwise strLE) ∧
    List.Forall₂ (fun x y => y.1 = x.1 ∧ y.2.Perm x.2 ∧ y.2.Pairwise strLE)
      (mapEntries (c.read mem).IgnoreIDOrCategoryToRootPaths)
      (mapEntries
        (c.read (Mem.BytesForConfig mem (some c)).memory).IgnoreIDOrCategoryToRootPaths) ∧
    (c.read (Mem.BytesForConfig mem (some c)).memory).IgnoreIDOrCategoryToRootPaths.isSome
      = (c.read mem).IgnoreIDOrCategoryToRootPaths.isSome ∧
    (c.read (Mem.BytesForConfig mem (some c)).memory).IgnoreUnstablePackages
      = (c.read mem).IgnoreUnstablePackages ∧
    (c.read (Mem.BytesForConfig mem (some c)).memory).Version = (c.read mem).Version := by
  obtain ⟨c', hc', h1, h2, h3, h4, h5, h6, h7⟩ := bytesForConfig_sorts_in_place (c.read mem)
  have hb := (bytesForConfig_separate mem c h).2.2
  rw [hc'] at hb
  have hcc : c.read (Mem.BytesForConfig mem (some c)).memory = c' := Option.some.inj hb
  rw [hcc]
  exact ⟨h1, h2, h3, h4, h5, h6, h7⟩

/-- The Config `sampleSeparateXY` holds `use = [c, a, b]` before the call and
`use = [a, b, c]` after it. -/
theorem bytesForConfig_separate_sorts_in_place_witness :
    sampleSeparateXY.Separate ∧
    (sampleSeparateXY.read
        (Mem.BytesForConfig sampleMemory (some sampleSeparateXY)).memory).Use.Perm
      (sampleSeparateXY.read sampleMemory).Use ∧
    (sampleSeparateXY.read
        (Mem.BytesForConfig sampleMemory (some sampleSeparateXY)).memory).Use.Pairwise strLE ∧
    (sampleSeparateXY.read sampleMemory).Use = ["c", "a", "b"] ∧
    (sampleSeparateXY.read
        (Mem.BytesForConfig sampleMemory (some sampleSeparateXY)).memory).Use
      = ["a", "b", "c"] :=
  have hA : sampleSeparateXY.Separate := by decide
  ⟨hA, (bytesForConfig_separate_sorts_in_place sampleMemory sampleSeparateXY hA).1.1,
    (bytesForConfig_separate_sorts_in_place sampleMemory sampleSeparateXY hA).1.2,
    by decide, by decide⟩

/-- C4, as stated, fails when slices share storage. With `Use` the window `[0:2]`
and `IgnoreRootPaths` the window `[1:3]` of the array `c, a, b`, the structure
that is serialized holds `use = [a, b]`, which is no permutation of the
`use = [c, a]` of the input; and in the map of `sampleSharedMapYX` the entry `Y`
is serialized with the paths `[c, b]`, which are not in ascending order. -/
theorem configToJSON_shared_not_normalized :
    (sampleShared.read sampleMemory).Use = ["c", "a"] ∧
    ((Mem.configToJSON sampleMemory sampleShared).1.read
      (Mem.configToJSON sampleMemory sampleShared).2).Use = ["a", "b"] ∧
    ¬ (["a", "b"] : List String).Perm ["c", "a"] ∧
    ((Mem.configToJSON sampleMemory sampleSharedMapYX).1.read
      (Mem.configToJSON sampleMemory sampleSharedMapYX).2).IgnoreIDOrCategoryToRootPaths
      = [{ ID := "X", Paths := ["a", "c"] }, { ID := "Y", Paths := ["c", "b"] }] ∧
    ¬ (["c", "b"] : List String).Pairwise strLE := by
  refine ⟨by decide, by decide, by decide, by decide, by decide⟩

/-- C4, amended: for every non-nil Config whose slices share no storage, in the
structure that `BytesForConfig` serializes `use`, `except` and `ignoreRootPaths`
are sorted ascending and are permutations of the input sequences (duplicates
kept); the entries have strictly ascending ids, their ids are exactly the keys
of the map, one entry per key, and the paths of each entry are a sorted
permutation of the path list of its key. -/
theorem configToJSON_separate_normalized (mem : Mem.Memory) (c : Mem.Config)
    (h : c.Separate) :
    (((Mem.configToJSON mem c).1.read (Mem.configToJSON mem c).2).Use.Pairwise strLE ∧
      ((Mem.configToJSON mem c).1.read (Mem.configToJSON mem c).2).Use.Perm (c.read mem).Use) ∧
    (((Mem.configToJSON mem c).1.read (Mem.configToJSON mem c).2).Except.Pairwise strLE ∧
      ((Mem.configToJSON mem c).1.read (Mem.configToJSON mem c).2).Except.Perm
        (c.read mem).Except) ∧
    (((Mem.configToJSON mem c).1.read (Mem.configToJSON mem c).2).IgnoreRootPaths.Pairwise
        strLE ∧
      ((Mem.configToJSON mem c).1.read (Mem.configToJSON mem c).2).IgnoreRootPaths.Perm
        (c.read mem).IgnoreRootPaths) ∧
    (((Mem.configToJSON mem c).1.read
      (Mem.configToJSON mem c).2).IgnoreIDOrCategoryToRootPaths.map idPathsJSON.ID).Pairwise
        strLT ∧
    (((Mem.configToJSON mem c).1.read
      (Mem.configToJSON mem c).2).IgnoreIDOrCategoryToRootPaths.map idPathsJSON.ID).Perm
        ((mapEntries (c.read mem).IgnoreIDOrCategoryToRootPaths).map Prod.fst) ∧
    ((Mem.configToJSON mem c).1.read
      (Mem.configToJSON mem c).2).IgnoreIDOrCategoryToRootPaths.length
      = (mapEntries (c.read mem).IgnoreIDOrCategoryToRootPaths).length ∧
    (∀ e ∈ ((Mem.configToJSON mem c).1.read
        (Mem.configToJSON mem c).2).IgnoreIDOrCategoryToRootPaths,
      ∃ paths, (e.ID, paths) ∈ mapEntries (c.read mem).IgnoreIDOrCategoryToRootPaths ∧
        e.Paths.Pairwise strLE ∧ e.Paths.Perm paths) := by
  rw [configToJSON_separate mem c h]
  exact configToJSON_normalized (c.read mem)

/-- The Config `sampleSeparateYX`: the structure that is serialized holds
`use = [a, b, c]` and the entries `X`, `Y` in this order. -/
theorem configToJSON_separate_normalized_witness :
    sampleSeparateYX.Separate ∧
    ((Mem.configToJSON sampleMemory sampleSeparateYX).1.read
      (Mem.configToJSON sampleMemory sampleSeparateYX).2).Use.Pairwise strLE ∧
    ((Mem.configToJSON sampleMemory sampleSeparateYX).1.read
      (Mem.configToJSON sampleMemory sampleSeparateYX).2).Use.Perm
        (sampleSeparateYX.read sampleMemory).Use ∧
    (((Mem.configToJSON sampleMemory sampleSeparateYX).1.read
      (Mem.configToJSON sampleMemory sampleSeparateYX).2).IgnoreIDOrCategoryToRootPaths.map
        idPathsJSON.ID).Pairwise strLT ∧
    ((Mem.configToJSON sampleMemory sampleSeparateYX).1.read
      (Mem.configToJSON sampleMemory sampleSeparateYX).2).IgnoreIDOrCategoryToRootPaths
      = [{ ID := "X", Paths := ["a", "b"] }, { ID := "Y", Paths := ["b", "c"] }] :=
  have hA : sampleSeparateYX.Separate := by decide
  ⟨hA, (configToJSON_separate_normalized sampleMemory sampleSeparateYX hA).1.1,
    (configToJSON_separate_normalized sampleMemory sampleSeparateYX hA).1.2,
    (configToJSON_separate_normalized sampleMemory sampleSeparateYX hA).2.2.2.1,
    by decide⟩

/-- C25, as stated, fails when slices share storage. With `Use` the window
`[0:2]` and `IgnoreRootPaths` the window `[1:3]` of the array `c, a, b`, the
bytes are those of the Config with `use = [a, b]` and
`ignoreRootPaths = [b, c]`, although `use = [c, a]` is no permutation of
`[a, b]`. -/
theorem bytesForConfig_shared_collision :
    (Mem.BytesForConfig sampleMemory (some sampleShared)).bytes
      = some "\x7b\"use\":[\"a\",\"b\"],\"ignore_root_paths\":[\"b\",\"c\"]\x7d" ∧
    (Mem.BytesForConfig sampleMemory (some sampleUnshared)).bytes
      = some "\x7b\"use\":[\"a\",\"b\"],\"ignore_root_paths\":[\"b\",\"c\"]\x7d" ∧
    (sampleShared.read sampleMemory).Use = ["c", "a"] ∧
    (sampleUnshared.read sampleMemory).Use = ["a", "b"] ∧
    ¬ (sampleShared.read sampleMemory).Use.Perm (sampleUnshared.read sampleMemory).Use := by
  refine ⟨by decide, by decide, by decide, by decide, by decide⟩

/-- C25, amended: the canonical bytes are a sound fingerprint of Configs whose
slices share no storage. When `BytesForConfig` returns equal bytes for two such
non-nil Configs `A` and `B`, then `A` and `B` have the same version and the same
`IgnoreUnstablePackages`, their `Use`, `Except` and `IgnoreRootPaths` are equal
as multisets, their maps hold a value under the same keys, and under each key
the two path lists are equal as multisets. -/
theorem bytesForConfig_separate_sound_fingerprint (memA memB : Mem.Memory)
    (A B : Mem.Config) (hA : A.Separate) (hB : B.Separate)
    (h : (Mem.BytesForConfig memA (some A)).bytes = (Mem.BytesForConfig memB (some B)).bytes) :
    (A.read memA).Version = (B.read memB).Version ∧
    (A.read memA).IgnoreUnstablePackages = (B.read memB).IgnoreUnstablePackages ∧
    (A.read memA).Use.Perm (B.read memB).Use ∧
    (A.read memA).Except.Perm (B.read memB).Except ∧
    (A.read memA).IgnoreRootPaths.Perm (B.read memB).IgnoreRootPaths ∧
    (∀ key, (mapGet (A.read memA).IgnoreIDOrCategoryToRootPaths key).isSome
      = (mapGet (B.read memB).IgnoreIDOrCategoryToRootPaths key).isSome) ∧
    (∀ key pa pb, mapGet (A.read memA).IgnoreIDOrCategoryToRootPaths key = some pa →
      mapGet (B.read memB).IgnoreIDOrCategoryToRootPaths key = some pb → pa.Perm pb) := by
  rw [(bytesForConfig_separate memA A hA).1, (bytesForConfig_separate memB B hB).1] at h
  exact bytesForConfig_sound_fingerprint (A.read memA) (B.read memB) h

/-- The Configs `sampleSeparateXY` and `sampleSeparateYX` have equal bytes, and
they are equal up to order. -/
theorem bytesForConfig_separate_sound_fingerprint_witness :
    (sampleSeparateXY.Separate ∧ sampleSeparateYX.Separate ∧
      (Mem.BytesForConfig sampleMemory (some sampleSeparateXY)).bytes
        = (Mem.BytesForConfig sampleMemory (some sampleSeparateYX)).bytes) ∧
    (sampleSeparateXY.read sampleMemory).Use.Perm (sampleSeparateYX.read sampleMemory).Use ∧
    (∀ key pa pb,
      mapGet (sampleSeparateXY.read sampleMemory).IgnoreIDOrCategoryToRootPaths key = some pa →
      mapGet (sampleSeparateYX.read sampleMemory).IgnoreIDOrCategoryToRootPaths key = some pb →
      pa.Perm pb) :=
  have hA : sampleSeparateXY.Separate := by decide
  have hB : sampleSeparateYX.Separate := by decide
  have hr : (sampleSeparateXY.read sampleMemory).Rearranged
      (sampleSeparateYX.read sampleMemory) :=
    ⟨by decide, by decide, by decide,
      ⟨[("Y", ["b", "c"]), ("X", ["a", "b"])], by decide,
        List.Forall₂.cons ⟨rfl, by decide⟩ (List.Forall₂.cons ⟨rfl, by decide⟩ List.Forall₂.nil)⟩,
      rfl, rfl⟩
  have hb : (Mem.BytesForConfig sampleMemory (some sampleSeparateXY)).bytes
      = (Mem.BytesForConfig sampleMemory (some sampleSeparateYX)).bytes :=
    (bytesForConfig_separate sampleMemory sampleSeparateXY hA).1.trans
      ((congrArg (fun j => some (jsonMarshal j)) (configToJSON_rearranged hr)).trans
        (bytesForConfig_separate sampleMemory sampleSeparateYX hB).1.symm)
  ⟨⟨hA, hB, hb⟩,
    (bytesForConfig_separate_sound_fingerprint sampleMemory sampleMemory
      sampleSeparateXY sampleSeparateYX hA hB hb).2.2.1,
    (bytesForConfig_separate_sound_fingerprint sampleMemory sampleMemory
      sampleSeparateXY sampleSeparateYX hA hB hb).2.2.2.2.2.2⟩

end Buf
